import Mathlib

/-! changroup: publish/subscribe over a group of channels

A verification development for the Go package `changroup`
(`linked_list.go`, `group.go`, `ackable.go`).

The heap is explicit: a pointer is a natural number (an address), `nil` is
`Option.none`, and every Go object lives in a map from addresses to records.
Goroutines are modelled by an interleaving semantics: each goroutine is a record
with a program counter, and one `Action` lets one goroutine execute its next
statement.  An action whose goroutine is blocked leaves the state unchanged.
-/

namespace changroup

/-! ## linked_list.go -/

/-- Element of the doubly linked list (`node[T]`).  The back pointer `list` of the Go
struct is not stored: a group owns one list and `Delete` receives it explicitly. -/
structure node (α : Type) where
  elem : α
  prev : Option Nat
  next : Option Nat

/-- Doubly linked list (`list[T]`) together with the heap its nodes live in.
`size` is the next fresh node address.  `mu` is the state of the `sync.RWMutex`:
the number of goroutines holding the read lock (sections under the write lock
run as one atomic step, enabled only when `mu = 0`). -/
structure list (α : Type) where
  heap : Nat → node α
  size : Nat
  first : Option Nat
  last : Option Nat
  mu : Nat

/-- Constructor `newList`. -/
def newList {α : Type} [Inhabited α] : list α :=
  { heap := fun _ => { elem := default, prev := none, next := none }
    size := 0
    first := none
    last := none
    mu := 0 }

/-- Assignment `x.prev = v` in heap `h`. -/
def setPrev {α : Type} (h : Nat → node α) (x : Nat) (v : Option Nat) : Nat → node α :=
  Function.update h x { h x with prev := v }

/-- Assignment `x.next = v` in heap `h`. -/
def setNext {α : Type} (h : Nat → node α) (x : Nat) (v : Option Nat) : Nat → node α :=
  Function.update h x { h x with next := v }

/-- Body of `list.Insert`: allocates a node at the end of the list and returns the list and
the node pointer. -/
def list.Insert {α : Type} (l : list α) (elem : α) : list α × Nat :=
  -- n := &node[T]{elem: elem, prev: l.last, next: nil, list: l}
  let n := l.size
  let h0 := Function.update l.heap n { elem := elem, prev := l.last, next := none }
  match l.last with
  -- if l.last == nil { l.first = n }
  | none => ({ l with heap := h0, size := n + 1, first := some n, last := some n }, n)
  -- else { l.last.next = n }
  | some la => ({ l with heap := setNext h0 la (some n), size := n + 1, last := some n }, n)

/-- Modelled from the spec: `list.Append`, the method that `AckableGroup.Acquire` and the tests
of the list call and that linked_list.go does not define.  The registry of the spec has one
insertion, which "appends entry at the tail; returns a stable handle": that is `Insert`. -/
def list.Append {α : Type} (l : list α) (elem : α) : list α × Nat :=
  l.Insert elem

/-- Body of `node.Delete` for the node at address `n`, statement by statement. -/
def list.Delete {α : Type} (l : list α) (n : Nat) : list α :=
  -- if n.list.first == n { n.list.first = n.next }
  let first := if l.first = some n then (l.heap n).next else l.first
  -- if n.list.last == n { n.list.last = n.prev }
  let last := if l.last = some n then (l.heap n).prev else l.last
  -- if n.next != nil { n.next.prev = n.prev }
  let h1 := match (l.heap n).next with
    | some nx => setPrev l.heap nx (l.heap n).prev
    | none => l.heap
  -- if n.prev != nil { n.prev.next = n.next }
  let h2 := match (h1 n).prev with
    | some pv => setNext h1 pv (h1 n).next
    | none => h1
  -- n.next, n.prev = nil, nil
  let h3 := setPrev (setNext h2 n none) n none
  { l with heap := h3, first := first, last := last }

/-- Loop of `list.ForEach`: the addresses of the nodes visited from `cur`, following
`next`; the loop is cut after `fuel` iterations. -/
def walk {α : Type} (heap : Nat → node α) : Nat → Option Nat → List Nat
  | 0, _ => []
  | _ + 1, none => []
  | fuel + 1, some n => n :: walk heap fuel (heap n).next

/-- Addresses of the nodes `ForEach` visits, in order. -/
def list.nodes {α : Type} (l : list α) : List Nat :=
  walk l.heap l.size l.first

/-- Elements `list.ForEach` passes to its callback, in order. -/
def list.ForEach {α : Type} (l : list α) : List α :=
  l.nodes.map (fun n => (l.heap n).elem)

/-! ### Well-formed link structure -/

/-- Starting from pointer `p` and following `f`, one meets exactly `ids` and then nil. -/
def chainBy (f : Nat → Option Nat) : Option Nat → List Nat → Prop
  | p, [] => p = none
  | p, i :: is => p = some i ∧ chainBy f (f i) is

/-- The list links exactly the nodes `ids`, in this order. -/
structure WF {α : Type} (l : list α) (ids : List Nat) : Prop where
  fwd : chainBy (fun i => (l.heap i).next) l.first ids
  bwd : chainBy (fun i => (l.heap i).prev) l.last ids.reverse
  nodup : ids.Nodup
  lt : ∀ i ∈ ids, i < l.size
  iso : ∀ i, i ∉ ids → (l.heap i).prev = none ∧ (l.heap i).next = none

theorem chainBy_congr {f g : Nat → Option Nat} {ids : List Nat} {p : Option Nat}
    (h : ∀ i ∈ ids, f i = g i) (hc : chainBy f p ids) : chainBy g p ids := by
  induction ids generalizing p with
  | nil => exact hc
  | cons i is ih =>
    refine ⟨hc.1, ?_⟩
    rw [← h i (List.mem_cons_self _ _)]
    exact ih (fun j hj => h j (List.mem_cons_of_mem _ hj)) hc.2

theorem chainBy_head {f : Nat → Option Nat} {ids : List Nat} {p : Option Nat}
    (hc : chainBy f p ids) : p = ids.head? := by
  cases ids with
  | nil => exact hc
  | cons i is => exact hc.1

theorem chainBy_unique {f : Nat → Option Nat} {p : Option Nat} {xs ys : List Nat}
    (hx : chainBy f p xs) (hy : chainBy f p ys) : xs = ys := by
  induction xs generalizing p ys with
  | nil =>
    cases ys with
    | nil => rfl
    | cons j js => simp [chainBy] at hx hy; simp [hx] at hy
  | cons i is ih =>
    cases ys with
    | nil => simp [chainBy] at hx hy; simp [hy] at hx
    | cons j js =>
      simp only [chainBy] at hx hy
      have : i = j := by
        have := hx.1.symm.trans hy.1
        simpa using this
      subst this
      rw [ih hx.2 hy.2]

theorem chainBy_mem_next {f : Nat → Option Nat} {ids : List Nat} {p : Option Nat}
    (hc : chainBy f p ids) {i m : Nat} (hi : i ∈ ids) (hm : f i = some m) : m ∈ ids := by
  induction ids generalizing p with
  | nil => cases hi
  | cons a as ih =>
    rcases List.mem_cons.1 hi with rfl | hi'
    · have h2 := hc.2
      cases as with
      | nil => simp [chainBy, hm] at h2
      | cons b bs =>
        have := h2.1
        rw [hm] at this
        cases this
        simp
    · exact List.mem_cons_of_mem _ (ih hc.2 hi')

/-- In the middle of a chain, the link of a node is the head of what follows it. -/
theorem chainBy_mid {f : Nat → Option Nat} {xs ys : List Nat} {p : Option Nat} {a : Nat}
    (hc : chainBy f p (xs ++ a :: ys)) : f a = ys.head? := by
  induction xs generalizing p with
  | nil => exact chainBy_head hc.2
  | cons x xs ih => exact ih hc.2

/-- Appending a fresh last node: every node whose link is nil now links to `n`. -/
theorem chainBy_snoc {f g : Nat → Option Nat} {ids : List Nat} {p : Option Nat} {n : Nat}
    (hc : chainBy f p ids)
    (hg : ∀ i ∈ ids, g i = if f i = none then some n else f i)
    (hgn : g n = none) :
    chainBy g (if p = none then some n else p) (ids ++ [n]) := by
  induction ids generalizing p with
  | nil =>
    have : p = none := hc
    simp [chainBy, hgn, this]
  | cons i is ih =>
    have hp : p = some i := hc.1
    subst hp
    simp only [List.cons_append, chainBy, reduceCtorEq, if_false, true_and]
    have key := ih hc.2 (fun k hk => hg k (List.mem_cons_of_mem _ hk))
    rw [hg i (List.mem_cons_self _ _)]
    exact key

/-- Unlinking `n`: every node that linked to `n` now links to the successor of `n`. -/
theorem chainBy_splice {f g : Nat → Option Nat} {xs ys : List Nat} {p : Option Nat} {n : Nat}
    (hc : chainBy f p (xs ++ n :: ys)) (hx : n ∉ xs) (hy : n ∉ ys)
    (hg : ∀ i ∈ xs ++ ys, g i = if f i = some n then f n else f i) :
    chainBy g (if p = some n then f n else p) (xs ++ ys) := by
  induction xs generalizing p with
  | nil =>
    have hp : p = some n := hc.1
    subst hp
    simp only [if_true, List.nil_append]
    have h2 : chainBy f (f n) ys := hc.2
    refine chainBy_congr (fun i hi => ?_) h2
    have := hg i (by simpa using hi)
    rw [this, if_neg]
    intro h
    exact hy (chainBy_mem_next h2 hi h)
  | cons x xs ih =>
    have hp : p = some x := hc.1
    subst hp
    have hxn : x ≠ n := fun h => hx (h ▸ List.mem_cons_self _ _)
    have hne : (some x : Option Nat) ≠ some n := fun h => hxn (Option.some.inj h)
    simp only [hne, if_false, List.cons_append, chainBy, true_and]
    have key := ih hc.2 (fun h => hx (List.mem_cons_of_mem _ h))
      (fun k hk => hg k (by
        rw [List.cons_append]
        exact List.mem_cons_of_mem _ hk))
    rw [hg x (by simp)]
    exact key

theorem walk_eq_of_chainBy {α : Type} {heap : Nat → node α} {ids : List Nat} {p : Option Nat}
    (hc : chainBy (fun i => (heap i).next) p ids) {fuel : Nat} (hf : ids.length ≤ fuel) :
    walk heap fuel p = ids := by
  induction ids generalizing p fuel with
  | nil =>
    have : p = none := hc
    subst this
    cases fuel <;> rfl
  | cons i is ih =>
    have hp : p = some i := hc.1
    subst hp
    cases fuel with
    | zero => simp at hf
    | succ fuel =>
      simp only [walk]
      rw [ih hc.2 (by simpa using hf)]

theorem nodup_length_le {ids : List Nat} {n : Nat} (hn : ids.Nodup) (hl : ∀ i ∈ ids, i < n) :
    ids.length ≤ n := by
  have h : ids ⊆ List.range n := fun i hi => List.mem_range.2 (hl i hi)
  have := (List.subperm_of_subset hn h).length_le
  simpa using this

namespace WF

variable {α : Type} {l : list α} {ids : List Nat}

theorem nodes_eq (h : WF l ids) : l.nodes = ids :=
  walk_eq_of_chainBy h.fwd (nodup_length_le h.nodup h.lt)

theorem first_eq (h : WF l ids) : l.first = ids.head? := chainBy_head h.fwd

theorem last_eq (h : WF l ids) : l.last = ids.getLast? := by
  have := chainBy_head h.bwd
  rw [this, List.head?_reverse]

/-- For a linked node, `n.next.prev == n`. -/
theorem next_prev (h : WF l ids) {i j : Nat} (hi : i ∈ ids) (hj : (l.heap i).next = some j) :
    j ∈ ids ∧ (l.heap j).prev = some i := by
  obtain ⟨xs, ys, rfl⟩ := List.append_of_mem hi
  have h1 := chainBy_mid h.fwd
  simp only at h1
  rw [hj] at h1
  cases ys with
  | nil => simp at h1
  | cons y ys =>
    simp at h1
    subst h1
    refine ⟨by simp, ?_⟩
    have hb := h.bwd
    have e : (xs ++ i :: j :: ys).reverse = ys.reverse ++ j :: (i :: xs.reverse) := by simp
    rw [e] at hb
    have := chainBy_mid hb
    simpa using this

/-- For a linked node, `n.prev.next == n`. -/
theorem prev_next (h : WF l ids) {i j : Nat} (hi : i ∈ ids) (hj : (l.heap i).prev = some j) :
    j ∈ ids ∧ (l.heap j).next = some i := by
  obtain ⟨xs, ys, rfl⟩ := List.append_of_mem hi
  have hb := h.bwd
  have e : (xs ++ i :: ys).reverse = ys.reverse ++ i :: xs.reverse := by simp
  rw [e] at hb
  have h1 := chainBy_mid hb
  simp only at h1
  rw [hj] at h1
  rcases List.eq_nil_or_concat xs with rfl | ⟨xs0, x, rfl⟩
  · simp at h1
  · simp at h1
    subst h1
    refine ⟨by simp, ?_⟩
    have hf := h.fwd
    have e2 : xs0.concat j ++ i :: ys = xs0 ++ j :: (i :: ys) := by simp
    rw [e2] at hf
    have := chainBy_mid hf
    simpa using this

theorem next_ne_self (h : WF l ids) {i : Nat} (hi : i ∈ ids) : (l.heap i).next ≠ some i := by
  intro hj
  obtain ⟨xs, ys, rfl⟩ := List.append_of_mem hi
  have h1 := chainBy_mid h.fwd
  simp only at h1
  rw [hj] at h1
  cases ys with
  | nil => simp at h1
  | cons y ys =>
    simp at h1
    subst h1
    have := h.nodup
    simp [List.nodup_append] at this

theorem prev_ne_self (h : WF l ids) {i : Nat} (hi : i ∈ ids) : (l.heap i).prev ≠ some i := by
  intro hj
  have := (h.prev_next hi hj).2
  exact h.next_ne_self hi this

end WF

/-! ### Effect of `Insert` and `Delete` on the fields of every node -/

section fields

variable {α : Type}

@[simp] theorem setPrev_elem (h : Nat → node α) (x i : Nat) (v : Option Nat) :
    (setPrev h x v i).elem = (h i).elem := by
  unfold setPrev; by_cases e : i = x <;> simp [Function.update_apply, e]

@[simp] theorem setPrev_next (h : Nat → node α) (x i : Nat) (v : Option Nat) :
    (setPrev h x v i).next = (h i).next := by
  unfold setPrev; by_cases e : i = x <;> simp [Function.update_apply, e]

@[simp] theorem setPrev_prev (h : Nat → node α) (x i : Nat) (v : Option Nat) :
    (setPrev h x v i).prev = if i = x then v else (h i).prev := by
  unfold setPrev; by_cases e : i = x <;> simp [Function.update_apply, e]

@[simp] theorem setNext_elem (h : Nat → node α) (x i : Nat) (v : Option Nat) :
    (setNext h x v i).elem = (h i).elem := by
  unfold setNext; by_cases e : i = x <;> simp [Function.update_apply, e]

@[simp] theorem setNext_prev (h : Nat → node α) (x i : Nat) (v : Option Nat) :
    (setNext h x v i).prev = (h i).prev := by
  unfold setNext; by_cases e : i = x <;> simp [Function.update_apply, e]

@[simp] theorem setNext_next (h : Nat → node α) (x i : Nat) (v : Option Nat) :
    (setNext h x v i).next = if i = x then v else (h i).next := by
  unfold setNext; by_cases e : i = x <;> simp [Function.update_apply, e]

theorem Insert_size (l : list α) (e : α) : (l.Insert e).1.size = l.size + 1 := by
  unfold list.Insert; cases l.last <;> rfl

theorem Insert_snd (l : list α) (e : α) : (l.Insert e).2 = l.size := by
  unfold list.Insert; cases l.last <;> rfl

theorem Insert_mu (l : list α) (e : α) : (l.Insert e).1.mu = l.mu := by
  unfold list.Insert; cases l.last <;> rfl

theorem Insert_last (l : list α) (e : α) : (l.Insert e).1.last = some l.size := by
  unfold list.Insert; cases l.last <;> rfl

theorem Insert_first (l : list α) (e : α) :
    (l.Insert e).1.first = if l.last = none then some l.size else l.first := by
  unfold list.Insert; cases l.last <;> rfl

theorem Insert_elem (l : list α) (e : α) (i : Nat) :
    ((l.Insert e).1.heap i).elem = if i = l.size then e else (l.heap i).elem := by
  unfold list.Insert
  by_cases e : i = l.size <;> cases l.last <;> simp [Function.update_apply, e]

theorem Insert_prev (l : list α) (e : α) (i : Nat) :
    ((l.Insert e).1.heap i).prev = if i = l.size then l.last else (l.heap i).prev := by
  unfold list.Insert
  by_cases e : i = l.size <;> cases hl : l.last <;> simp [Function.update_apply, e, hl]

theorem Insert_next (l : list α) (e : α) (i : Nat) (h : l.last ≠ some l.size) :
    ((l.Insert e).1.heap i).next =
      if i = l.size then none else if l.last = some i then some l.size else (l.heap i).next := by
  unfold list.Insert
  by_cases e : i = l.size
  · subst e
    cases hl : l.last with
    | none => simp [Function.update_apply]
    | some la =>
      have : l.size ≠ la := fun e => h (by rw [hl, e])
      simp [Function.update_apply, this]
  · cases hl : l.last with
    | none => simp [Function.update_apply, e]
    | some la =>
      by_cases e2 : i = la
      · subst e2; simp [Function.update_apply, e]
      · have : la ≠ i := fun h => e2 h.symm
        simp [Function.update_apply, e, e2, this]

theorem Delete_size (l : list α) (n : Nat) : (l.Delete n).size = l.size := rfl

theorem Delete_mu (l : list α) (n : Nat) : (l.Delete n).mu = l.mu := rfl

theorem Delete_first (l : list α) (n : Nat) :
    (l.Delete n).first = if l.first = some n then (l.heap n).next else l.first := rfl

theorem Delete_last (l : list α) (n : Nat) :
    (l.Delete n).last = if l.last = some n then (l.heap n).prev else l.last := rfl

theorem Delete_elem (l : list α) (n i : Nat) :
    ((l.Delete n).heap i).elem = (l.heap i).elem := by
  unfold list.Delete
  cases hn : (l.heap n).next <;> cases hp : (l.heap n).prev <;> simp [hp]

theorem Delete_next (l : list α) (n i : Nat)
    (h1 : (l.heap n).next ≠ some n) :
    ((l.Delete n).heap i).next =
      if i = n then none
      else if (l.heap n).prev = some i then (l.heap n).next else (l.heap i).next := by
  unfold list.Delete
  by_cases e : i = n
  · simp [e]
  · cases hn : (l.heap n).next with
    | none =>
      cases hp : (l.heap n).prev with
      | none => simp [e, hp]
      | some pv =>
        by_cases e2 : i = pv
        · simp [e, hp, hn, e2]
        · have : pv ≠ i := fun h => e2 h.symm
          simp [e, hp, hn, e2, this]
    | some nx =>
      have hnx : n ≠ nx := fun h => h1 (by rw [hn, ← h])
      cases hp : (l.heap n).prev with
      | none => simp [e, hp, hnx]
      | some pv =>
        by_cases e2 : i = pv
        · simp [e, hp, hn, e2, hnx]
        · have : pv ≠ i := fun h => e2 h.symm
          simp [e, hp, hn, e2, this, hnx]

theorem Delete_prev (l : list α) (n i : Nat)
    (h1 : (l.heap n).next ≠ some n) :
    ((l.Delete n).heap i).prev =
      if i = n then none
      else if (l.heap n).next = some i then (l.heap n).prev else (l.heap i).prev := by
  unfold list.Delete
  by_cases e : i = n
  · simp [e]
  · cases hn : (l.heap n).next with
    | none =>
      cases hp : (l.heap n).prev with
      | none => simp [e, hp]
      | some pv => simp [e, hp, hn]
    | some nx =>
      have hnx : n ≠ nx := fun h => h1 (by rw [hn, ← h])
      by_cases e2 : i = nx
      · cases hp : (l.heap n).prev <;> simp [e, hp, hn, e2, hnx]
      · have : nx ≠ i := fun h => e2 h.symm
        cases hp : (l.heap n).prev <;> simp [e, hp, hn, e2, hnx, this]

end fields

/-! ### `Insert` and `Delete` keep the link structure well formed -/

namespace WF

variable {α : Type} {l : list α} {ids : List Nat}

theorem newList (α : Type) [Inhabited α] : WF (changroup.newList : list α) [] :=
  { fwd := rfl
    bwd := rfl
    nodup := List.nodup_nil
    lt := fun _ h => nomatch h
    iso := fun _ _ => ⟨rfl, rfl⟩ }

theorem first_mem (h : WF l ids) {i : Nat} (hi : l.first = some i) : i ∈ ids := by
  rw [h.first_eq] at hi
  exact List.mem_of_mem_head? hi

theorem last_mem (h : WF l ids) {i : Nat} (hi : l.last = some i) : i ∈ ids := by
  rw [h.last_eq] at hi
  exact List.mem_of_mem_getLast? hi

theorem last_ne_size (h : WF l ids) : l.last ≠ some l.size := by
  intro e
  have := h.lt _ (h.last_mem e)
  omega

/-- A linked node has no successor exactly when it is `last`. -/
theorem next_none_iff (h : WF l ids) {i : Nat} (hi : i ∈ ids) :
    (l.heap i).next = none ↔ l.last = some i := by
  obtain ⟨xs, ys, rfl⟩ := List.append_of_mem hi
  have h1 := chainBy_mid h.fwd
  simp only at h1
  rw [h1, h.last_eq]
  cases ys with
  | nil => simp
  | cons y ys =>
    simp only [List.head?_cons, reduceCtorEq, false_iff]
    intro e
    have e2 : (xs ++ i :: y :: ys).getLast? = (y :: ys).getLast? := by
      rw [show xs ++ i :: y :: ys = (xs ++ [i]) ++ (y :: ys) by simp]
      exact List.getLast?_append_of_ne_nil _ (by simp)
    rw [e2] at e
    have hm : i ∈ y :: ys := List.mem_of_mem_getLast? e
    have := h.nodup
    rw [List.nodup_append] at this
    have hd := this.2.1
    exact (List.nodup_cons.1 hd).1 hm

theorem first_none_iff (h : WF l ids) : l.first = none ↔ l.last = none := by
  rw [h.first_eq, h.last_eq]
  cases ids <;> simp

/-- After `Insert` the list links the old nodes followed by the new one. -/
theorem Insert (h : WF l ids) (e : α) : WF (l.Insert e).1 (ids ++ [l.size]) := by
  have hfresh : l.size ∉ ids := fun hm => by have := h.lt _ hm; omega
  have hne : ∀ i ∈ ids, i ≠ l.size := fun i hi e => hfresh (e ▸ hi)
  refine ⟨?_, ?_, ?_, ?_, ?_⟩
  · have key := chainBy_snoc (g := fun i => ((l.Insert e).1.heap i).next) (n := l.size) h.fwd
      (fun i hi => by
        simp only
        rw [Insert_next _ _ _ h.last_ne_size, if_neg (hne i hi)]
        by_cases hl : l.last = some i
        · rw [if_pos hl, if_pos ((h.next_none_iff hi).2 hl)]
        · rw [if_neg hl, if_neg (fun hn => hl ((h.next_none_iff hi).1 hn))])
      (by simp only; rw [Insert_next _ _ _ h.last_ne_size, if_pos rfl])
    rw [Insert_first]
    by_cases hl : l.last = none
    · rw [if_pos hl]; rw [if_pos (h.first_none_iff.2 hl)] at key; exact key
    · rw [if_neg hl]; rw [if_neg (fun hf => hl (h.first_none_iff.1 hf))] at key; exact key
  · rw [List.reverse_append, List.reverse_singleton, List.singleton_append]
    refine ⟨Insert_last _ _, ?_⟩
    show chainBy _ ((l.Insert e).1.heap l.size).prev ids.reverse
    rw [Insert_prev, if_pos rfl]
    refine chainBy_congr (fun i hi => ?_) h.bwd
    show (l.heap i).prev = ((l.Insert e).1.heap i).prev
    rw [Insert_prev, if_neg (hne i (List.mem_reverse.1 hi))]
  · rw [List.nodup_append]
    refine ⟨h.nodup, List.nodup_singleton _, ?_⟩
    intro a ha hb
    rw [List.mem_singleton] at hb
    exact hfresh (hb ▸ ha)
  · intro i hi
    rw [Insert_size]
    rcases List.mem_append.1 hi with hi | hi
    · have := h.lt i hi; omega
    · rw [List.mem_singleton] at hi; omega
  · intro i hi
    rw [List.mem_append, List.mem_singleton, not_or] at hi
    have hiso := h.iso i hi.1
    rw [Insert_prev, if_neg hi.2, Insert_next _ _ _ h.last_ne_size, if_neg hi.2]
    refine ⟨hiso.1, ?_⟩
    rw [if_neg (fun hl => hi.1 (h.last_mem hl))]
    exact hiso.2

theorem next_ne (h : WF l ids) (n : Nat) : (l.heap n).next ≠ some n := by
  by_cases hn : n ∈ ids
  · exact h.next_ne_self hn
  · rw [(h.iso n hn).2]; simp

/-- Fields of every node after `Delete`, for a well-formed list. -/
theorem Delete_next_eq (h : WF l ids) (n i : Nat) :
    ((l.Delete n).heap i).next =
      if i = n then none
      else if (l.heap i).next = some n then (l.heap n).next else (l.heap i).next := by
  rw [Delete_next _ _ _ (h.next_ne n)]
  by_cases e : i = n
  · simp [e]
  · simp only [e, if_false]
    by_cases hp : (l.heap n).prev = some i
    · have hn : n ∈ ids := by
        by_contra hn
        rw [(h.iso n hn).1] at hp
        cases hp
      rw [if_pos hp, if_pos (h.prev_next hn hp).2]
    · rw [if_neg hp]
      by_cases hx : (l.heap i).next = some n
      · exfalso
        have hi : i ∈ ids := by
          by_contra hi
          rw [(h.iso i hi).2] at hx
          cases hx
        exact hp (h.next_prev hi hx).2
      · rw [if_neg hx]

theorem Delete_prev_eq (h : WF l ids) (n i : Nat) :
    ((l.Delete n).heap i).prev =
      if i = n then none
      else if (l.heap i).prev = some n then (l.heap n).prev else (l.heap i).prev := by
  rw [Delete_prev _ _ _ (h.next_ne n)]
  by_cases e : i = n
  · simp [e]
  · simp only [e, if_false]
    by_cases hp : (l.heap n).next = some i
    · have hn : n ∈ ids := by
        by_contra hn
        rw [(h.iso n hn).2] at hp
        cases hp
      rw [if_pos hp, if_pos (h.next_prev hn hp).2]
    · rw [if_neg hp]
      by_cases hx : (l.heap i).prev = some n
      · exfalso
        have hi : i ∈ ids := by
          by_contra hi
          rw [(h.iso i hi).1] at hx
          cases hx
        exact hp (h.prev_next hi hx).2
      · rw [if_neg hx]

/-- After `Delete` of a linked node the list links the other nodes, in the same order. -/
theorem Delete_mem (h : WF l ids) {n : Nat} (hn : n ∈ ids) : WF (l.Delete n) (ids.erase n) := by
  obtain ⟨xs, ys, rfl⟩ := List.append_of_mem hn
  have hnd := h.nodup
  have hx : n ∉ xs := by
    intro hm
    rw [List.nodup_append] at hnd
    exact hnd.2.2 hm (List.mem_cons_self _ _)
  have hy : n ∉ ys := by
    rw [List.nodup_append] at hnd
    exact (List.nodup_cons.1 hnd.2.1).1
  have he : (xs ++ n :: ys).erase n = xs ++ ys := by
    rw [List.erase_append_right _ hx, List.erase_cons_head]
  have hne : ∀ i ∈ xs ++ ys, i ≠ n := by
    intro i hi e
    subst e
    rcases List.mem_append.1 hi with hi | hi
    · exact hx hi
    · exact hy hi
  rw [he]
  refine ⟨?_, ?_, ?_, ?_, ?_⟩
  · rw [Delete_first]
    exact chainBy_splice h.fwd hx hy (fun i hi => by
      show ((l.Delete n).heap i).next = _
      rw [h.Delete_next_eq, if_neg (hne i hi)])
  · rw [Delete_last, List.reverse_append]
    have hb := h.bwd
    rw [show (xs ++ n :: ys).reverse = ys.reverse ++ n :: xs.reverse by simp] at hb
    exact chainBy_splice hb (fun hm => hy (List.mem_reverse.1 hm))
      (fun hm => hx (List.mem_reverse.1 hm)) (fun i hi => by
        show ((l.Delete n).heap i).prev = _
        rw [h.Delete_prev_eq, if_neg (hne i (by
          rw [List.mem_append] at hi ⊢
          rcases hi with hi | hi
          · exact Or.inr (List.mem_reverse.1 hi)
          · exact Or.inl (List.mem_reverse.1 hi)))])
  · rw [← he]; exact hnd.erase n
  · intro i hi
    rw [Delete_size]
    exact h.lt i (by
      rw [List.mem_append] at hi ⊢
      rcases hi with hi | hi
      · exact Or.inl hi
      · exact Or.inr (List.mem_cons_of_mem _ hi))
  · intro i hi
    rw [h.Delete_next_eq, h.Delete_prev_eq]
    by_cases e : i = n
    · simp [e]
    · have hi2 : i ∉ xs ++ n :: ys := by
        intro hm
        apply hi
        rw [List.mem_append] at hm ⊢
        rcases hm with hm | hm
        · exact Or.inl hm
        · rcases List.mem_cons.1 hm with hm | hm
          · exact absurd hm e
          · exact Or.inr hm
      have := h.iso i hi2
      simp [e, this.1, this.2]

/-- `Delete` of a node that is not linked changes no link. -/
theorem Delete_not_mem (h : WF l ids) {n : Nat} (hn : n ∉ ids) : WF (l.Delete n) ids := by
  have hiso := h.iso n hn
  have hnext : ∀ i, ((l.Delete n).heap i).next = (l.heap i).next := by
    intro i
    rw [h.Delete_next_eq]
    by_cases e : i = n
    · simp [e, hiso.2]
    · rw [if_neg e]
      split_ifs with hx
      · exfalso
        have hi : i ∈ ids := by
          by_contra hi
          rw [(h.iso i hi).2] at hx
          cases hx
        exact hn (h.next_prev hi hx).1
      · rfl
  have hprev : ∀ i, ((l.Delete n).heap i).prev = (l.heap i).prev := by
    intro i
    rw [h.Delete_prev_eq]
    by_cases e : i = n
    · simp [e, hiso.1]
    · rw [if_neg e]
      split_ifs with hx
      · exfalso
        have hi : i ∈ ids := by
          by_contra hi
          rw [(h.iso i hi).1] at hx
          cases hx
        exact hn (h.prev_next hi hx).1
      · rfl
  refine ⟨?_, ?_, h.nodup, h.lt, ?_⟩
  · rw [Delete_first, if_neg (fun e => hn (h.first_mem e))]
    exact chainBy_congr (fun i _ => (hnext i).symm) h.fwd
  · rw [Delete_last, if_neg (fun e => hn (h.last_mem e))]
    exact chainBy_congr (fun i _ => (hprev i).symm) h.bwd
  · intro i hi
    rw [hnext, hprev]
    exact h.iso i hi

theorem Delete (h : WF l ids) (n : Nat) : WF (l.Delete n) (ids.erase n) := by
  by_cases hn : n ∈ ids
  · exact h.Delete_mem hn
  · rw [List.erase_of_not_mem hn]
    exact h.Delete_not_mem hn

end WF

/-! ### Counting and collecting over a table -/

/-- Number of indices below `n` at which `f` holds. -/
def cnt (f : Nat → Bool) : Nat → Nat
  | 0 => 0
  | n + 1 => cnt f n + (if f n = true then 1 else 0)

/-- Values of `f` at the indices below `n`, in order. -/
def gather {β : Type} (f : Nat → Option β) : Nat → List β
  | 0 => []
  | n + 1 => gather f n ++ (f n).toList

theorem cnt_congr {f g : Nat → Bool} {n : Nat} (h : ∀ i, i < n → f i = g i) :
    cnt f n = cnt g n := by
  induction n with
  | zero => rfl
  | succ n ih =>
    simp only [cnt]
    rw [ih (fun i hi => h i (by omega)), h n (by omega)]

theorem cnt_pos {f : Nat → Bool} {n p : Nat} (hp : p < n) (hf : f p = true) : 1 ≤ cnt f n := by
  induction n with
  | zero => omega
  | succ n ih =>
    simp only [cnt]
    by_cases e : p = n
    · subst e; simp [hf]
    · have := ih (by omega); omega

theorem cnt_zero {f : Nat → Bool} {n : Nat} (h : cnt f n = 0) {p : Nat} (hp : p < n) :
    f p = false := by
  cases hf : f p with
  | false => rfl
  | true => have := cnt_pos hp hf; omega

/-- A new entry at index `n`. -/
theorem cnt_alloc {F F' : Nat → Bool} {n : Nat} (h : ∀ q, q < n → F' q = F q) :
    cnt F' (n + 1) = cnt F n + (if F' n = true then 1 else 0) := by
  simp only [cnt]
  rw [cnt_congr h]

theorem cnt_change {F F' : Nat → Bool} {n p : Nat} (hp : p < n) (h : ∀ q, q ≠ p → F' q = F q) :
    cnt F' n + (if F p = true then 1 else 0) = cnt F n + (if F' p = true then 1 else 0) := by
  induction n with
  | zero => omega
  | succ n ih =>
    simp only [cnt]
    by_cases e : p = n
    · subst e
      rw [cnt_congr (f := F') (g := F) (fun i hi => h i (by omega))]
      omega
    · have := ih (by omega)
      rw [h n (fun h => e h.symm)]
      omega

/-- The count splits into the contribution of entry `p` and the rest, which an update of
entry `p` does not change. -/
theorem cnt_split {α : Type} (G : Nat → α → Bool) (f : Nat → α) {n p : Nat} (hp : p < n) :
    ∃ m, cnt (fun q => G q (f q)) n = m + (if G p (f p) = true then 1 else 0) ∧
      ∀ v, cnt (fun q => G q (Function.update f p v q)) n =
        m + (if G p v = true then 1 else 0) := by
  have key : ∀ v, cnt (fun q => G q (Function.update f p v q)) n +
      (if G p (f p) = true then 1 else 0) =
      cnt (fun q => G q (f q)) n + (if G p v = true then 1 else 0) := by
    intro v
    have := @cnt_change (fun q => G q (f q)) (fun q => G q (Function.update f p v q)) n p
      hp (fun q hq => by simp only [Function.update_noteq hq])
    simpa using this
  by_cases hg : G p (f p) = true
  · have hpos := cnt_pos (f := fun q => G q (f q)) hp hg
    refine ⟨cnt (fun q => G q (f q)) n - 1, by rw [if_pos hg]; omega, fun v => ?_⟩
    have := key v
    rw [if_pos hg] at this
    omega
  · refine ⟨cnt (fun q => G q (f q)) n, by rw [if_neg hg]; omega, fun v => ?_⟩
    have := key v
    rw [if_neg hg] at this
    omega

theorem gather_congr {β : Type} {f g : Nat → Option β} {n : Nat}
    (h : ∀ i, i < n → f i = g i) : gather f n = gather g n := by
  induction n with
  | zero => rfl
  | succ n ih =>
    simp only [gather]
    rw [ih (fun i hi => h i (by omega)), h n (by omega)]

/-- A new entry at index `n`. -/
theorem gather_alloc {β : Type} {F F' : Nat → Option β} {n : Nat}
    (h : ∀ q, q < n → F' q = F q) : gather F' (n + 1) = gather F n ++ (F' n).toList := by
  simp only [gather]
  rw [gather_congr h]

theorem mem_gather {β : Type} {f : Nat → Option β} {n : Nat} {x : β} :
    x ∈ gather f n ↔ ∃ i, i < n ∧ f i = some x := by
  induction n with
  | zero => simp [gather]
  | succ n ih =>
    simp only [gather, List.mem_append, ih, Option.mem_toList, Option.mem_def]
    constructor
    · rintro (⟨i, hi, h⟩ | h)
      · exact ⟨i, by omega, h⟩
      · exact ⟨n, by omega, h⟩
    · rintro ⟨i, hi, h⟩
      by_cases e : i = n
      · subst e; exact Or.inr h
      · exact Or.inl ⟨i, by omega, h⟩

/-! ## group.go and ackable.go

`Group[T]` and `AckableGroup[T]` share `channel`, `Acquire` and `ReleaseAll` verbatim, and
`AckableGroup.Send` is `Group.Send` plus the acknowledgment bookkeeping.  One state machine
models both; the flag `ackable` fixed at construction says which of the two types it is.

Every Go struct is stored field by field: a field is a map from the address of the struct to
the value of the field.  The local variables of a goroutine are stored the same way, indexed
by the goroutine.
-/

/-- State of a `sync.Once`: not yet called, `f` is running, `f` has returned. -/
inductive Once
  | fresh
  | running
  | done
deriving DecidableEq

/-- The ways the program can panic. -/
inductive Panic
  | sendOnClosed
  | closeOfClosed
  | negativeCounter
  | nilFunc
deriving DecidableEq

/-- Program counter of a goroutine running `Send` or `SendAsync`. -/
inductive SendPc
  /-- Before `g.channels.ForEach` takes the read lock. -/
  | rlock
  /-- Inside the loop of `ForEach`, holding the read lock, with loop variable `n = cur`. -/
  | forEach (cur : Option Nat)
  /-- At `wg.Wait()` (`send.Wait()` in ackable.go). -/
  | wait
  | returned
deriving DecidableEq

/-- Program counter of the goroutine `go func() { ack.Wait(); value.Ack() }()`. -/
inductive WaiterPc
  | notStarted
  | waiting
  | finished
deriving DecidableEq

/-- Program counter of the helper goroutine started in the `default` branch. -/
inductive HelperPc
  /-- No helper: the copy does not exist yet or was handed over inside the traversal. -/
  | absent
  /-- Blocked in `select { case ch.ch <- v: case <-ch.done: }`. -/
  | select
  /-- Deferred `ch.send.Done()` pending. -/
  | chDone
  /-- Deferred `wg.Done()` pending (only in `Send`). -/
  | wgDone
  | finished
deriving DecidableEq

/-- Program counter of a goroutine running `ReleaseAll` or a `ReleaseFunc`. -/
inductive RelPc
  /-- Before `ForEach` of `ReleaseAll` takes the read lock. -/
  | rlock
  /-- Inside the loop of `ForEach`, collecting into `all`. -/
  | forEach (cur : Option Nat)
  /-- At `ch.release()` for `all[idx]`, about to enter `once.Do`; the goroutine has returned
  when `idx` is at the end of `all`. -/
  | loop
  /-- Inside `once.Do`, at `ch.Delete()`, where `ch` is the node `n` captured by the closure. -/
  | delete (n : Nat)
  /-- At `close(ch.elem.done)`. -/
  | closeDone (n : Nat)
  /-- At `ch.elem.send.Wait()`. -/
  | wait (n : Nat)
  /-- At `close(ch.elem.ch)`. -/
  | closeCh (n : Nat)
deriving DecidableEq

/-- State of one group and of all goroutines working on it. -/
structure State (T : Type) where
  /-- Says whether the group is an `AckableGroup[T]` (true) or a `Group[T]` (false). -/
  ackable : Bool
  /-- Field `channels` of the group: the list of `*channel`. -/
  channels : list Nat
  /-- Struct `channel`, field `ch`: whether the Go channel has been closed. -/
  chClosed : Nat → Bool
  /-- Struct `channel`, field `done`: whether the Go channel has been closed. -/
  doneClosed : Nat → Bool
  /-- Struct `channel`, field `send`: the counter of the WaitGroup. -/
  send : Nat → Int
  /-- Struct `channel`, field `release`: nil, or the closure built by `Acquire`, which captures
  the node pointer `ch` and a `sync.Once`. -/
  release : Nat → Option Nat
  /-- History variable of a `channel`: the copies its subscriber received from `ch`, oldest
  first. -/
  recvd : Nat → List Nat
  /-- The `sync.Once` of every `Acquire`, at the address of the node that `Acquire` inserted. -/
  once : Nat → Once
  /-- Number of calls of `Send` and `SendAsync` made so far; call `k` is the `k`-th. -/
  nCalls : Nat
  /-- Argument `value` of the call (`value.Value` in ackable.go). -/
  value : Nat → T
  /-- Says whether the call is a call of `SendAsync` (true) or of `Send` (false). -/
  async : Nat → Bool
  pc : Nat → SendPc
  /-- Counter of the WaitGroup `wg` of the call (called `send` in ackable.go). -/
  wg : Nat → Int
  /-- Counter of the WaitGroup `ack` of the call. -/
  ack : Nat → Int
  /-- Goroutine `go func() { ack.Wait(); value.Ack() }()` of the call. -/
  waiter : Nat → WaiterPc
  /-- History variable of a call: how often the original `value.Ack` has been invoked. -/
  acks : Nat → Nat
  /-- History variable of a call: the nodes linked when the call took the read lock. -/
  snapshot : Nat → List Nat
  /-- History variable of a call: the calls of `Send` that had returned when it was made. -/
  before : Nat → List Nat
  /-- Number of copies built so far by the callbacks of `ForEach`. -/
  nCopies : Nat
  /-- The call that built the copy. -/
  cpCall : Nat → Nat
  /-- The `*channel` the copy is for (variable `ch` of the callback). -/
  cpChan : Nat → Nat
  /-- Value carried by the copy (`v.Value` in ackable.go, `value` in group.go). -/
  cpValue : Nat → T
  /-- The `sync.Once` in the `Ack` of the copy: true after the first call. -/
  cpOnce : Nat → Bool
  /-- Helper goroutine of the copy. -/
  helper : Nat → HelperPc
  /-- History variable of a copy: the subscriber has received it. -/
  delivered : Nat → Bool
  /-- History variable of a copy: its helper took `case <-ch.done`. -/
  abandoned : Nat → Bool
  /-- Number of goroutines that have called `ReleaseAll` or a `ReleaseFunc` so far. -/
  nRels : Nat
  rpc : Nat → RelPc
  /-- Variable `all` of `ReleaseAll` (for a `ReleaseFunc`: the one channel it releases). -/
  all : Nat → List Nat
  /-- Index of the loop `for _, ch := range all`. -/
  idx : Nat → Nat
  /-- History variable of `ReleaseAll`: the number of nodes allocated when it took the read
  lock (zero before that, and in a `ReleaseFunc`, which takes no read lock). -/
  bound : Nat → Nat
  panic : Option Panic

section model

variable {T : Type}

/-- Both constructors: `NewGroup` is `New false`, `NewAckableGroup` is `New true`. -/
def New [Inhabited T] (ackable : Bool) : State T :=
  { ackable := ackable
    channels := newList
    chClosed := fun _ => false
    doneClosed := fun _ => false
    send := fun _ => 0
    release := fun _ => none
    recvd := fun _ => []
    once := fun _ => Once.fresh
    nCalls := 0
    value := fun _ => default
    async := fun _ => false
    pc := fun _ => SendPc.rlock
    wg := fun _ => 0
    ack := fun _ => 0
    waiter := fun _ => WaiterPc.notStarted
    acks := fun _ => 0
    snapshot := fun _ => []
    before := fun _ => []
    nCopies := 0
    cpCall := fun _ => 0
    cpChan := fun _ => 0
    cpValue := fun _ => default
    cpOnce := fun _ => false
    helper := fun _ => HelperPc.absent
    delivered := fun _ => false
    abandoned := fun _ => false
    nRels := 0
    rpc := fun _ => RelPc.loop
    all := fun _ => []
    idx := fun _ => 0
    bound := fun _ => 0
    panic := none }

/-- Constructor `NewGroup`. -/
def NewGroup [Inhabited T] : State T := New false

/-- Constructor `NewAckableGroup`. -/
def NewAckableGroup [Inhabited T] : State T := New true

/-- The program panics with `p`. -/
def State.crash (s : State T) (p : Panic) : State T :=
  { s with panic := some p }

/-- Channel pointer stored in node `n` (`n.elem`). -/
def State.elem (s : State T) (n : Nat) : Nat := (s.channels.heap n).elem

/-! ### Effects of the single statements -/

/-- `Acquire`, first part: `ch := g.channels.Insert(&channel[T]{...})` in group.go,
`ch := g.channels.Append(&channel[Ackable[T]]{...})` in ackable.go.  The new `channel` struct
(`release: nil`, both Go channels open) and the `sync.Once` of this `Acquire` get the address
of the new node. -/
def Acquire_insert (s : State T) : State T :=
  { s with
    channels := (if s.ackable = true then s.channels.Append s.channels.size
      else s.channels.Insert s.channels.size).1
    chClosed := Function.update s.chClosed s.channels.size false
    doneClosed := Function.update s.doneClosed s.channels.size false
    send := Function.update s.send s.channels.size 0
    release := Function.update s.release s.channels.size none
    recvd := Function.update s.recvd s.channels.size []
    once := Function.update s.once s.channels.size Once.fresh }

/-- `Acquire`, second part, in the goroutine whose `Insert` returned node `n`:
`once := sync.Once{}; ch.elem.release = func() {...}; return ch.elem.ch, ch.elem.release`. -/
def Acquire_return (s : State T) (n : Nat) : State T :=
  { s with release := Function.update s.release (s.elem n) (some n) }

/-- A new goroutine running `ReleaseAll` or a `ReleaseFunc` starts at `pc` with `all`. -/
def State.spawnRel (s : State T) (pc : RelPc) (all : List Nat) : State T :=
  { s with
    rpc := Function.update s.rpc s.nRels pc
    all := Function.update s.all s.nRels all
    idx := Function.update s.idx s.nRels 0
    bound := Function.update s.bound s.nRels 0
    nRels := s.nRels + 1 }

/-- A goroutine calls `Send(v)` (`async = false`) or `SendAsync(v)` (`async = true`):
the WaitGroups of the call are created with counter zero. -/
def callSend (s : State T) (v : T) (async : Bool) : State T :=
  { s with
    value := Function.update s.value s.nCalls v
    async := Function.update s.async s.nCalls async
    pc := Function.update s.pc s.nCalls SendPc.rlock
    wg := Function.update s.wg s.nCalls 0
    ack := Function.update s.ack s.nCalls 0
    waiter := Function.update s.waiter s.nCalls WaiterPc.notStarted
    acks := Function.update s.acks s.nCalls 0
    snapshot := Function.update s.snapshot s.nCalls []
    before := Function.update s.before s.nCalls
      ((List.range s.nCalls).filter (fun k => s.pc k = SendPc.returned ∧ s.async k = false))
    nCalls := s.nCalls + 1 }

/-- First call of `Ack` on copy `p`: `once.Do(ack.Done)` runs `ack.Done()`. -/
def Ack_first (s : State T) (p : Nat) : State T :=
  { s with
    cpOnce := Function.update s.cpOnce p true
    ack := Function.update s.ack (s.cpCall p) (s.ack (s.cpCall p) - 1) }

/-- `ForEach` of call `k` starts: `l.mu.RLock(); n := l.first`. -/
def Send_rlock (s : State T) (k : Nat) : State T :=
  { s with
    channels := { s.channels with mu := s.channels.mu + 1 }
    pc := Function.update s.pc k (SendPc.forEach s.channels.first)
    snapshot := Function.update s.snapshot k s.channels.nodes }

/-- Callback of `ForEach` in call `k` at node `n` when the first `select` takes
`case ch.ch <- v`; then `n = n.next`.  In ackable.go the callback starts with `ack.Add(1)`,
`once := sync.Once{}` and `v := NewAckable(value.Value, func() { once.Do(ack.Done) })`. -/
def Send_handoff (s : State T) (k n : Nat) : State T :=
  { s with
    ack := Function.update s.ack k (if s.ackable = true then s.ack k + 1 else s.ack k)
    cpCall := Function.update s.cpCall s.nCopies k
    cpChan := Function.update s.cpChan s.nCopies (s.elem n)
    cpValue := Function.update s.cpValue s.nCopies (s.value k)
    cpOnce := Function.update s.cpOnce s.nCopies false
    helper := Function.update s.helper s.nCopies HelperPc.absent
    delivered := Function.update s.delivered s.nCopies true
    abandoned := Function.update s.abandoned s.nCopies false
    nCopies := s.nCopies + 1
    recvd := Function.update s.recvd (s.elem n) (s.recvd (s.elem n) ++ [s.nCopies])
    pc := Function.update s.pc k (SendPc.forEach (s.channels.heap n).next) }

/-- Callback of `ForEach` in call `k` at node `n` when the first `select` takes `default`:
`wg.Add(1)` (only in `Send`), `ch.send.Add(1)`, `go func() {...}()`; then `n = n.next`.
In ackable.go the callback starts with `ack.Add(1)`, `once := sync.Once{}` and
`v := NewAckable(value.Value, func() { once.Do(ack.Done) })`. -/
def Send_default (s : State T) (k n : Nat) : State T :=
  { s with
    ack := Function.update s.ack k (if s.ackable = true then s.ack k + 1 else s.ack k)
    cpCall := Function.update s.cpCall s.nCopies k
    cpChan := Function.update s.cpChan s.nCopies (s.elem n)
    cpValue := Function.update s.cpValue s.nCopies (s.value k)
    cpOnce := Function.update s.cpOnce s.nCopies false
    helper := Function.update s.helper s.nCopies HelperPc.select
    delivered := Function.update s.delivered s.nCopies false
    abandoned := Function.update s.abandoned s.nCopies false
    nCopies := s.nCopies + 1
    wg := Function.update s.wg k (if s.async k = true then s.wg k else s.wg k + 1)
    send := Function.update s.send (s.elem n) (s.send (s.elem n) + 1)
    pc := Function.update s.pc k (SendPc.forEach (s.channels.heap n).next) }

/-- `ForEach` of call `k` ends: `l.mu.RUnlock()`; in ackable.go the goroutine
`go func() { ack.Wait(); value.Ack() }()` starts; `SendAsync` returns. -/
def Send_runlock (s : State T) (k : Nat) : State T :=
  { s with
    channels := { s.channels with mu := s.channels.mu - 1 }
    pc := Function.update s.pc k (if s.async k = true then SendPc.returned else SendPc.wait)
    waiter := Function.update s.waiter k
      (if s.ackable = true then WaiterPc.waiting else s.waiter k) }

/-- `wg.Wait()` of call `k` returns, and so does `Send`. -/
def Send_return (s : State T) (k : Nat) : State T :=
  { s with pc := Function.update s.pc k SendPc.returned }

/-- The `select` of the helper of copy `p` takes `case ch.ch <- v`. -/
def helper_handoff (s : State T) (p : Nat) : State T :=
  { s with
    recvd := Function.update s.recvd (s.cpChan p) (s.recvd (s.cpChan p) ++ [p])
    helper := Function.update s.helper p HelperPc.chDone
    delivered := Function.update s.delivered p true }

/-- The `select` of the helper of copy `p` takes `case <-ch.done`; in ackable.go the
branch runs `ack.Done()`. -/
def helper_abandon (s : State T) (p : Nat) : State T :=
  { s with
    helper := Function.update s.helper p HelperPc.chDone
    abandoned := Function.update s.abandoned p true
    ack := Function.update s.ack (s.cpCall p)
      (if s.ackable = true then s.ack (s.cpCall p) - 1 else s.ack (s.cpCall p)) }

/-- Deferred `ch.send.Done()` of the helper of copy `p`. -/
def helper_chDone (s : State T) (p : Nat) : State T :=
  { s with
    send := Function.update s.send (s.cpChan p) (s.send (s.cpChan p) - 1)
    helper := Function.update s.helper p
      (if s.async (s.cpCall p) = true then HelperPc.finished else HelperPc.wgDone) }

/-- Deferred `wg.Done()` of the helper of copy `p` (only in `Send`). -/
def helper_wgDone (s : State T) (p : Nat) : State T :=
  { s with
    wg := Function.update s.wg (s.cpCall p) (s.wg (s.cpCall p) - 1)
    helper := Function.update s.helper p HelperPc.finished }

/-- In the goroutine `go func() { ack.Wait(); value.Ack() }()` of call `k`, `ack.Wait()`
returns and the original `Ack` is invoked. -/
def ack_fire (s : State T) (k : Nat) : State T :=
  { s with
    waiter := Function.update s.waiter k WaiterPc.finished
    acks := Function.update s.acks k (s.acks k + 1) }

/-- `ForEach` of `ReleaseAll` starts: `l.mu.RLock(); n := l.first`. -/
def release_rlock (s : State T) (r : Nat) : State T :=
  { s with
    channels := { s.channels with mu := s.channels.mu + 1 }
    rpc := Function.update s.rpc r (RelPc.forEach s.channels.first)
    bound := Function.update s.bound r s.channels.size }

/-- Callback of `ForEach` in `ReleaseAll` at node `n`: `all = append(all, ch)`; `n = n.next`. -/
def release_collect (s : State T) (r n : Nat) : State T :=
  { s with
    all := Function.update s.all r (s.all r ++ [s.elem n])
    rpc := Function.update s.rpc r (RelPc.forEach (s.channels.heap n).next) }

/-- `ForEach` of `ReleaseAll` ends: `l.mu.RUnlock()`. -/
def release_runlock (s : State T) (r : Nat) : State T :=
  { s with
    channels := { s.channels with mu := s.channels.mu - 1 }
    rpc := Function.update s.rpc r RelPc.loop }

/-- `once.Do` of the closure capturing node `n` finds its `Once` fresh and starts `f`. -/
def release_enter (s : State T) (r n : Nat) : State T :=
  { s with
    once := Function.update s.once n Once.running
    rpc := Function.update s.rpc r (RelPc.delete n) }

/-- `once.Do` finds `f` already done and returns; the loop goes to the next channel. -/
def release_skip (s : State T) (r : Nat) : State T :=
  { s with idx := Function.update s.idx r (s.idx r + 1) }

/-- `ch.Delete()`, which runs under the write lock of the list. -/
def release_delete (s : State T) (r n : Nat) : State T :=
  { s with
    channels := s.channels.Delete n
    rpc := Function.update s.rpc r (RelPc.closeDone n) }

/-- `close(ch.elem.done)`. -/
def release_closeDone (s : State T) (r n : Nat) : State T :=
  { s with
    doneClosed := Function.update s.doneClosed (s.elem n) true
    rpc := Function.update s.rpc r (RelPc.wait n) }

/-- `ch.elem.send.Wait()` returns. -/
def release_wait (s : State T) (r n : Nat) : State T :=
  { s with rpc := Function.update s.rpc r (RelPc.closeCh n) }

/-- `close(ch.elem.ch)`; `f` returns, so `once.Do` and `release` return and the loop goes to
the next channel. -/
def release_closeCh (s : State T) (r n : Nat) : State T :=
  { s with
    chClosed := Function.update s.chClosed (s.elem n) true
    once := Function.update s.once n Once.done
    rpc := Function.update s.rpc r RelPc.loop
    idx := Function.update s.idx r (s.idx r + 1) }

/-! ### The goroutines: which statement runs next, and when it can run -/

/-- `Acquire` up to the return of `Insert`; `Insert` needs the write lock. -/
def Acquire (s : State T) : State T :=
  if s.channels.mu = 0 then Acquire_insert s else s

/-- Rest of `Acquire` in the goroutine whose `Insert` returned node `n`. -/
def Acquire_rest (s : State T) (n : Nat) : State T :=
  if n < s.channels.size ∧ s.release (s.elem n) = none then Acquire_return s n else s

/-- A goroutine calls the `ReleaseFunc` that `Acquire` returned for channel `c`. -/
def callRelease (s : State T) (c : Nat) : State T :=
  if s.release c ≠ none then s.spawnRel RelPc.loop [c] else s

/-- A goroutine calls `ReleaseAll`. -/
def callReleaseAll (s : State T) : State T :=
  s.spawnRel RelPc.rlock []

/-- The subscriber that received copy `p` calls its `Ack`: `once.Do(ack.Done)`.
`Done` panics when the counter becomes negative. -/
def Ack (s : State T) (p : Nat) : State T :=
  if s.ackable = true ∧ p < s.nCopies ∧ s.delivered p = true then
    if s.cpOnce p = true then s
    else if s.ack (s.cpCall p) - 1 < 0 then s.crash Panic.negativeCounter
    else Ack_first s p
  else s

/-- Next statement of the goroutine running call `k` of `Send` or `SendAsync`.
`recv` says whether a receiver is waiting on `ch.ch`, so that the first `select` can
take `case ch.ch <- v` instead of `default`; a send on a closed channel panics. -/
def Send_step (s : State T) (k : Nat) (recv : Bool) : State T :=
  if k < s.nCalls then
    match s.pc k with
    | SendPc.rlock => Send_rlock s k
    | SendPc.forEach (some n) =>
      if s.chClosed (s.elem n) = true then s.crash Panic.sendOnClosed
      else if recv = true then Send_handoff s k n
      else Send_default s k n
    | SendPc.forEach none => Send_runlock s k
    | SendPc.wait => if s.wg k = 0 then Send_return s k else s
    | SendPc.returned => s
  else s

/-- Helper goroutine of copy `p`: its `select` takes `case ch.ch <- v`, because a receiver is
waiting or because the channel is closed (which panics). -/
def helper_send (s : State T) (p : Nat) : State T :=
  if p < s.nCopies ∧ s.helper p = HelperPc.select then
    if s.chClosed (s.cpChan p) = true then s.crash Panic.sendOnClosed
    else helper_handoff s p
  else s

/-- Helper goroutine of copy `p`: its `select` takes `case <-ch.done`, which needs `done`
closed. -/
def helper_done (s : State T) (p : Nat) : State T :=
  if p < s.nCopies ∧ s.helper p = HelperPc.select ∧ s.doneClosed (s.cpChan p) = true then
    if s.ackable = true ∧ s.ack (s.cpCall p) - 1 < 0 then s.crash Panic.negativeCounter
    else helper_abandon s p
  else s

/-- Helper goroutine of copy `p`: its next deferred call. -/
def helper_defer (s : State T) (p : Nat) : State T :=
  if p < s.nCopies then
    match s.helper p with
    | HelperPc.chDone =>
      if s.send (s.cpChan p) - 1 < 0 then s.crash Panic.negativeCounter
      else helper_chDone s p
    | HelperPc.wgDone =>
      if s.wg (s.cpCall p) - 1 < 0 then s.crash Panic.negativeCounter
      else helper_wgDone s p
    | _ => s
  else s

/-- Goroutine `go func() { ack.Wait(); value.Ack() }()` of call `k`: `Wait` returns when the
counter is zero. -/
def ack_wait (s : State T) (k : Nat) : State T :=
  if k < s.nCalls ∧ s.waiter k = WaiterPc.waiting ∧ s.ack k = 0 then ack_fire s k else s

/-- Next statement of releasing goroutine `r` (`ReleaseAll`, or a `ReleaseFunc`). -/
def release_step (s : State T) (r : Nat) : State T :=
  if r < s.nRels then
    match s.rpc r with
    | RelPc.rlock => release_rlock s r
    | RelPc.forEach (some n) => release_collect s r n
    | RelPc.forEach none => release_runlock s r
    | RelPc.loop =>
      -- for _, ch := range all { ch.release() }
      match (s.all r).get? (s.idx r) with
      | none => s
      | some c =>
        match s.release c with
        | none => s.crash Panic.nilFunc
        | some n =>
          -- once.Do(func() {...})
          match s.once n with
          | Once.fresh => release_enter s r n
          | Once.running => s
          | Once.done => release_skip s r
    | RelPc.delete n => if s.channels.mu = 0 then release_delete s r n else s
    | RelPc.closeDone n =>
      if s.doneClosed (s.elem n) = true then s.crash Panic.closeOfClosed
      else release_closeDone s r n
    | RelPc.wait n => if s.send (s.elem n) = 0 then release_wait s r n else s
    | RelPc.closeCh n =>
      if s.chClosed (s.elem n) = true then s.crash Panic.closeOfClosed
      else release_closeCh s r n
  else s

/-- One scheduling decision: which goroutine runs its next statement, or which call the
environment (publisher or subscriber) makes. -/
inductive Action (T : Type)
  | acquire
  | acquireReturn (n : Nat)
  | callRelease (c : Nat)
  | callReleaseAll
  | callSend (v : T)
  | callSendAsync (v : T)
  | ack (p : Nat)
  | send (k : Nat) (recv : Bool)
  | helperSend (p : Nat)
  | helperDone (p : Nat)
  | helperDefer (p : Nat)
  | ackWait (k : Nat)
  | release (r : Nat)

/-- Dispatch of one action, without regard to a panic. -/
def perform (s : State T) : Action T → State T
  | Action.acquire => Acquire s
  | Action.acquireReturn n => Acquire_rest s n
  | Action.callRelease c => callRelease s c
  | Action.callReleaseAll => callReleaseAll s
  | Action.callSend v => callSend s v false
  | Action.callSendAsync v => callSend s v true
  | Action.ack p => Ack s p
  | Action.send k recv => Send_step s k recv
  | Action.helperSend p => helper_send s p
  | Action.helperDone p => helper_done s p
  | Action.helperDefer p => helper_defer s p
  | Action.ackWait k => ack_wait s k
  | Action.release r => release_step s r

/-- One step of the program: after a panic the program is dead; an action whose guard does
not hold (its goroutine is blocked or does not exist) changes nothing. -/
def step (s : State T) (a : Action T) : State T :=
  if s.panic = none then perform s a else s

/-- State after the schedule `acts`, from state `s`. -/
def run (s : State T) (acts : List (Action T)) : State T :=
  acts.foldl step s

/-! ### The transitions as a relation

Every action either changes nothing, or panics, or is one of the statements below, run in a
state where it can run. -/

/-- The statements that can run in state `s` without a panic, and their results. -/
inductive Step (s : State T) : State T → Prop
  | acquire (hm : s.channels.mu = 0) : Step s (Acquire_insert s)
  | acquireReturn (n : Nat) (hn : n < s.channels.size) (hr : s.release (s.elem n) = none) :
      Step s (Acquire_return s n)
  | callRelease (c : Nat) (hr : s.release c ≠ none) : Step s (s.spawnRel RelPc.loop [c])
  | callReleaseAll : Step s (s.spawnRel RelPc.rlock [])
  | callSend (v : T) (async : Bool) : Step s (callSend s v async)
  | ackFirst (p : Nat) (ha : s.ackable = true) (hp : p < s.nCopies)
      (hd : s.delivered p = true) (ho : s.cpOnce p = false)
      (hn : 0 ≤ s.ack (s.cpCall p) - 1) : Step s (Ack_first s p)
  | sendRlock (k : Nat) (hk : k < s.nCalls) (hpc : s.pc k = SendPc.rlock) :
      Step s (Send_rlock s k)
  | sendHandoff (k n : Nat) (hk : k < s.nCalls) (hpc : s.pc k = SendPc.forEach (some n))
      (hc : s.chClosed (s.elem n) = false) : Step s (Send_handoff s k n)
  | sendDefault (k n : Nat) (hk : k < s.nCalls) (hpc : s.pc k = SendPc.forEach (some n))
      (hc : s.chClosed (s.elem n) = false) : Step s (Send_default s k n)
  | sendRunlock (k : Nat) (hk : k < s.nCalls) (hpc : s.pc k = SendPc.forEach none) :
      Step s (Send_runlock s k)
  | sendReturn (k : Nat) (hk : k < s.nCalls) (hpc : s.pc k = SendPc.wait)
      (hw : s.wg k = 0) : Step s (Send_return s k)
  | helperHandoff (p : Nat) (hp : p < s.nCopies) (hh : s.helper p = HelperPc.select)
      (hc : s.chClosed (s.cpChan p) = false) : Step s (helper_handoff s p)
  | helperAbandon (p : Nat) (hp : p < s.nCopies) (hh : s.helper p = HelperPc.select)
      (hd : s.doneClosed (s.cpChan p) = true)
      (hn : s.ackable = true → 0 ≤ s.ack (s.cpCall p) - 1) : Step s (helper_abandon s p)
  | helperChDone (p : Nat) (hp : p < s.nCopies) (hh : s.helper p = HelperPc.chDone)
      (hn : 0 ≤ s.send (s.cpChan p) - 1) : Step s (helper_chDone s p)
  | helperWgDone (p : Nat) (hp : p < s.nCopies) (hh : s.helper p = HelperPc.wgDone)
      (hn : 0 ≤ s.wg (s.cpCall p) - 1) : Step s (helper_wgDone s p)
  | ackFire (k : Nat) (hk : k < s.nCalls) (hw : s.waiter k = WaiterPc.waiting)
      (ha : s.ack k = 0) : Step s (ack_fire s k)
  | relRlock (r : Nat) (hr : r < s.nRels) (hpc : s.rpc r = RelPc.rlock) :
      Step s (release_rlock s r)
  | relCollect (r n : Nat) (hr : r < s.nRels) (hpc : s.rpc r = RelPc.forEach (some n)) :
      Step s (release_collect s r n)
  | relRunlock (r : Nat) (hr : r < s.nRels) (hpc : s.rpc r = RelPc.forEach none) :
      Step s (release_runlock s r)
  | relEnter (r c n : Nat) (hr : r < s.nRels) (hpc : s.rpc r = RelPc.loop)
      (hc : (s.all r).get? (s.idx r) = some c) (hrel : s.release c = some n)
      (ho : s.once n = Once.fresh) : Step s (release_enter s r n)
  | relSkip (r c n : Nat) (hr : r < s.nRels) (hpc : s.rpc r = RelPc.loop)
      (hc : (s.all r).get? (s.idx r) = some c) (hrel : s.release c = some n)
      (ho : s.once n = Once.done) : Step s (release_skip s r)
  | relDelete (r n : Nat) (hr : r < s.nRels) (hpc : s.rpc r = RelPc.delete n)
      (hm : s.channels.mu = 0) : Step s (release_delete s r n)
  | relCloseDone (r n : Nat) (hr : r < s.nRels) (hpc : s.rpc r = RelPc.closeDone n)
      (hd : s.doneClosed (s.elem n) = false) : Step s (release_closeDone s r n)
  | relWait (r n : Nat) (hr : r < s.nRels) (hpc : s.rpc r = RelPc.wait n)
      (hs : s.send (s.elem n) = 0) : Step s (release_wait s r n)
  | relCloseCh (r n : Nat) (hr : r < s.nRels) (hpc : s.rpc r = RelPc.closeCh n)
      (hc : s.chClosed (s.elem n) = false) : Step s (release_closeCh s r n)

/-- The statements that panic in state `s`, and the panic they raise. -/
inductive Crash (s : State T) : Panic → Prop
  | ack (p : Nat) (ha : s.ackable = true) (hp : p < s.nCopies)
      (hd : s.delivered p = true) (ho : s.cpOnce p = false)
      (hn : s.ack (s.cpCall p) - 1 < 0) : Crash s Panic.negativeCounter
  | visit (k n : Nat) (hk : k < s.nCalls) (hpc : s.pc k = SendPc.forEach (some n))
      (hc : s.chClosed (s.elem n) = true) : Crash s Panic.sendOnClosed
  | helperSend (p : Nat) (hp : p < s.nCopies) (hh : s.helper p = HelperPc.select)
      (hc : s.chClosed (s.cpChan p) = true) : Crash s Panic.sendOnClosed
  | helperDone (p : Nat) (hp : p < s.nCopies) (hh : s.helper p = HelperPc.select)
      (hd : s.doneClosed (s.cpChan p) = true) (ha : s.ackable = true)
      (hn : s.ack (s.cpCall p) - 1 < 0) : Crash s Panic.negativeCounter
  | chDone (p : Nat) (hp : p < s.nCopies) (hh : s.helper p = HelperPc.chDone)
      (hn : s.send (s.cpChan p) - 1 < 0) : Crash s Panic.negativeCounter
  | wgDone (p : Nat) (hp : p < s.nCopies) (hh : s.helper p = HelperPc.wgDone)
      (hn : s.wg (s.cpCall p) - 1 < 0) : Crash s Panic.negativeCounter
  | nilRelease (r c : Nat) (hr : r < s.nRels) (hpc : s.rpc r = RelPc.loop)
      (hc : (s.all r).get? (s.idx r) = some c) (hrel : s.release c = none) :
      Crash s Panic.nilFunc
  | closeDone (r n : Nat) (hr : r < s.nRels) (hpc : s.rpc r = RelPc.closeDone n)
      (hd : s.doneClosed (s.elem n) = true) : Crash s Panic.closeOfClosed
  | closeCh (r n : Nat) (hr : r < s.nRels) (hpc : s.rpc r = RelPc.closeCh n)
      (hc : s.chClosed (s.elem n) = true) : Crash s Panic.closeOfClosed

/-- What an action can do: nothing, a panic, or one statement. -/
inductive Outcome (s s' : State T) : Prop
  | idle (h : s' = s)
  | crash (p : Panic) (hc : Crash s p) (h : s' = s.crash p)
  | step (h : Step s s')

theorem perform_cases (s : State T) (a : Action T) : Outcome s (perform s a) := by
  cases a with
  | acquire =>
    show Outcome s (Acquire s)
    unfold Acquire
    by_cases h : s.channels.mu = 0
    · rw [if_pos h]; exact Outcome.step (Step.acquire h)
    · rw [if_neg h]; exact Outcome.idle rfl
  | acquireReturn n =>
    show Outcome s (Acquire_rest s n)
    unfold Acquire_rest
    by_cases h : n < s.channels.size ∧ s.release (s.elem n) = none
    · rw [if_pos h]; exact Outcome.step (Step.acquireReturn n h.1 h.2)
    · rw [if_neg h]; exact Outcome.idle rfl
  | callRelease c =>
    show Outcome s (changroup.callRelease s c)
    unfold changroup.callRelease
    by_cases h : s.release c ≠ none
    · rw [if_pos h]; exact Outcome.step (Step.callRelease c h)
    · rw [if_neg h]; exact Outcome.idle rfl
  | callReleaseAll => exact Outcome.step Step.callReleaseAll
  | callSend v => exact Outcome.step (Step.callSend v false)
  | callSendAsync v => exact Outcome.step (Step.callSend v true)
  | ack p =>
    show Outcome s (Ack s p)
    unfold Ack
    by_cases h : s.ackable = true ∧ p < s.nCopies ∧ s.delivered p = true
    · rw [if_pos h]
      by_cases ho : s.cpOnce p = true
      · rw [if_pos ho]; exact Outcome.idle rfl
      · rw [if_neg ho]
        have ho2 : s.cpOnce p = false := by simpa using ho
        by_cases hn : s.ack (s.cpCall p) - 1 < 0
        · rw [if_pos hn]; exact Outcome.crash _ (Crash.ack p h.1 h.2.1 h.2.2 ho2 hn) rfl
        · rw [if_neg hn]
          exact Outcome.step (Step.ackFirst p h.1 h.2.1 h.2.2 ho2 (not_lt.1 hn))
    · rw [if_neg h]; exact Outcome.idle rfl
  | send k recv =>
    show Outcome s (Send_step s k recv)
    unfold Send_step
    by_cases hk : k < s.nCalls
    · rw [if_pos hk]
      cases hpc : s.pc k with
      | rlock => exact Outcome.step (Step.sendRlock k hk hpc)
      | forEach cur =>
        cases cur with
        | none => exact Outcome.step (Step.sendRunlock k hk hpc)
        | some n =>
          show Outcome s (if _ then _ else _)
          by_cases hc : s.chClosed (s.elem n) = true
          · rw [if_pos hc]; exact Outcome.crash _ (Crash.visit k n hk hpc hc) rfl
          · rw [if_neg hc]
            have hc2 : s.chClosed (s.elem n) = false := by simpa using hc
            by_cases hr : recv = true
            · rw [if_pos hr]; exact Outcome.step (Step.sendHandoff k n hk hpc hc2)
            · rw [if_neg hr]; exact Outcome.step (Step.sendDefault k n hk hpc hc2)
      | wait =>
        show Outcome s (if _ then _ else _)
        by_cases hw : s.wg k = 0
        · rw [if_pos hw]; exact Outcome.step (Step.sendReturn k hk hpc hw)
        · rw [if_neg hw]; exact Outcome.idle rfl
      | returned => exact Outcome.idle rfl
    · rw [if_neg hk]; exact Outcome.idle rfl
  | helperSend p =>
    show Outcome s (helper_send s p)
    unfold helper_send
    by_cases hh : p < s.nCopies ∧ s.helper p = HelperPc.select
    · rw [if_pos hh]
      by_cases hc : s.chClosed (s.cpChan p) = true
      · rw [if_pos hc]; exact Outcome.crash _ (Crash.helperSend p hh.1 hh.2 hc) rfl
      · rw [if_neg hc]
        exact Outcome.step (Step.helperHandoff p hh.1 hh.2 (by simpa using hc))
    · rw [if_neg hh]; exact Outcome.idle rfl
  | helperDone p =>
    show Outcome s (helper_done s p)
    unfold helper_done
    by_cases hh : p < s.nCopies ∧ s.helper p = HelperPc.select ∧
        s.doneClosed (s.cpChan p) = true
    · rw [if_pos hh]
      by_cases hn : s.ackable = true ∧ s.ack (s.cpCall p) - 1 < 0
      · rw [if_pos hn]
        exact Outcome.crash _ (Crash.helperDone p hh.1 hh.2.1 hh.2.2 hn.1 hn.2) rfl
      · rw [if_neg hn]
        exact Outcome.step (Step.helperAbandon p hh.1 hh.2.1 hh.2.2
          (fun ha => not_lt.1 (fun hlt => hn ⟨ha, hlt⟩)))
    · rw [if_neg hh]; exact Outcome.idle rfl
  | helperDefer p =>
    show Outcome s (helper_defer s p)
    unfold helper_defer
    by_cases hp : p < s.nCopies
    · rw [if_pos hp]
      cases hh : s.helper p with
      | chDone =>
        show Outcome s (if _ then _ else _)
        by_cases hn : s.send (s.cpChan p) - 1 < 0
        · rw [if_pos hn]; exact Outcome.crash _ (Crash.chDone p hp hh hn) rfl
        · rw [if_neg hn]; exact Outcome.step (Step.helperChDone p hp hh (not_lt.1 hn))
      | wgDone =>
        show Outcome s (if _ then _ else _)
        by_cases hn : s.wg (s.cpCall p) - 1 < 0
        · rw [if_pos hn]; exact Outcome.crash _ (Crash.wgDone p hp hh hn) rfl
        · rw [if_neg hn]; exact Outcome.step (Step.helperWgDone p hp hh (not_lt.1 hn))
      | absent => exact Outcome.idle rfl
      | select => exact Outcome.idle rfl
      | finished => exact Outcome.idle rfl
    · rw [if_neg hp]; exact Outcome.idle rfl
  | ackWait k =>
    show Outcome s (ack_wait s k)
    unfold ack_wait
    by_cases h : k < s.nCalls ∧ s.waiter k = WaiterPc.waiting ∧ s.ack k = 0
    · rw [if_pos h]; exact Outcome.step (Step.ackFire k h.1 h.2.1 h.2.2)
    · rw [if_neg h]; exact Outcome.idle rfl
  | release r =>
    show Outcome s (release_step s r)
    unfold release_step
    by_cases hr0 : r < s.nRels
    · rw [if_pos hr0]
      cases hpc : s.rpc r with
      | rlock => exact Outcome.step (Step.relRlock r hr0 hpc)
      | forEach cur =>
        cases cur with
        | none => exact Outcome.step (Step.relRunlock r hr0 hpc)
        | some n => exact Outcome.step (Step.relCollect r n hr0 hpc)
      | loop =>
        show Outcome s (match (s.all r).get? (s.idx r) with
          | none => _ | some c => _)
        cases hc : (s.all r).get? (s.idx r) with
        | none => exact Outcome.idle rfl
        | some c =>
          show Outcome s (match s.release c with
            | none => _ | some n => _)
          cases hr : s.release c with
          | none => exact Outcome.crash _ (Crash.nilRelease r c hr0 hpc hc hr) rfl
          | some n =>
            show Outcome s (match s.once n with
              | Once.fresh => _ | Once.running => _ | Once.done => _)
            cases ho : s.once n with
            | fresh => exact Outcome.step (Step.relEnter r c n hr0 hpc hc hr ho)
            | running => exact Outcome.idle rfl
            | done => exact Outcome.step (Step.relSkip r c n hr0 hpc hc hr ho)
      | delete n =>
        show Outcome s (if _ then _ else _)
        by_cases hm : s.channels.mu = 0
        · rw [if_pos hm]; exact Outcome.step (Step.relDelete r n hr0 hpc hm)
        · rw [if_neg hm]; exact Outcome.idle rfl
      | closeDone n =>
        show Outcome s (if _ then _ else _)
        by_cases hd : s.doneClosed (s.elem n) = true
        · rw [if_pos hd]; exact Outcome.crash _ (Crash.closeDone r n hr0 hpc hd) rfl
        · rw [if_neg hd]
          exact Outcome.step (Step.relCloseDone r n hr0 hpc (by simpa using hd))
      | wait n =>
        show Outcome s (if _ then _ else _)
        by_cases hs : s.send (s.elem n) = 0
        · rw [if_pos hs]; exact Outcome.step (Step.relWait r n hr0 hpc hs)
        · rw [if_neg hs]; exact Outcome.idle rfl
      | closeCh n =>
        show Outcome s (if _ then _ else _)
        by_cases hc : s.chClosed (s.elem n) = true
        · rw [if_pos hc]; exact Outcome.crash _ (Crash.closeCh r n hr0 hpc hc) rfl
        · rw [if_neg hc]
          exact Outcome.step (Step.relCloseCh r n hr0 hpc (by simpa using hc))
    · rw [if_neg hr0]; exact Outcome.idle rfl

/-! ## Invariants of every reachable state -/

/-- The goroutine is inside the loop of `ForEach` and holds the read lock. -/
def SendPc.inForEach : SendPc → Bool
  | SendPc.forEach _ => true
  | _ => false

/-- The traversal of the call is over. -/
def SendPc.past : SendPc → Bool
  | SendPc.wait => true
  | SendPc.returned => true
  | _ => false

/-- The goroutine is inside the loop of `ForEach` and holds the read lock. -/
def RelPc.inForEach : RelPc → Bool
  | RelPc.forEach _ => true
  | _ => false

/-- The goroutine has finished (or never runs) the traversal of `ReleaseAll`. -/
def RelPc.past : RelPc → Bool
  | RelPc.rlock => false
  | RelPc.forEach _ => false
  | _ => true

/-- The node whose `once.Do` body the goroutine is running. -/
def RelPc.body : RelPc → Option Nat
  | RelPc.delete n => some n
  | RelPc.closeDone n => some n
  | RelPc.wait n => some n
  | RelPc.closeCh n => some n
  | _ => none

/-- The helper has not yet run its deferred `ch.send.Done()`. -/
def HelperPc.holdsCh : HelperPc → Bool
  | HelperPc.select => true
  | HelperPc.chDone => true
  | _ => false

/-- The helper has not yet run its deferred `wg.Done()`. -/
def HelperPc.holdsWg : HelperPc → Bool
  | HelperPc.select => true
  | HelperPc.chDone => true
  | HelperPc.wgDone => true
  | _ => false

/-- Copy `q` is for channel `c` and its helper, at `x`, still holds the WaitGroup `ch.send`. -/
def onChan (cpChan : Nat → Nat) (c q : Nat) (x : HelperPc) : Bool :=
  decide (cpChan q = c) && x.holdsCh

/-- Copy `q` belongs to call `k` and its helper, at `x`, still holds the WaitGroup `wg`. -/
def inWg (cpCall : Nat → Nat) (k q : Nat) (x : HelperPc) : Bool :=
  decide (cpCall q = k) && x.holdsWg

/-- Copy `q` belongs to call `k` and has neither been acked nor abandoned. -/
def unsettled (cpCall : Nat → Nat) (k q : Nat) (once abandoned : Bool) : Bool :=
  decide (cpCall q = k) && !once && !abandoned

/-- The channel of copy `q`, when the copy belongs to call `k`. -/
def target (cpCall cpChan : Nat → Nat) (k q : Nat) : Option Nat :=
  if cpCall q = k then some (cpChan q) else none

/-- Channels for which call `k` has built a copy and attempted a handoff so far, in order. -/
def attempts (s : State T) (k : Nat) : List Nat :=
  gather (target s.cpCall s.cpChan k) s.nCopies

/-- Registry structure. -/
structure InvA (s : State T) : Prop where
  wf : WF s.channels s.channels.nodes
  elem : ∀ n, n < s.channels.size → s.elem n = n
  rel : ∀ c n, s.release c = some n → n = c ∧ c < s.channels.size

/-- Read lock and traversals. -/
structure InvB (s : State T) : Prop where
  mu : s.channels.mu = cnt (fun k => (s.pc k).inForEach) s.nCalls +
    cnt (fun r => (s.rpc r).inForEach) s.nRels
  sendCur : ∀ k, k < s.nCalls → ∀ cur, s.pc k = SendPc.forEach cur →
    ∃ rest, chainBy (fun i => (s.channels.heap i).next) cur rest ∧
      attempts s k ++ rest = s.channels.nodes ∧ s.snapshot k = s.channels.nodes
  relCur : ∀ r, r < s.nRels → ∀ cur, s.rpc r = RelPc.forEach cur →
    ∃ rest, chainBy (fun i => (s.channels.heap i).next) cur rest ∧
      s.all r ++ rest = s.channels.nodes ∧ s.bound r = s.channels.size ∧ s.idx r = 0
  relPre : ∀ r, r < s.nRels → s.rpc r = RelPc.rlock → s.all r = [] ∧ s.idx r = 0
  sendPre : ∀ k, k < s.nCalls → s.pc k = SendPc.rlock → attempts s k = []
  sendPost : ∀ k, k < s.nCalls → (s.pc k).past = true → attempts s k = s.snapshot k
  snap : ∀ k, k < s.nCalls → (s.snapshot k).Nodup ∧ ∀ n, n ∈ s.snapshot k → n < s.channels.size
  relPost : ∀ r, r < s.nRels → (s.rpc r).past = true →
    ∀ n, n ∈ s.channels.nodes → n ∈ (s.all r).drop (s.idx r) ∨ s.bound r ≤ n
  relBound : ∀ r, r < s.nRels → s.bound r ≤ s.channels.size
  copyChan : ∀ p, p < s.nCopies → s.cpChan p < s.channels.size

/-- Copies and their helpers. -/
structure InvC (s : State T) : Prop where
  val : ∀ p, p < s.nCopies → s.cpValue p = s.value (s.cpCall p)
  call : ∀ p, p < s.nCopies → s.cpCall p < s.nCalls
  delAb : ∀ p, p < s.nCopies → s.delivered p = true → s.abandoned p = false
  onceDel : ∀ p, p < s.nCopies → s.cpOnce p = true → s.delivered p = true
  sel : ∀ p, p < s.nCopies → s.helper p = HelperPc.select →
    s.delivered p = false ∧ s.abandoned p = false
  settled : ∀ p, p < s.nCopies → s.helper p ≠ HelperPc.select →
    s.delivered p = true ∨ s.abandoned p = true
  abDone : ∀ p, p < s.nCopies → s.abandoned p = true → s.doneClosed (s.cpChan p) = true
  wgSync : ∀ p, p < s.nCopies → s.helper p = HelperPc.wgDone → s.async (s.cpCall p) = false
  recvd : ∀ c, c < s.channels.size → ∀ p, p ∈ s.recvd c →
    p < s.nCopies ∧ s.cpChan p = c ∧ s.delivered p = true

/-- The three kinds of WaitGroup count what they are meant to count. -/
structure InvD (s : State T) : Prop where
  send : ∀ c, c < s.channels.size →
    s.send c = cnt (fun q => onChan s.cpChan c q (s.helper q)) s.nCopies
  wg : ∀ k, k < s.nCalls →
    s.wg k = if s.async k = true then 0
      else (cnt (fun q => inWg s.cpCall k q (s.helper q)) s.nCopies : Int)
  ack : ∀ k, k < s.nCalls →
    s.ack k = if s.ackable = true
      then (cnt (fun q => unsettled s.cpCall k q (s.cpOnce q) (s.abandoned q)) s.nCopies : Int)
      else 0

/-- Life cycle of a channel under `release`. -/
structure InvE (s : State T) : Prop where
  body : ∀ r, r < s.nRels → ∀ n, (s.rpc r).body = some n →
    s.once n = Once.running ∧ n < s.channels.size ∧ (s.all r).get? (s.idx r) = some n
  uniq : ∀ r, r < s.nRels → ∀ r', r' < s.nRels → ∀ n, (s.rpc r).body = some n →
    (s.rpc r').body = some n → r = r'
  atDelete : ∀ r, r < s.nRels → ∀ n, s.rpc r = RelPc.delete n →
    s.doneClosed n = false ∧ s.chClosed n = false
  atCloseDone : ∀ r, r < s.nRels → ∀ n, s.rpc r = RelPc.closeDone n →
    n ∉ s.channels.nodes ∧ s.doneClosed n = false ∧ s.chClosed n = false
  atWait : ∀ r, r < s.nRels → ∀ n, s.rpc r = RelPc.wait n →
    n ∉ s.channels.nodes ∧ s.doneClosed n = true ∧ s.chClosed n = false
  atCloseCh : ∀ r, r < s.nRels → ∀ n, s.rpc r = RelPc.closeCh n →
    n ∉ s.channels.nodes ∧ s.doneClosed n = true ∧ s.chClosed n = false ∧ s.send n = 0
  fresh : ∀ n, n < s.channels.size → s.once n = Once.fresh →
    s.doneClosed n = false ∧ s.chClosed n = false ∧ n ∈ s.channels.nodes
  done : ∀ n, n < s.channels.size → s.once n = Once.done →
    s.doneClosed n = true ∧ s.chClosed n = true ∧ n ∉ s.channels.nodes ∧ s.send n = 0
  chClosed : ∀ n, n < s.channels.size → s.chClosed n = true → s.once n = Once.done
  doneClosed : ∀ n, n < s.channels.size → s.doneClosed n = true →
    n ∉ s.channels.nodes ∧ s.once n ≠ Once.fresh
  returned : ∀ r, r < s.nRels → ∀ i, i < s.idx r → ∀ c, (s.all r).get? i = some c →
    s.once c = Once.done ∧ c < s.channels.size

/-- The goroutine waiting for the acknowledgments. -/
structure InvF (s : State T) : Prop where
  notStarted : ∀ k, k < s.nCalls → s.waiter k = WaiterPc.notStarted → s.acks k = 0
  waiting : ∀ k, k < s.nCalls → s.waiter k = WaiterPc.waiting →
    s.acks k = 0 ∧ (s.pc k).past = true
  finished : ∀ k, k < s.nCalls → s.waiter k = WaiterPc.finished →
    s.acks k = 1 ∧ (s.pc k).past = true ∧
      ∀ p, p < s.nCopies → s.cpCall p = k → s.cpOnce p = true ∨ s.abandoned p = true
  spawned : ∀ k, k < s.nCalls → s.ackable = true → (s.pc k).past = true →
    s.waiter k ≠ WaiterPc.notStarted
  plain : ∀ k, k < s.nCalls → s.ackable = false → s.waiter k = WaiterPc.notStarted

/-- Order of delivery. -/
structure InvH (s : State T) : Prop where
  before : ∀ b, b < s.nCalls → ∀ a, a ∈ s.before b →
    a < b ∧ s.pc a = SendPc.returned ∧ s.async a = false
  quiet : ∀ k, k < s.nCalls → s.pc k = SendPc.returned → s.async k = false →
    ∀ p, p < s.nCopies → s.cpCall p = k → (s.helper p).holdsWg = false
  fifo : ∀ c, c < s.channels.size →
    List.Pairwise (fun x y => s.cpCall y ∉ s.before (s.cpCall x)) (s.recvd c)

/-- All invariants together. -/
structure Inv (s : State T) : Prop where
  a : InvA s
  b : InvB s
  c : InvC s
  d : InvD s
  e : InvE s
  f : InvF s
  h : InvH s

/-! ### Preservation -/

/-- Both kinds of group insert the new channel at the end of the registry. -/
theorem Acquire_channels (s : State T) :
    (Acquire_insert s).channels = (s.channels.Insert s.channels.size).1 := by
  show (if s.ackable = true then s.channels.Append s.channels.size
    else s.channels.Insert s.channels.size).1 = _
  split_ifs <;> rfl

theorem WF.self {α : Type} {l : list α} {ids : List Nat} (h : WF l ids) : WF l l.nodes := by
  rw [h.nodes_eq]; exact h

theorem WF_mu {α : Type} {l : list α} {ids : List Nat} (h : WF l ids) (m : Nat) :
    WF { l with mu := m } ids := ⟨h.fwd, h.bwd, h.nodup, h.lt, h.iso⟩

theorem nodes_Insert {s : State T} (h : Inv s) (e : Nat) :
    (s.channels.Insert e).1.nodes = s.channels.nodes ++ [s.channels.size] :=
  (h.a.wf.Insert e).nodes_eq

theorem nodes_Delete {s : State T} (h : Inv s) (n : Nat) :
    (s.channels.Delete n).nodes = s.channels.nodes.erase n :=
  (h.a.wf.Delete n).nodes_eq

theorem invA_step {s s' : State T} (h : Inv s) (hs : Step s s') : InvA s' := by
  refine ⟨?_, ?_, ?_⟩
  · cases hs <;> first | exact h.a.wf | exact WF_mu h.a.wf _ | skip
    case acquire => rw [Acquire_channels]; exact (h.a.wf.Insert _).self
    case relDelete r n _ _ _ => exact (h.a.wf.Delete n).self
  · cases hs <;> first | exact h.a.elem | skip
    case acquire =>
      intro n hn
      rw [Acquire_channels] at hn
      show ((Acquire_insert s).channels.heap n).elem = n
      rw [Acquire_channels, Insert_elem]
      split_ifs with e
      · exact e.symm
      · refine h.a.elem n ?_
        have : n < s.channels.size + 1 := by simpa [Insert_size] using hn
        omega
    case relDelete r n _ _ _ =>
      intro m hm
      show ((s.channels.Delete n).heap m).elem = m
      rw [Delete_elem]
      exact h.a.elem m hm
  · cases hs <;> first | exact h.a.rel | skip
    case acquire =>
      intro c n
      rw [Acquire_channels, Insert_size]
      show Function.update s.release s.channels.size none c = some n → _
      by_cases e : c = s.channels.size
      · rw [e, Function.update_same]
        intro hc; cases hc
      · rw [Function.update_noteq e]
        intro hc
        have := h.a.rel c n hc
        exact ⟨this.1, by omega⟩
    case acquireReturn n hn hr =>
      intro c m
      simp only [Acquire_return, Function.update_apply]
      have he := h.a.elem n hn
      split_ifs with e
      · intro hc
        simp only [Option.some.injEq] at hc
        subst hc
        rw [e, he]
        exact ⟨rfl, hn⟩
      · exact h.a.rel c m

theorem noReader {s : State T} (h : Inv s) (hm : s.channels.mu = 0) :
    (∀ k, k < s.nCalls → (s.pc k).inForEach = false) ∧
    (∀ r, r < s.nRels → (s.rpc r).inForEach = false) := by
  have := h.b.mu
  rw [hm] at this
  exact ⟨fun k hk => cnt_zero (f := fun k => (s.pc k).inForEach) (by omega) hk,
    fun r hr => cnt_zero (f := fun r => (s.rpc r).inForEach) (by omega) hr⟩

theorem mu_step {s s' : State T} (h : Inv s) (hs : Step s s') :
    s'.channels.mu = cnt (fun k => (s'.pc k).inForEach) s'.nCalls +
    cnt (fun r => (s'.rpc r).inForEach) s'.nRels := by
  have hmu := h.b.mu
  cases hs <;> first | exact hmu | skip
  case acquire =>
    rw [Acquire_channels, Insert_mu]; exact hmu
  case callRelease c hr =>
    simp only [State.spawnRel]
    rw [cnt_alloc (F := fun r => (s.rpc r).inForEach)
      (fun q hq => by rw [Function.update_noteq (Nat.ne_of_lt hq)])]
    simpa [RelPc.inForEach] using hmu
  case callReleaseAll =>
    simp only [State.spawnRel]
    rw [cnt_alloc (F := fun r => (s.rpc r).inForEach)
      (fun q hq => by rw [Function.update_noteq (Nat.ne_of_lt hq)])]
    simpa [RelPc.inForEach] using hmu
  case callSend v async =>
    simp only [callSend]
    rw [cnt_alloc (F := fun k => (s.pc k).inForEach)
      (fun q hq => by rw [Function.update_noteq (Nat.ne_of_lt hq)])]
    simpa [SendPc.inForEach] using hmu
  case sendRlock k hk hpc =>
    obtain ⟨m, e1, e2⟩ := cnt_split (fun _ (x : SendPc) => x.inForEach) s.pc hk
    simp only [Send_rlock]; rw [e2]; rw [e1] at hmu
    simp [SendPc.inForEach, hpc] at hmu ⊢; omega
  case sendHandoff k n hk hpc hc =>
    obtain ⟨m, e1, e2⟩ := cnt_split (fun _ (x : SendPc) => x.inForEach) s.pc hk
    simp only [Send_handoff]; rw [e2]; rw [e1] at hmu
    simp [SendPc.inForEach, hpc] at hmu ⊢; omega
  case sendDefault k n hk hpc hc =>
    obtain ⟨m, e1, e2⟩ := cnt_split (fun _ (x : SendPc) => x.inForEach) s.pc hk
    simp only [Send_default]; rw [e2]; rw [e1] at hmu
    simp [SendPc.inForEach, hpc] at hmu ⊢; omega
  case sendRunlock k hk hpc =>
    obtain ⟨m, e1, e2⟩ := cnt_split (fun _ (x : SendPc) => x.inForEach) s.pc hk
    simp only [Send_runlock]; rw [e2]; rw [e1] at hmu
    by_cases ha : s.async k = true <;>
      simp [SendPc.inForEach, hpc, ha] at hmu ⊢ <;> omega
  case sendReturn k hk hpc hw =>
    obtain ⟨m, e1, e2⟩ := cnt_split (fun _ (x : SendPc) => x.inForEach) s.pc hk
    simp only [Send_return]; rw [e2]; rw [e1] at hmu
    simp [SendPc.inForEach, hpc] at hmu ⊢; omega
  case relRlock r hr hpc =>
    obtain ⟨m, e1, e2⟩ := cnt_split (fun _ (x : RelPc) => x.inForEach) s.rpc hr
    simp only [release_rlock]; rw [e2]; rw [e1] at hmu
    simp [RelPc.inForEach, hpc] at hmu ⊢; omega
  case relCollect r n hr hpc =>
    obtain ⟨m, e1, e2⟩ := cnt_split (fun _ (x : RelPc) => x.inForEach) s.rpc hr
    simp only [release_collect]; rw [e2]; rw [e1] at hmu
    simp [RelPc.inForEach, hpc] at hmu ⊢; omega
  case relRunlock r hr hpc =>
    obtain ⟨m, e1, e2⟩ := cnt_split (fun _ (x : RelPc) => x.inForEach) s.rpc hr
    simp only [release_runlock]; rw [e2]; rw [e1] at hmu
    simp [RelPc.inForEach, hpc] at hmu ⊢; omega
  case relEnter r c n hr hpc hc hrel ho =>
    obtain ⟨m, e1, e2⟩ := cnt_split (fun _ (x : RelPc) => x.inForEach) s.rpc hr
    simp only [release_enter]; rw [e2]; rw [e1] at hmu
    simp [RelPc.inForEach, hpc] at hmu ⊢; omega
  case relDelete r n hr hpc hm =>
    obtain ⟨m, e1, e2⟩ := cnt_split (fun _ (x : RelPc) => x.inForEach) s.rpc hr
    simp only [release_delete, Delete_mu]; rw [e2]; rw [e1] at hmu
    simp [RelPc.inForEach, hpc] at hmu ⊢; omega
  case relCloseDone r n hr hpc hd =>
    obtain ⟨m, e1, e2⟩ := cnt_split (fun _ (x : RelPc) => x.inForEach) s.rpc hr
    simp only [release_closeDone]; rw [e2]; rw [e1] at hmu
    simp [RelPc.inForEach, hpc] at hmu ⊢; omega
  case relWait r n hr hpc hs =>
    obtain ⟨m, e1, e2⟩ := cnt_split (fun _ (x : RelPc) => x.inForEach) s.rpc hr
    simp only [release_wait]; rw [e2]; rw [e1] at hmu
    simp [RelPc.inForEach, hpc] at hmu ⊢; omega
  case relCloseCh r n hr hpc hc =>
    obtain ⟨m, e1, e2⟩ := cnt_split (fun _ (x : RelPc) => x.inForEach) s.rpc hr
    simp only [release_closeCh]; rw [e2]; rw [e1] at hmu
    simp [RelPc.inForEach, hpc] at hmu ⊢; omega

/-- A cursor of a traversal points into the list. -/
theorem cursor_mem {s : State T} (h : Inv s) {k n : Nat} (hk : k < s.nCalls)
    (hpc : s.pc k = SendPc.forEach (some n)) :
    n ∈ s.channels.nodes ∧ n < s.channels.size ∧ s.elem n = n := by
  obtain ⟨rest, hc, hr, _⟩ := h.b.sendCur k hk _ hpc
  cases rest with
  | nil => simp [chainBy] at hc
  | cons a rest =>
    have : a = n := by have := hc.1; simp at this; exact this.symm
    subst this
    have hm : a ∈ s.channels.nodes := by rw [← hr]; simp
    have hl := h.a.wf.lt a hm
    exact ⟨hm, hl, h.a.elem a hl⟩

theorem rcursor_mem {s : State T} (h : Inv s) {r n : Nat} (hr : r < s.nRels)
    (hpc : s.rpc r = RelPc.forEach (some n)) :
    n ∈ s.channels.nodes ∧ n < s.channels.size ∧ s.elem n = n := by
  obtain ⟨rest, hc, hr, _⟩ := h.b.relCur r hr _ hpc
  cases rest with
  | nil => simp [chainBy] at hc
  | cons a rest =>
    have : a = n := by have := hc.1; simp at this; exact this.symm
    subst this
    have hm : a ∈ s.channels.nodes := by rw [← hr]; simp
    have hl := h.a.wf.lt a hm
    exact ⟨hm, hl, h.a.elem a hl⟩

theorem attempts_handoff (s : State T) (k n k' : Nat) :
    attempts (Send_handoff s k n) k' = attempts s k' ++ (if k = k' then [s.elem n] else []) := by
  unfold attempts
  simp only [Send_handoff]
  rw [gather_alloc (F := target s.cpCall s.cpChan k')
    (fun q hq => by simp [target, Function.update_noteq (Nat.ne_of_lt hq)])]
  by_cases e : k = k' <;> simp [target, e]

theorem attempts_default (s : State T) (k n k' : Nat) :
    attempts (Send_default s k n) k' = attempts s k' ++ (if k = k' then [s.elem n] else []) := by
  unfold attempts
  simp only [Send_default]
  rw [gather_alloc (F := target s.cpCall s.cpChan k')
    (fun q hq => by simp [target, Function.update_noteq (Nat.ne_of_lt hq)])]
  by_cases e : k = k' <;> simp [target, e]

theorem sendCur_step {s s' : State T} (h : Inv s) (hs : Step s s') :
    ∀ k, k < s'.nCalls → ∀ cur, s'.pc k = SendPc.forEach cur →
    ∃ rest, chainBy (fun i => (s'.channels.heap i).next) cur rest ∧
      attempts s' k ++ rest = s'.channels.nodes ∧ s'.snapshot k = s'.channels.nodes := by
  have hcur := h.b.sendCur
  cases hs <;> first | exact hcur | skip
  case acquire hm =>
    intro k hk cur hpc
    have := (noReader h hm).1 k hk
    change s.pc k = _ at hpc
    simp [SendPc.inForEach, hpc] at this
  case relDelete r n hr hpc0 hm =>
    intro k hk cur hpc
    have := (noReader h hm).1 k hk
    change s.pc k = _ at hpc
    simp [SendPc.inForEach, hpc] at this
  case callSend v async =>
    intro k hk cur hpc
    by_cases e : k = s.nCalls
    · subst e; simp [callSend] at hpc
    · have hk' : k < s.nCalls := by simp only [callSend] at hk; omega
      simp only [callSend, Function.update_noteq e] at hpc ⊢
      exact hcur k hk' cur hpc
  case sendRlock k0 hk0 hpc0 =>
    intro k hk cur hpc
    by_cases e : k = k0
    · subst e
      simp only [Send_rlock, Function.update_same] at hpc ⊢
      have : cur = s.channels.first := by simpa using hpc.symm
      subst this
      refine ⟨s.channels.nodes, h.a.wf.fwd, ?_, rfl⟩
      have := h.b.sendPre k hk hpc0
      show attempts s k ++ _ = _
      rw [this]; rfl
    · simp only [Send_rlock, Function.update_noteq e] at hpc ⊢
      exact hcur k hk cur hpc
  case sendHandoff k0 n hk0 hpc0 hc =>
    intro k hk cur hpc
    obtain ⟨hm, hl, he⟩ := cursor_mem h hk0 hpc0
    obtain ⟨rest, hch, hr, hsn⟩ := hcur k0 hk0 _ hpc0
    rw [attempts_handoff]
    by_cases e : k = k0
    · subst e
      simp only [Send_handoff, Function.update_same] at hpc ⊢
      cases rest with
      | nil => simp [chainBy] at hch
      | cons a rest =>
        have ha : a = n := by have := hch.1; simp at this; exact this.symm
        subst ha
        have : cur = (s.channels.heap a).next := by simpa using hpc.symm
        subst this
        refine ⟨rest, hch.2, ?_, hsn⟩
        rw [← hr, he]; simp
    · have e' : k0 ≠ k := fun h => e h.symm
      simp only [Send_handoff, Function.update_noteq e] at hpc hk ⊢
      simp only [e', if_false, List.append_nil]
      exact hcur k hk cur hpc
  case sendDefault k0 n hk0 hpc0 hc =>
    intro k hk cur hpc
    obtain ⟨hm, hl, he⟩ := cursor_mem h hk0 hpc0
    obtain ⟨rest, hch, hr, hsn⟩ := hcur k0 hk0 _ hpc0
    rw [attempts_default]
    by_cases e : k = k0
    · subst e
      simp only [Send_default, Function.update_same] at hpc ⊢
      cases rest with
      | nil => simp [chainBy] at hch
      | cons a rest =>
        have ha : a = n := by have := hch.1; simp at this; exact this.symm
        subst ha
        have : cur = (s.channels.heap a).next := by simpa using hpc.symm
        subst this
        refine ⟨rest, hch.2, ?_, hsn⟩
        rw [← hr, he]; simp
    · have e' : k0 ≠ k := fun h => e h.symm
      simp only [Send_default, Function.update_noteq e] at hpc hk ⊢
      simp only [e', if_false, List.append_nil]
      exact hcur k hk cur hpc
  case sendRunlock k0 hk0 hpc0 =>
    intro k hk cur hpc
    by_cases e : k = k0
    · subst e
      simp only [Send_runlock, Function.update_same] at hpc
      split_ifs at hpc
    · simp only [Send_runlock, Function.update_noteq e] at hpc ⊢
      exact hcur k hk cur hpc
  case sendReturn k0 hk0 hpc0 hw =>
    intro k hk cur hpc
    by_cases e : k = k0
    · subst e
      simp [Send_return] at hpc
    · simp only [Send_return, Function.update_noteq e] at hpc ⊢
      exact hcur k hk cur hpc

theorem attempts_nil {s : State T} (h : Inv s) {k : Nat} (hk : s.nCalls ≤ k) :
    attempts s k = [] := by
  unfold attempts
  have : ∀ n, n ≤ s.nCopies → gather (target s.cpCall s.cpChan k) n = [] := by
    intro n
    induction n with
    | zero => intro _; rfl
    | succ n ih =>
      intro hn
      have := h.c.call n (by omega)
      simp only [gather, ih (by omega), target]
      rw [if_neg (by omega)]
      rfl
  exact this _ (le_refl _)

theorem relCur_step {s s' : State T} (h : Inv s) (hs : Step s s') :
    ∀ r, r < s'.nRels → ∀ cur, s'.rpc r = RelPc.forEach cur →
    ∃ rest, chainBy (fun i => (s'.channels.heap i).next) cur rest ∧
      s'.all r ++ rest = s'.channels.nodes ∧ s'.bound r = s'.channels.size ∧ s'.idx r = 0 := by
  have hcur := h.b.relCur
  cases hs <;> first | exact hcur | skip
  case acquire hm =>
    intro r hr cur hpc
    have := (noReader h hm).2 r hr
    change s.rpc r = _ at hpc
    simp [RelPc.inForEach, hpc] at this
  case relDelete r0 n hr0 hpc0 hm =>
    intro r hr cur hpc
    by_cases e : r = r0
    · subst e; simp [release_delete] at hpc
    · have := (noReader h hm).2 r hr
      simp only [release_delete, Function.update_noteq e] at hpc
      simp [RelPc.inForEach, hpc] at this
  case callRelease c hc =>
    intro r hr cur hpc
    by_cases e : r = s.nRels
    · subst e; simp [State.spawnRel] at hpc
    · have hr' : r < s.nRels := by simp only [State.spawnRel] at hr; omega
      simp only [State.spawnRel, Function.update_noteq e] at hpc ⊢
      exact hcur r hr' cur hpc
  case callReleaseAll =>
    intro r hr cur hpc
    by_cases e : r = s.nRels
    · subst e; simp [State.spawnRel] at hpc
    · have hr' : r < s.nRels := by simp only [State.spawnRel] at hr; omega
      simp only [State.spawnRel, Function.update_noteq e] at hpc ⊢
      exact hcur r hr' cur hpc
  case relRlock r0 hr0 hpc0 =>
    intro r hr cur hpc
    by_cases e : r = r0
    · subst e
      simp only [release_rlock, Function.update_same] at hpc ⊢
      have : cur = s.channels.first := by simpa using hpc.symm
      subst this
      have hp := h.b.relPre r hr hpc0
      refine ⟨s.channels.nodes, h.a.wf.fwd, ?_, trivial, hp.2⟩
      rw [hp.1]; rfl
    · simp only [release_rlock, Function.update_noteq e] at hpc ⊢
      exact hcur r hr cur hpc
  case relCollect r0 n hr0 hpc0 =>
    intro r hr cur hpc
    obtain ⟨hm, hl, he⟩ := rcursor_mem h hr0 hpc0
    obtain ⟨rest, hch, hrr, hb, hi⟩ := hcur r0 hr0 _ hpc0
    by_cases e : r = r0
    · subst e
      simp only [release_collect, Function.update_same] at hpc ⊢
      cases rest with
      | nil => simp [chainBy] at hch
      | cons a rest =>
        have ha : a = n := by have := hch.1; simp at this; exact this.symm
        subst ha
        have : cur = (s.channels.heap a).next := by simpa using hpc.symm
        subst this
        refine ⟨rest, hch.2, ?_, hb, hi⟩
        rw [← hrr, he]; simp
    · simp only [release_collect, Function.update_noteq e] at hpc ⊢
      exact hcur r hr cur hpc
  case relRunlock r0 hr0 hpc0 =>
    intro r hr cur hpc
    by_cases e : r = r0
    · subst e; simp [release_runlock, hpc0] at hpc
    · simp only [release_runlock, Function.update_noteq e] at hpc ⊢
      exact hcur r hr cur hpc
  case relEnter r0 c0 n0 hr0 hpc0 hc0 hrel0 ho0 =>
    intro r hr cur hpc
    by_cases e : r = r0
    · subst e; simp [release_enter, hpc0] at hpc
    · simp only [release_enter, Function.update_noteq e] at hpc ⊢
      exact hcur r hr cur hpc
  case relSkip r0 c0 n0 hr0 hpc0 hc0 hrel0 ho0 =>
    intro r hr cur hpc
    by_cases e : r = r0
    · subst e; simp [release_skip, hpc0] at hpc
    · simp only [release_skip, Function.update_noteq e] at hpc ⊢
      exact hcur r hr cur hpc
  case relCloseDone r0 n0 hr0 hpc0 hd0 =>
    intro r hr cur hpc
    by_cases e : r = r0
    · subst e; simp [release_closeDone, hpc0] at hpc
    · simp only [release_closeDone, Function.update_noteq e] at hpc ⊢
      exact hcur r hr cur hpc
  case relWait r0 n0 hr0 hpc0 hs0 =>
    intro r hr cur hpc
    by_cases e : r = r0
    · subst e; simp [release_wait, hpc0] at hpc
    · simp only [release_wait, Function.update_noteq e] at hpc ⊢
      exact hcur r hr cur hpc
  case relCloseCh r0 n0 hr0 hpc0 hc0 =>
    intro r hr cur hpc
    by_cases e : r = r0
    · subst e; simp [release_closeCh, hpc0] at hpc
    · simp only [release_closeCh, Function.update_noteq e] at hpc ⊢
      exact hcur r hr cur hpc

theorem relPre_step {s s' : State T} (h : Inv s) (hs : Step s s') :
    ∀ r, r < s'.nRels → s'.rpc r = RelPc.rlock → s'.all r = [] ∧ s'.idx r = 0 := by
  have hcur := h.b.relPre
  cases hs <;> first | exact hcur | skip
  case callRelease c hc =>
    intro r hr hpc
    by_cases e : r = s.nRels
    · subst e; simp [State.spawnRel] at hpc
    · have hr' : r < s.nRels := by simp only [State.spawnRel] at hr; omega
      simp only [State.spawnRel, Function.update_noteq e] at hpc ⊢
      exact hcur r hr' hpc
  case callReleaseAll =>
    intro r hr hpc
    by_cases e : r = s.nRels
    · subst e; simp [State.spawnRel]
    · have hr' : r < s.nRels := by simp only [State.spawnRel] at hr; omega
      simp only [State.spawnRel, Function.update_noteq e] at hpc ⊢
      exact hcur r hr' hpc
  case relRlock r0 hr0 hpc0 =>
    intro r hr hpc
    by_cases e : r = r0
    · subst e; simp [release_rlock, hpc0] at hpc
    · simp only [release_rlock, Function.update_noteq e] at hpc ⊢
      exact hcur r hr hpc
  case relCollect r0 n0 hr0 hpc0 =>
    intro r hr hpc
    by_cases e : r = r0
    · subst e; simp [release_collect, hpc0] at hpc
    · simp only [release_collect, Function.update_noteq e] at hpc ⊢
      exact hcur r hr hpc
  case relRunlock r0 hr0 hpc0 =>
    intro r hr hpc
    by_cases e : r = r0
    · subst e; simp [release_runlock, hpc0] at hpc
    · simp only [release_runlock, Function.update_noteq e] at hpc ⊢
      exact hcur r hr hpc
  case relEnter r0 c0 n0 hr0 hpc0 hc0 hrel0 ho0 =>
    intro r hr hpc
    by_cases e : r = r0
    · subst e; simp [release_enter, hpc0] at hpc
    · simp only [release_enter, Function.update_noteq e] at hpc ⊢
      exact hcur r hr hpc
  case relSkip r0 c0 n0 hr0 hpc0 hc0 hrel0 ho0 =>
    intro r hr hpc
    by_cases e : r = r0
    · subst e; simp [release_skip, hpc0] at hpc
    · simp only [release_skip, Function.update_noteq e] at hpc ⊢
      exact hcur r hr hpc
  case relDelete r0 n0 hr0 hpc0 hm0 =>
    intro r hr hpc
    by_cases e : r = r0
    · subst e; simp [release_delete, hpc0] at hpc
    · simp only [release_delete, Function.update_noteq e] at hpc ⊢
      exact hcur r hr hpc
  case relCloseDone r0 n0 hr0 hpc0 hd0 =>
    intro r hr hpc
    by_cases e : r = r0
    · subst e; simp [release_closeDone, hpc0] at hpc
    · simp only [release_closeDone, Function.update_noteq e] at hpc ⊢
      exact hcur r hr hpc
  case relWait r0 n0 hr0 hpc0 hs0 =>
    intro r hr hpc
    by_cases e : r = r0
    · subst e; simp [release_wait, hpc0] at hpc
    · simp only [release_wait, Function.update_noteq e] at hpc ⊢
      exact hcur r hr hpc
  case relCloseCh r0 n0 hr0 hpc0 hc0 =>
    intro r hr hpc
    by_cases e : r = r0
    · subst e; simp [release_closeCh, hpc0] at hpc
    · simp only [release_closeCh, Function.update_noteq e] at hpc ⊢
      exact hcur r hr hpc

theorem sendPre_step {s s' : State T} (h : Inv s) (hs : Step s s') :
    ∀ k, k < s'.nCalls → s'.pc k = SendPc.rlock → attempts s' k = [] := by
  have hcur := h.b.sendPre
  cases hs <;> first | exact hcur | skip
  case callSend v async =>
    intro k hk hpc
    by_cases e : k = s.nCalls
    · subst e; exact attempts_nil h (le_refl _)
    · have hk' : k < s.nCalls := by simp only [callSend] at hk; omega
      simp only [callSend, Function.update_noteq e] at hpc
      exact hcur k hk' hpc
  case sendHandoff k0 n0 hk0 hpc0 hc0 =>
    intro k hk hpc
    by_cases e : k = k0
    · subst e; simp [Send_handoff] at hpc
    · have e' : k0 ≠ k := fun h => e h.symm
      simp only [Send_handoff, Function.update_noteq e] at hpc
      rw [attempts_handoff, if_neg e', List.append_nil]
      exact hcur k hk hpc
  case sendDefault k0 n0 hk0 hpc0 hc0 =>
    intro k hk hpc
    by_cases e : k = k0
    · subst e; simp [Send_default] at hpc
    · have e' : k0 ≠ k := fun h => e h.symm
      simp only [Send_default, Function.update_noteq e] at hpc
      rw [attempts_default, if_neg e', List.append_nil]
      exact hcur k hk hpc
  case sendRlock k0 hk0 hpc0 =>
    intro k hk hpc
    by_cases e : k = k0
    · subst e; simp [Send_rlock] at hpc
    · simp only [Send_rlock, Function.update_noteq e] at hpc
      exact hcur k hk hpc
  case sendReturn k0 hk0 hpc0 hw0 =>
    intro k hk hpc
    by_cases e : k = k0
    · subst e; simp [Send_return] at hpc
    · simp only [Send_return, Function.update_noteq e] at hpc
      exact hcur k hk hpc
  case sendRunlock k0 hk0 hpc0 =>
    intro k hk hpc
    by_cases e : k = k0
    · subst e
      simp only [Send_runlock, Function.update_same] at hpc
      split_ifs at hpc
    · simp only [Send_runlock, Function.update_noteq e] at hpc
      exact hcur k hk hpc

theorem sendPost_step {s s' : State T} (h : Inv s) (hs : Step s s') :
    ∀ k, k < s'.nCalls → (s'.pc k).past = true → attempts s' k = s'.snapshot k := by
  have hcur := h.b.sendPost
  cases hs <;> first | exact hcur | skip
  case callSend v async =>
    intro k hk hpc
    by_cases e : k = s.nCalls
    · subst e; simp [callSend, SendPc.past] at hpc
    · have hk' : k < s.nCalls := by simp only [callSend] at hk; omega
      simp only [callSend, Function.update_noteq e] at hpc ⊢
      exact hcur k hk' hpc
  case sendRlock k0 hk0 hpc0 =>
    intro k hk hpc
    by_cases e : k = k0
    · subst e; simp [Send_rlock, SendPc.past] at hpc
    · simp only [Send_rlock, Function.update_noteq e] at hpc ⊢
      exact hcur k hk hpc
  case sendHandoff k0 n0 hk0 hpc0 hc0 =>
    intro k hk hpc
    by_cases e : k = k0
    · subst e; simp [Send_handoff, SendPc.past] at hpc
    · have e' : k0 ≠ k := fun h => e h.symm
      simp only [Send_handoff, Function.update_noteq e] at hpc
      rw [attempts_handoff, if_neg e', List.append_nil]
      exact hcur k hk hpc
  case sendDefault k0 n0 hk0 hpc0 hc0 =>
    intro k hk hpc
    by_cases e : k = k0
    · subst e; simp [Send_default, SendPc.past] at hpc
    · have e' : k0 ≠ k := fun h => e h.symm
      simp only [Send_default, Function.update_noteq e] at hpc
      rw [attempts_default, if_neg e', List.append_nil]
      exact hcur k hk hpc
  case sendRunlock k0 hk0 hpc0 =>
    intro k hk hpc
    by_cases e : k = k0
    · subst e
      obtain ⟨rest, hch, hr, hsn⟩ := h.b.sendCur k hk _ hpc0
      cases rest with
      | nil =>
        show attempts s k = s.snapshot k
        rw [hsn, ← hr, List.append_nil]
      | cons a rest => simp [chainBy] at hch
    · simp only [Send_runlock, Function.update_noteq e] at hpc ⊢
      exact hcur k hk hpc
  case sendReturn k0 hk0 hpc0 hw0 =>
    intro k hk hpc
    by_cases e : k = k0
    · subst e
      exact hcur k hk (by rw [hpc0]; rfl)
    · simp only [Send_return, Function.update_noteq e] at hpc ⊢
      exact hcur k hk hpc

theorem snap_step {s s' : State T} (h : Inv s) (hs : Step s s') :
    ∀ k, k < s'.nCalls → (s'.snapshot k).Nodup ∧ ∀ n, n ∈ s'.snapshot k → n < s'.channels.size := by
  have hcur := h.b.snap
  cases hs <;> first | exact hcur | skip
  case acquire hm =>
    intro k hk
    refine ⟨(hcur k hk).1, fun n hn => ?_⟩
    have := (hcur k hk).2 n hn
    rw [Acquire_channels, Insert_size]; omega
  case callSend v async =>
    intro k hk
    by_cases e : k = s.nCalls
    · subst e; simp [callSend]
    · have hk' : k < s.nCalls := by simp only [callSend] at hk; omega
      simp only [callSend, Function.update_noteq e]
      exact hcur k hk'
  case sendRlock k0 hk0 hpc0 =>
    intro k hk
    by_cases e : k = k0
    · subst e
      simp only [Send_rlock, Function.update_same]
      exact ⟨h.a.wf.nodup, h.a.wf.lt⟩
    · simp only [Send_rlock, Function.update_noteq e]
      exact hcur k hk

theorem relBound_step {s s' : State T} (h : Inv s) (hs : Step s s') :
    ∀ r, r < s'.nRels → s'.bound r ≤ s'.channels.size := by
  have hcur := h.b.relBound
  cases hs <;> first | exact hcur | skip
  case acquire hm =>
    intro r hr
    have := hcur r hr
    rw [Acquire_channels, Insert_size]
    show s.bound r ≤ _
    omega
  case callRelease c hc =>
    intro r hr
    by_cases e : r = s.nRels
    · subst e; simp [State.spawnRel]
    · have hr' : r < s.nRels := by simp only [State.spawnRel] at hr; omega
      simp only [State.spawnRel, Function.update_noteq e]
      exact hcur r hr'
  case callReleaseAll =>
    intro r hr
    by_cases e : r = s.nRels
    · subst e; simp [State.spawnRel]
    · have hr' : r < s.nRels := by simp only [State.spawnRel] at hr; omega
      simp only [State.spawnRel, Function.update_noteq e]
      exact hcur r hr'
  case relRlock r0 hr0 hpc0 =>
    intro r hr
    by_cases e : r = r0
    · subst e; simp [release_rlock]
    · simp only [release_rlock, Function.update_noteq e]
      exact hcur r hr

theorem copyChan_step {s s' : State T} (h : Inv s) (hs : Step s s') :
    ∀ p, p < s'.nCopies → s'.cpChan p < s'.channels.size := by
  have hcur := h.b.copyChan
  cases hs <;> first | exact hcur | skip
  case acquire hm =>
    intro p hp
    have := hcur p hp
    rw [Acquire_channels, Insert_size]
    show s.cpChan p < _
    omega
  case sendHandoff k0 n0 hk0 hpc0 hc0 =>
    intro p hp
    obtain ⟨hm, hl, he⟩ := cursor_mem h hk0 hpc0
    by_cases e : p = s.nCopies
    · subst e; simp only [Send_handoff, Function.update_same]; rw [he]; exact hl
    · have hp' : p < s.nCopies := by simp only [Send_handoff] at hp; omega
      simp only [Send_handoff, Function.update_noteq e]
      exact hcur p hp'
  case sendDefault k0 n0 hk0 hpc0 hc0 =>
    intro p hp
    obtain ⟨hm, hl, he⟩ := cursor_mem h hk0 hpc0
    by_cases e : p = s.nCopies
    · subst e; simp only [Send_default, Function.update_same]; rw [he]; exact hl
    · have hp' : p < s.nCopies := by simp only [Send_default] at hp; omega
      simp only [Send_default, Function.update_noteq e]
      exact hcur p hp'

theorem mem_drop_succ {l : List Nat} {i c n : Nat} (hc : l.get? i = some c)
    (hn : n ∈ l.drop i) : n = c ∨ n ∈ l.drop (i + 1) := by
  induction l generalizing i with
  | nil => simp at hc
  | cons a l ih =>
    cases i with
    | zero =>
      simp at hc
      subst hc
      simpa using hn
    | succ i =>
      simp at hc hn ⊢
      exact ih (by simpa using hc) hn

theorem relPost_step {s s' : State T} (h : Inv s) (hs : Step s s') :
    ∀ r, r < s'.nRels → (s'.rpc r).past = true →
    ∀ n, n ∈ s'.channels.nodes → n ∈ (s'.all r).drop (s'.idx r) ∨ s'.bound r ≤ n := by
  have hcur := h.b.relPost
  cases hs <;> first | exact hcur | skip
  case acquire hm =>
    intro r hr hpc n hn
    rw [Acquire_channels, nodes_Insert h] at hn
    rcases List.mem_append.1 hn with hn | hn
    · exact hcur r hr hpc n hn
    · rw [List.mem_singleton] at hn
      subst hn
      exact Or.inr (h.b.relBound r hr)
  case callRelease c hc =>
    intro r hr hpc n hn
    by_cases e : r = s.nRels
    · subst e; simp [State.spawnRel]
    · have hr' : r < s.nRels := by simp only [State.spawnRel] at hr; omega
      simp only [State.spawnRel, Function.update_noteq e] at hpc ⊢
      exact hcur r hr' hpc n hn
  case callReleaseAll =>
    intro r hr hpc n hn
    by_cases e : r = s.nRels
    · subst e; simp [State.spawnRel, RelPc.past] at hpc
    · have hr' : r < s.nRels := by simp only [State.spawnRel] at hr; omega
      simp only [State.spawnRel, Function.update_noteq e] at hpc ⊢
      exact hcur r hr' hpc n hn
  case relRlock r0 hr0 hpc0 =>
    intro r hr hpc n hn
    by_cases e : r = r0
    · subst e; simp [release_rlock, RelPc.past] at hpc
    · simp only [release_rlock, Function.update_noteq e] at hpc ⊢
      exact hcur r hr hpc n hn
  case relCollect r0 n0 hr0 hpc0 =>
    intro r hr hpc n hn
    by_cases e : r = r0
    · subst e; simp [release_collect, RelPc.past] at hpc
    · simp only [release_collect, Function.update_noteq e] at hpc ⊢
      exact hcur r hr hpc n hn
  case relRunlock r0 hr0 hpc0 =>
    intro r hr hpc n hn
    by_cases e : r = r0
    · subst e
      obtain ⟨rest, hch, hrr, hb, hi⟩ := h.b.relCur r hr _ hpc0
      cases rest with
      | nil =>
        left
        show n ∈ (s.all r).drop (s.idx r)
        rw [hi, List.drop_zero]
        rw [List.append_nil] at hrr
        rw [hrr]; exact hn
      | cons a rest => simp [chainBy] at hch
    · simp only [release_runlock, Function.update_noteq e] at hpc ⊢
      exact hcur r hr hpc n hn
  case relEnter r0 c0 n0 hr0 hpc0 hc0 hrel0 ho0 =>
    intro r hr hpc n hn
    by_cases e : r = r0
    · subst e; exact hcur r hr (by rw [hpc0]; rfl) n hn
    · simp only [release_enter, Function.update_noteq e] at hpc ⊢
      exact hcur r hr hpc n hn
  case relSkip r0 c0 n0 hr0 hpc0 hc0 hrel0 ho0 =>
    intro r hr hpc n hn
    by_cases e : r = r0
    · subst e
      simp only [release_skip, Function.update_same]
      rcases hcur r hr (by rw [hpc0]; rfl) n hn with h1 | h1
      · rcases mem_drop_succ hc0 h1 with h2 | h2
        · exfalso
          subst h2
          obtain ⟨e1, e2⟩ := h.a.rel _ _ hrel0
          subst e1
          exact (h.e.done _ e2 ho0).2.2.1 hn
        · exact Or.inl h2
      · exact Or.inr h1
    · simp only [release_skip, Function.update_noteq e] at hpc ⊢
      exact hcur r hr hpc n hn
  case relDelete r0 n0 hr0 hpc0 hm0 =>
    intro r hr hpc n hn
    change n ∈ (s.channels.Delete n0).nodes at hn
    rw [nodes_Delete h] at hn
    have hn' := List.mem_of_mem_erase hn
    by_cases e : r = r0
    · subst e; exact hcur r hr (by rw [hpc0]; rfl) n hn'
    · simp only [release_delete, Function.update_noteq e] at hpc ⊢
      exact hcur r hr hpc n hn'
  case relCloseDone r0 n0 hr0 hpc0 hd0 =>
    intro r hr hpc n hn
    by_cases e : r = r0
    · subst e; exact hcur r hr (by rw [hpc0]; rfl) n hn
    · simp only [release_closeDone, Function.update_noteq e] at hpc ⊢
      exact hcur r hr hpc n hn
  case relWait r0 n0 hr0 hpc0 hs0 =>
    intro r hr hpc n hn
    by_cases e : r = r0
    · subst e; exact hcur r hr (by rw [hpc0]; rfl) n hn
    · simp only [release_wait, Function.update_noteq e] at hpc ⊢
      exact hcur r hr hpc n hn
  case relCloseCh r0 n0 hr0 hpc0 hc0 =>
    intro r hr hpc n hn
    by_cases e : r = r0
    · subst e
      simp only [release_closeCh, Function.update_same]
      rcases hcur r hr (by rw [hpc0]; rfl) n hn with h1 | h1
      · have hb := (h.e.body r hr n0 (by rw [hpc0]; rfl)).2.2
        rcases mem_drop_succ hb h1 with h2 | h2
        · exfalso
          subst h2
          exact (h.e.atCloseCh r hr _ hpc0).1 hn
        · exact Or.inl h2
      · exact Or.inr h1
    · simp only [release_closeCh, Function.update_noteq e] at hpc ⊢
      exact hcur r hr hpc n hn

theorem invB_step {s s' : State T} (h : Inv s) (hs : Step s s') : InvB s' :=
  ⟨mu_step h hs, sendCur_step h hs, relCur_step h hs, relPre_step h hs, sendPre_step h hs,
    sendPost_step h hs, snap_step h hs, relPost_step h hs, relBound_step h hs,
    copyChan_step h hs⟩

theorem val_step {s s' : State T} (h : Inv s) (hs : Step s s') :
    ∀ p, p < s'.nCopies → s'.cpValue p = s'.value (s'.cpCall p) := by
  have hcur := h.c.val
  cases hs <;> first | exact hcur | skip
  case callSend v async =>
    intro p hp
    have hc := h.c.call p hp
    have e : s.cpCall p ≠ s.nCalls := by omega
    simp only [callSend, Function.update_noteq e]
    exact hcur p hp
  case sendHandoff k0 n0 hk0 hpc0 hc0 =>
    intro p hp
    by_cases e : p = s.nCopies
    · subst e; simp [Send_handoff]
    · have hp' : p < s.nCopies := by simp only [Send_handoff] at hp; omega
      simp only [Send_handoff, Function.update_noteq e]
      exact hcur p hp'
  case sendDefault k0 n0 hk0 hpc0 hc0 =>
    intro p hp
    by_cases e : p = s.nCopies
    · subst e; simp [Send_default]
    · have hp' : p < s.nCopies := by simp only [Send_default] at hp; omega
      simp only [Send_default, Function.update_noteq e]
      exact hcur p hp'

theorem call_step {s s' : State T} (h : Inv s) (hs : Step s s') :
    ∀ p, p < s'.nCopies → s'.cpCall p < s'.nCalls := by
  have hcur := h.c.call
  cases hs <;> first | exact hcur | skip
  case callSend v async =>
    intro p hp
    have hc := h.c.call p hp
    show s.cpCall p < s.nCalls + 1
    omega
  case sendHandoff k0 n0 hk0 hpc0 hc0 =>
    intro p hp
    by_cases e : p = s.nCopies
    · subst e; simpa [Send_handoff] using hk0
    · have hp' : p < s.nCopies := by simp only [Send_handoff] at hp; omega
      simp only [Send_handoff, Function.update_noteq e]
      exact hcur p hp'
  case sendDefault k0 n0 hk0 hpc0 hc0 =>
    intro p hp
    by_cases e : p = s.nCopies
    · subst e; simpa [Send_default] using hk0
    · have hp' : p < s.nCopies := by simp only [Send_default] at hp; omega
      simp only [Send_default, Function.update_noteq e]
      exact hcur p hp'

theorem delAb_step {s s' : State T} (h : Inv s) (hs : Step s s') :
    ∀ p, p < s'.nCopies → s'.delivered p = true → s'.abandoned p = false := by
  have hcur := h.c.delAb
  cases hs <;> first | exact hcur | skip
  case sendHandoff k0 n0 hk0 hpc0 hc0 =>
    intro p hp
    by_cases e : p = s.nCopies
    · subst e; simp [Send_handoff]
    · have hp' : p < s.nCopies := by simp only [Send_handoff] at hp; omega
      simp only [Send_handoff, Function.update_noteq e]
      exact hcur p hp'
  case sendDefault k0 n0 hk0 hpc0 hc0 =>
    intro p hp
    by_cases e : p = s.nCopies
    · subst e; simp [Send_default]
    · have hp' : p < s.nCopies := by simp only [Send_default] at hp; omega
      simp only [Send_default, Function.update_noteq e]
      exact hcur p hp'
  case helperHandoff p0 hp0 hh0 hc0 =>
    intro p hp
    by_cases e : p = p0
    · subst e
      simp only [helper_handoff, Function.update_same]
      intro _
      exact (h.c.sel p hp hh0).2
    · simp only [helper_handoff, Function.update_noteq e]
      exact hcur p hp
  case helperAbandon p0 hp0 hh0 hd0 hn0 =>
    intro p hp
    by_cases e : p = p0
    · subst e
      simp only [helper_abandon, Function.update_same]
      intro hd
      rw [(h.c.sel p hp hh0).1] at hd
      cases hd
    · simp only [helper_abandon, Function.update_noteq e]
      exact hcur p hp

theorem onceDel_step {s s' : State T} (h : Inv s) (hs : Step s s') :
    ∀ p, p < s'.nCopies → s'.cpOnce p = true → s'.delivered p = true := by
  have hcur := h.c.onceDel
  cases hs <;> first | exact hcur | skip
  case ackFirst p0 ha0 hp0 hd0 ho0 hn0 =>
    intro p hp
    by_cases e : p = p0
    · subst e; intro _; exact hd0
    · simp only [Ack_first, Function.update_noteq e]
      exact hcur p hp
  case sendHandoff k0 n0 hk0 hpc0 hc0 =>
    intro p hp
    by_cases e : p = s.nCopies
    · subst e; simp [Send_handoff]
    · have hp' : p < s.nCopies := by simp only [Send_handoff] at hp; omega
      simp only [Send_handoff, Function.update_noteq e]
      exact hcur p hp'
  case sendDefault k0 n0 hk0 hpc0 hc0 =>
    intro p hp
    by_cases e : p = s.nCopies
    · subst e; simp [Send_default]
    · have hp' : p < s.nCopies := by simp only [Send_default] at hp; omega
      simp only [Send_default, Function.update_noteq e]
      exact hcur p hp'
  case helperHandoff p0 hp0 hh0 hc0 =>
    intro p hp
    by_cases e : p = p0
    · subst e; simp [helper_handoff]
    · simp only [helper_handoff, Function.update_noteq e]
      exact hcur p hp

theorem sel_step {s s' : State T} (h : Inv s) (hs : Step s s') :
    ∀ p, p < s'.nCopies → s'.helper p = HelperPc.select →
      s'.delivered p = false ∧ s'.abandoned p = false := by
  have hcur := h.c.sel
  cases hs <;> first | exact hcur | skip
  case sendHandoff k0 n0 hk0 hpc0 hc0 =>
    intro p hp
    by_cases e : p = s.nCopies
    · subst e; simp [Send_handoff]
    · have hp' : p < s.nCopies := by simp only [Send_handoff] at hp; omega
      simp only [Send_handoff, Function.update_noteq e]
      exact hcur p hp'
  case sendDefault k0 n0 hk0 hpc0 hc0 =>
    intro p hp
    by_cases e : p = s.nCopies
    · subst e; simp [Send_default]
    · have hp' : p < s.nCopies := by simp only [Send_default] at hp; omega
      simp only [Send_default, Function.update_noteq e]
      exact hcur p hp'
  case helperHandoff p0 hp0 hh0 hc0 =>
    intro p hp
    by_cases e : p = p0
    · subst e; simp [helper_handoff]
    · simp only [helper_handoff, Function.update_noteq e]
      exact hcur p hp
  case helperAbandon p0 hp0 hh0 hd0 hn0 =>
    intro p hp
    by_cases e : p = p0
    · subst e; simp [helper_abandon]
    · simp only [helper_abandon, Function.update_noteq e]
      exact hcur p hp
  case helperChDone p0 hp0 hh0 hn0 =>
    intro p hp
    by_cases e : p = p0
    · subst e
      simp only [helper_chDone, Function.update_same]
      intro hx; split_ifs at hx
    · simp only [helper_chDone, Function.update_noteq e]
      exact hcur p hp
  case helperWgDone p0 hp0 hh0 hn0 =>
    intro p hp
    by_cases e : p = p0
    · subst e; simp [helper_wgDone]
    · simp only [helper_wgDone, Function.update_noteq e]
      exact hcur p hp

theorem settled_step {s s' : State T} (h : Inv s) (hs : Step s s') :
    ∀ p, p < s'.nCopies → s'.helper p ≠ HelperPc.select →
      s'.delivered p = true ∨ s'.abandoned p = true := by
  have hcur := h.c.settled
  cases hs <;> first | exact hcur | skip
  case sendHandoff k0 n0 hk0 hpc0 hc0 =>
    intro p hp
    by_cases e : p = s.nCopies
    · subst e; simp [Send_handoff]
    · have hp' : p < s.nCopies := by simp only [Send_handoff] at hp; omega
      simp only [Send_handoff, Function.update_noteq e]
      exact hcur p hp'
  case sendDefault k0 n0 hk0 hpc0 hc0 =>
    intro p hp
    by_cases e : p = s.nCopies
    · subst e; simp [Send_default]
    · have hp' : p < s.nCopies := by simp only [Send_default] at hp; omega
      simp only [Send_default, Function.update_noteq e]
      exact hcur p hp'
  case helperHandoff p0 hp0 hh0 hc0 =>
    intro p hp
    by_cases e : p = p0
    · subst e; simp [helper_handoff]
    · simp only [helper_handoff, Function.update_noteq e]
      exact hcur p hp
  case helperAbandon p0 hp0 hh0 hd0 hn0 =>
    intro p hp
    by_cases e : p = p0
    · subst e; simp [helper_abandon]
    · simp only [helper_abandon, Function.update_noteq e]
      exact hcur p hp
  case helperChDone p0 hp0 hh0 hn0 =>
    intro p hp
    by_cases e : p = p0
    · subst e
      intro _
      exact hcur p hp (by rw [hh0]; simp)
    · simp only [helper_chDone, Function.update_noteq e]
      exact hcur p hp
  case helperWgDone p0 hp0 hh0 hn0 =>
    intro p hp
    by_cases e : p = p0
    · subst e
      intro _
      exact hcur p hp (by rw [hh0]; simp)
    · simp only [helper_wgDone, Function.update_noteq e]
      exact hcur p hp

theorem abDone_step {s s' : State T} (h : Inv s) (hs : Step s s') :
    ∀ p, p < s'.nCopies → s'.abandoned p = true → s'.doneClosed (s'.cpChan p) = true := by
  have hcur := h.c.abDone
  cases hs <;> first | exact hcur | skip
  case acquire hm =>
    intro p hp hab
    have hc := h.b.copyChan p hp
    have e : s.cpChan p ≠ s.channels.size := by omega
    simp only [Acquire_insert, Function.update_noteq e]
    exact hcur p hp hab
  case sendHandoff k0 n0 hk0 hpc0 hc0 =>
    intro p hp
    by_cases e : p = s.nCopies
    · subst e; simp [Send_handoff]
    · have hp' : p < s.nCopies := by simp only [Send_handoff] at hp; omega
      simp only [Send_handoff, Function.update_noteq e]
      exact hcur p hp'
  case sendDefault k0 n0 hk0 hpc0 hc0 =>
    intro p hp
    by_cases e : p = s.nCopies
    · subst e; simp [Send_default]
    · have hp' : p < s.nCopies := by simp only [Send_default] at hp; omega
      simp only [Send_default, Function.update_noteq e]
      exact hcur p hp'
  case helperAbandon p0 hp0 hh0 hd0 hn0 =>
    intro p hp
    by_cases e : p = p0
    · subst e; intro _; exact hd0
    · simp only [helper_abandon, Function.update_noteq e]
      exact hcur p hp
  case relCloseDone r0 n0 hr0 hpc0 hd0 =>
    intro p hp hab
    simp only [release_closeDone, Function.update_apply]
    split_ifs
    · rfl
    · exact hcur p hp hab

theorem wgSync_step {s s' : State T} (h : Inv s) (hs : Step s s') :
    ∀ p, p < s'.nCopies → s'.helper p = HelperPc.wgDone → s'.async (s'.cpCall p) = false := by
  have hcur := h.c.wgSync
  cases hs <;> first | exact hcur | skip
  case callSend v async =>
    intro p hp
    have hc := h.c.call p hp
    have e : s.cpCall p ≠ s.nCalls := by omega
    simp only [callSend, Function.update_noteq e]
    exact hcur p hp
  case sendHandoff k0 n0 hk0 hpc0 hc0 =>
    intro p hp
    by_cases e : p = s.nCopies
    · subst e; simp [Send_handoff]
    · have hp' : p < s.nCopies := by simp only [Send_handoff] at hp; omega
      simp only [Send_handoff, Function.update_noteq e]
      exact hcur p hp'
  case sendDefault k0 n0 hk0 hpc0 hc0 =>
    intro p hp
    by_cases e : p = s.nCopies
    · subst e; simp [Send_default]
    · have hp' : p < s.nCopies := by simp only [Send_default] at hp; omega
      simp only [Send_default, Function.update_noteq e]
      exact hcur p hp'
  case helperHandoff p0 hp0 hh0 hc0 =>
    intro p hp
    by_cases e : p = p0
    · subst e; simp [helper_handoff]
    · simp only [helper_handoff, Function.update_noteq e]
      exact hcur p hp
  case helperAbandon p0 hp0 hh0 hd0 hn0 =>
    intro p hp
    by_cases e : p = p0
    · subst e; simp [helper_abandon]
    · simp only [helper_abandon, Function.update_noteq e]
      exact hcur p hp
  case helperChDone p0 hp0 hh0 hn0 =>
    intro p hp
    by_cases e : p = p0
    · subst e
      simp only [helper_chDone, Function.update_same]
      intro hx
      split_ifs at hx with ha
      simpa using ha
    · simp only [helper_chDone, Function.update_noteq e]
      exact hcur p hp
  case helperWgDone p0 hp0 hh0 hn0 =>
    intro p hp
    by_cases e : p = p0
    · subst e; simp [helper_wgDone]
    · simp only [helper_wgDone, Function.update_noteq e]
      exact hcur p hp

theorem recvd_step {s s' : State T} (h : Inv s) (hs : Step s s') :
    ∀ c, c < s'.channels.size → ∀ p, p ∈ s'.recvd c →
      p < s'.nCopies ∧ s'.cpChan p = c ∧ s'.delivered p = true := by
  have hcur := h.c.recvd
  cases hs <;> first | exact hcur | skip
  case acquire hm =>
    intro c hc p hp
    have hc' : c < s.channels.size + 1 := by
      have : c < (Acquire_insert s).channels.size := hc
      rwa [Acquire_channels, Insert_size] at this
    by_cases e : c = s.channels.size
    · subst e; simp [Acquire_insert] at hp
    · simp only [Acquire_insert, Function.update_noteq e] at hp ⊢
      exact hcur c (by omega) p hp
  case sendHandoff k0 n0 hk0 hpc0 hc0 =>
    intro c hc p hp
    obtain ⟨hm, hl, he⟩ := cursor_mem h hk0 hpc0
    have key : ∀ q, q ∈ s.recvd c → q < s.nCopies + 1 ∧
        Function.update s.cpChan s.nCopies (s.elem n0) q = c ∧
        Function.update s.delivered s.nCopies true q = true := by
      intro q hq
      have := hcur c hc q hq
      have e : q ≠ s.nCopies := by omega
      rw [Function.update_noteq e, Function.update_noteq e]
      exact ⟨by omega, this.2⟩
    by_cases e : c = s.elem n0
    · subst e
      simp only [Send_handoff, Function.update_same] at hp ⊢
      rcases List.mem_append.1 hp with hp | hp
      · exact key p hp
      · rw [List.mem_singleton] at hp
        subst hp
        simp
    · simp only [Send_handoff, Function.update_noteq e] at hp ⊢
      exact key p hp
  case sendDefault k0 n0 hk0 hpc0 hc0 =>
    intro c hc p hp
    have := hcur c hc p hp
    have e : p ≠ s.nCopies := by omega
    simp only [Send_default, Function.update_noteq e]
    exact ⟨by omega, this.2⟩
  case helperHandoff p0 hp0 hh0 hc0 =>
    intro c hc p hp
    have key : ∀ q, q ∈ s.recvd c → q < s.nCopies ∧ s.cpChan q = c ∧
        Function.update s.delivered p0 true q = true := by
      intro q hq
      have := hcur c hc q hq
      refine ⟨this.1, this.2.1, ?_⟩
      by_cases e : q = p0
      · subst e; simp
      · rw [Function.update_noteq e]; exact this.2.2
    by_cases e : c = s.cpChan p0
    · subst e
      simp only [helper_handoff, Function.update_same] at hp ⊢
      rcases List.mem_append.1 hp with hp | hp
      · exact key p hp
      · rw [List.mem_singleton] at hp
        subst hp
        simp [hp0]
    · simp only [helper_handoff, Function.update_noteq e] at hp ⊢
      exact key p hp

theorem invC_step {s s' : State T} (h : Inv s) (hs : Step s s') : InvC s' :=
  ⟨val_step h hs, call_step h hs, delAb_step h hs, onceDel_step h hs, sel_step h hs,
    settled_step h hs, abDone_step h hs, wgSync_step h hs, recvd_step h hs⟩

theorem cnt_none {F : Nat → Bool} {n : Nat} (h : ∀ q, q < n → F q = false) : cnt F n = 0 := by
  induction n with
  | zero => rfl
  | succ n ih =>
    simp only [cnt]
    rw [ih (fun q hq => h q (by omega)), h n (by omega)]
    rfl

theorem send_step {s s' : State T} (h : Inv s) (hs : Step s s') :
    ∀ c, c < s'.channels.size →
      s'.send c = cnt (fun q => onChan s'.cpChan c q (s'.helper q)) s'.nCopies := by
  have hcur := h.d.send
  cases hs <;> first | exact hcur | skip
  case acquire hm =>
    intro c hc
    have hc' : c < s.channels.size + 1 := by
      have : c < (Acquire_insert s).channels.size := hc
      rwa [Acquire_channels, Insert_size] at this
    by_cases e : c = s.channels.size
    · subst e
      simp only [Acquire_insert, Function.update_same]
      rw [cnt_none]
      · rfl
      · intro q hq
        have := h.b.copyChan q hq
        simp [onChan]
        intro hx; omega
    · simp only [Acquire_insert, Function.update_noteq e]
      exact hcur c (by omega)
  case sendHandoff k0 n0 hk0 hpc0 hc0 =>
    intro c hc
    simp only [Send_handoff]
    rw [cnt_alloc (F := fun q => onChan s.cpChan c q (s.helper q))
      (fun q hq => by simp only [onChan, Function.update_noteq (Nat.ne_of_lt hq)])]
    simp only [Function.update_same, onChan, HelperPc.holdsCh, Bool.and_false]
    simpa using hcur c hc
  case sendDefault k0 n0 hk0 hpc0 hc0 =>
    intro c hc
    simp only [Send_default]
    rw [cnt_alloc (F := fun q => onChan s.cpChan c q (s.helper q))
      (fun q hq => by simp only [onChan, Function.update_noteq (Nat.ne_of_lt hq)])]
    have := hcur c hc
    by_cases e : c = s.elem n0
    · subst e
      simp [onChan, HelperPc.holdsCh, this]
    · have e' : s.elem n0 ≠ c := fun h => e h.symm
      simp [onChan, HelperPc.holdsCh, this, e, e']
  case helperHandoff p0 hp0 hh0 hc0 =>
    intro c hc
    obtain ⟨m, e1, e2⟩ := cnt_split (onChan s.cpChan c) s.helper hp0
    have := hcur c hc
    simp only [helper_handoff]
    rw [e2]; rw [e1] at this
    simpa [onChan, HelperPc.holdsCh, hh0] using this
  case helperAbandon p0 hp0 hh0 hd0 hn0 =>
    intro c hc
    obtain ⟨m, e1, e2⟩ := cnt_split (onChan s.cpChan c) s.helper hp0
    have := hcur c hc
    simp only [helper_abandon]
    rw [e2]; rw [e1] at this
    simpa [onChan, HelperPc.holdsCh, hh0] using this
  case helperChDone p0 hp0 hh0 hn0 =>
    intro c hc
    obtain ⟨m, e1, e2⟩ := cnt_split (onChan s.cpChan c) s.helper hp0
    have := hcur c hc
    simp only [helper_chDone]
    rw [e2]; rw [e1] at this
    by_cases e : c = s.cpChan p0
    · subst e
      by_cases ha : s.async (s.cpCall p0) = true <;>
        simp [onChan, HelperPc.holdsCh, hh0, ha] at this ⊢ <;> omega
    · have e' : s.cpChan p0 ≠ c := fun h => e h.symm
      simp only [Function.update_noteq e]
      simpa [onChan, e'] using this
  case helperWgDone p0 hp0 hh0 hn0 =>
    intro c hc
    obtain ⟨m, e1, e2⟩ := cnt_split (onChan s.cpChan c) s.helper hp0
    have := hcur c hc
    simp only [helper_wgDone]
    rw [e2]; rw [e1] at this
    simpa [onChan, HelperPc.holdsCh, hh0] using this

theorem wg_step {s s' : State T} (h : Inv s) (hs : Step s s') :
    ∀ k, k < s'.nCalls →
      s'.wg k = if s'.async k = true then 0
        else (cnt (fun q => inWg s'.cpCall k q (s'.helper q)) s'.nCopies : Int) := by
  have hcur := h.d.wg
  cases hs <;> first | exact hcur | skip
  case callSend v async =>
    intro k hk
    by_cases e : k = s.nCalls
    · subst e
      simp only [callSend, Function.update_same]
      rw [cnt_none]
      · simp
      · intro q hq
        have := h.c.call q hq
        simp [inWg]
        intro hx; omega
    · have hk' : k < s.nCalls := by simp only [callSend] at hk; omega
      simp only [callSend, Function.update_noteq e]
      exact hcur k hk'
  case sendHandoff k0 n0 hk0 hpc0 hc0 =>
    intro k hk
    simp only [Send_handoff]
    rw [cnt_alloc (F := fun q => inWg s.cpCall k q (s.helper q))
      (fun q hq => by simp only [inWg, Function.update_noteq (Nat.ne_of_lt hq)])]
    simp only [Function.update_same, inWg, HelperPc.holdsWg, Bool.and_false]
    simpa using hcur k hk
  case sendDefault k0 n0 hk0 hpc0 hc0 =>
    intro k hk
    simp only [Send_default]
    rw [cnt_alloc (F := fun q => inWg s.cpCall k q (s.helper q))
      (fun q hq => by simp only [inWg, Function.update_noteq (Nat.ne_of_lt hq)])]
    have := hcur k hk
    by_cases e : k = k0
    · subst e
      by_cases ha : s.async k = true
      · simp [ha] at this ⊢; exact this
      · simp [inWg, HelperPc.holdsWg, ha] at this ⊢; omega
    · have e' : k0 ≠ k := fun h => e h.symm
      simp only [Function.update_noteq e]
      simpa [inWg, e'] using this
  case helperHandoff p0 hp0 hh0 hc0 =>
    intro k hk
    obtain ⟨m, e1, e2⟩ := cnt_split (inWg s.cpCall k) s.helper hp0
    have := hcur k hk
    simp only [helper_handoff]
    rw [e2]; rw [e1] at this
    simpa [inWg, HelperPc.holdsWg, hh0] using this
  case helperAbandon p0 hp0 hh0 hd0 hn0 =>
    intro k hk
    obtain ⟨m, e1, e2⟩ := cnt_split (inWg s.cpCall k) s.helper hp0
    have := hcur k hk
    simp only [helper_abandon]
    rw [e2]; rw [e1] at this
    simpa [inWg, HelperPc.holdsWg, hh0] using this
  case helperChDone p0 hp0 hh0 hn0 =>
    intro k hk
    obtain ⟨m, e1, e2⟩ := cnt_split (inWg s.cpCall k) s.helper hp0
    have := hcur k hk
    simp only [helper_chDone]
    rw [e2]; rw [e1] at this
    by_cases e : s.cpCall p0 = k
    · subst e
      by_cases ha : s.async (s.cpCall p0) = true
      · simp [ha] at this ⊢; exact this
      · simpa [inWg, HelperPc.holdsWg, hh0, ha] using this
    · simpa [inWg, e] using this
  case helperWgDone p0 hp0 hh0 hn0 =>
    intro k hk
    obtain ⟨m, e1, e2⟩ := cnt_split (inWg s.cpCall k) s.helper hp0
    have := hcur k hk
    have hsync := h.c.wgSync p0 hp0 hh0
    simp only [helper_wgDone]
    rw [e2]; rw [e1] at this
    by_cases e : k = s.cpCall p0
    · subst e
      simp [inWg, HelperPc.holdsWg, hh0, hsync] at this ⊢
      omega
    · have e' : s.cpCall p0 ≠ k := fun h => e h.symm
      simp only [Function.update_noteq e]
      simpa [inWg, e'] using this

theorem ack_step {s s' : State T} (h : Inv s) (hs : Step s s') :
    ∀ k, k < s'.nCalls →
      s'.ack k = if s'.ackable = true
        then (cnt (fun q => unsettled s'.cpCall k q (s'.cpOnce q) (s'.abandoned q)) s'.nCopies
          : Int)
        else 0 := by
  have hcur := h.d.ack
  cases hs <;> first | exact hcur | skip
  case callSend v async =>
    intro k hk
    by_cases e : k = s.nCalls
    · subst e
      simp only [callSend, Function.update_same]
      rw [cnt_none]
      · simp
      · intro q hq
        have := h.c.call q hq
        simp [unsettled]
        intro hx; omega
    · have hk' : k < s.nCalls := by simp only [callSend] at hk; omega
      simp only [callSend, Function.update_noteq e]
      exact hcur k hk'
  case ackFirst p0 ha0 hp0 hd0 ho0 hn0 =>
    intro k hk
    obtain ⟨m, e1, e2⟩ := cnt_split (fun q x => unsettled s.cpCall k q x (s.abandoned q))
      s.cpOnce hp0
    have := hcur k hk
    have hab := h.c.delAb p0 hp0 hd0
    simp only [Ack_first]
    rw [e2]; rw [e1] at this
    by_cases e : k = s.cpCall p0
    · subst e
      simp [unsettled, ho0, hab, ha0] at this ⊢
      omega
    · have e' : s.cpCall p0 ≠ k := fun h => e h.symm
      simp only [Function.update_noteq e]
      simpa [unsettled, e'] using this
  case sendHandoff k0 n0 hk0 hpc0 hc0 =>
    intro k hk
    simp only [Send_handoff]
    rw [cnt_alloc (F := fun q => unsettled s.cpCall k q (s.cpOnce q) (s.abandoned q))
      (fun q hq => by simp only [unsettled, Function.update_noteq (Nat.ne_of_lt hq)])]
    have := hcur k hk
    by_cases e : k = k0
    · subst e
      by_cases ha : s.ackable = true
      · simp [unsettled, ha] at this ⊢; omega
      · simp [ha] at this ⊢; exact this
    · have e' : k0 ≠ k := fun h => e h.symm
      simp only [Function.update_noteq e]
      simpa [unsettled, e'] using this
  case sendDefault k0 n0 hk0 hpc0 hc0 =>
    intro k hk
    simp only [Send_default]
    rw [cnt_alloc (F := fun q => unsettled s.cpCall k q (s.cpOnce q) (s.abandoned q))
      (fun q hq => by simp only [unsettled, Function.update_noteq (Nat.ne_of_lt hq)])]
    have := hcur k hk
    by_cases e : k = k0
    · subst e
      by_cases ha : s.ackable = true
      · simp [unsettled, ha] at this ⊢; omega
      · simp [ha] at this ⊢; exact this
    · have e' : k0 ≠ k := fun h => e h.symm
      simp only [Function.update_noteq e]
      simpa [unsettled, e'] using this
  case helperAbandon p0 hp0 hh0 hd0 hn0 =>
    intro k hk
    obtain ⟨m, e1, e2⟩ := cnt_split (fun q x => unsettled s.cpCall k q (s.cpOnce q) x)
      s.abandoned hp0
    have := hcur k hk
    have hsel := h.c.sel p0 hp0 hh0
    have honce : s.cpOnce p0 = false := by
      cases ho : s.cpOnce p0 with
      | false => rfl
      | true => have := h.c.onceDel p0 hp0 ho; rw [hsel.1] at this; cases this
    simp only [helper_abandon]
    rw [e2]; rw [e1] at this
    by_cases e : k = s.cpCall p0
    · subst e
      by_cases ha : s.ackable = true
      · simp [unsettled, hsel.2, honce, ha] at this ⊢; omega
      · simp [ha] at this ⊢; exact this
    · have e' : s.cpCall p0 ≠ k := fun h => e h.symm
      simp only [Function.update_noteq e]
      simpa [unsettled, e'] using this

theorem invD_step {s s' : State T} (h : Inv s) (hs : Step s s') : InvD s' :=
  ⟨send_step h hs, wg_step h hs, ack_step h hs⟩

/-- The goroutine at a statement of the body of `once.Do` for node `n`. -/
theorem body_of_pc {s : State T} (h : Inv s) {r n : Nat} (hr : r < s.nRels)
    (hb : (s.rpc r).body = some n) :
    s.once n = Once.running ∧ n < s.channels.size ∧ (s.all r).get? (s.idx r) = some n ∧
      s.elem n = n := by
  obtain ⟨h1, h2, h3⟩ := h.e.body r hr n hb
  exact ⟨h1, h2, h3, h.a.elem n h2⟩

theorem body_step {s s' : State T} (h : Inv s) (hs : Step s s') :
    ∀ r, r < s'.nRels → ∀ n, (s'.rpc r).body = some n →
      s'.once n = Once.running ∧ n < s'.channels.size ∧
        (s'.all r).get? (s'.idx r) = some n := by
  have hcur := h.e.body
  cases hs <;> first | exact hcur | skip
  case acquire hm =>
    intro r hr n hb
    obtain ⟨h1, h2, h3⟩ := hcur r hr n hb
    have e : n ≠ s.channels.size := by omega
    refine ⟨?_, ?_, h3⟩
    · simp only [Acquire_insert, Function.update_noteq e]; exact h1
    · rw [Acquire_channels, Insert_size]; omega
  case callRelease c hc =>
    intro r hr n hb
    by_cases e : r = s.nRels
    · subst e; simp [State.spawnRel, RelPc.body] at hb
    · have hr' : r < s.nRels := by simp only [State.spawnRel] at hr; omega
      simp only [State.spawnRel, Function.update_noteq e] at hb ⊢
      exact hcur r hr' n hb
  case callReleaseAll =>
    intro r hr n hb
    by_cases e : r = s.nRels
    · subst e; simp [State.spawnRel, RelPc.body] at hb
    · have hr' : r < s.nRels := by simp only [State.spawnRel] at hr; omega
      simp only [State.spawnRel, Function.update_noteq e] at hb ⊢
      exact hcur r hr' n hb
  case relRlock r0 hr0 hpc0 =>
    intro r hr n hb
    by_cases e : r = r0
    · subst e; simp [release_rlock, RelPc.body] at hb
    · simp only [release_rlock, Function.update_noteq e] at hb ⊢
      exact hcur r hr n hb
  case relCollect r0 n0 hr0 hpc0 =>
    intro r hr n hb
    by_cases e : r = r0
    · subst e; simp [release_collect, RelPc.body] at hb
    · simp only [release_collect, Function.update_noteq e] at hb ⊢
      exact hcur r hr n hb
  case relRunlock r0 hr0 hpc0 =>
    intro r hr n hb
    by_cases e : r = r0
    · subst e; simp [release_runlock, RelPc.body] at hb
    · simp only [release_runlock, Function.update_noteq e] at hb ⊢
      exact hcur r hr n hb
  case relSkip r0 c0 n0 hr0 hpc0 hc0 hrel0 ho0 =>
    intro r hr n hb
    by_cases e : r = r0
    · subst e; simp [release_skip, hpc0, RelPc.body] at hb
    · simp only [release_skip, Function.update_noteq e] at hb ⊢
      exact hcur r hr n hb
  case relEnter r0 c0 n0 hr0 hpc0 hc0 hrel0 ho0 =>
    intro r hr n hb
    obtain ⟨e1, e2⟩ := h.a.rel _ _ hrel0
    subst e1
    by_cases e : r = r0
    · subst e
      simp only [release_enter, Function.update_same, RelPc.body, Option.some.injEq] at hb ⊢
      subst hb
      exact ⟨Function.update_same _ _ _, e2, hc0⟩
    · simp only [release_enter, Function.update_noteq e] at hb ⊢
      obtain ⟨h1, h2, h3⟩ := hcur r hr n hb
      refine ⟨?_, h2, h3⟩
      by_cases e3 : n = n0
      · subst e3; simp
      · rw [Function.update_noteq e3]; exact h1
  case relDelete r0 n0 hr0 hpc0 hm0 =>
    intro r hr n hb
    by_cases e : r = r0
    · subst e
      simp only [release_delete, Function.update_same, RelPc.body, Option.some.injEq] at hb ⊢
      subst hb
      exact hcur r hr n0 (by rw [hpc0]; rfl)
    · simp only [release_delete, Function.update_noteq e] at hb ⊢
      exact hcur r hr n hb
  case relCloseDone r0 n0 hr0 hpc0 hd0 =>
    intro r hr n hb
    by_cases e : r = r0
    · subst e
      simp only [release_closeDone, Function.update_same, RelPc.body, Option.some.injEq] at hb ⊢
      subst hb
      exact hcur r hr n0 (by rw [hpc0]; rfl)
    · simp only [release_closeDone, Function.update_noteq e] at hb ⊢
      exact hcur r hr n hb
  case relWait r0 n0 hr0 hpc0 hs0 =>
    intro r hr n hb
    by_cases e : r = r0
    · subst e
      simp only [release_wait, Function.update_same, RelPc.body, Option.some.injEq] at hb ⊢
      subst hb
      exact hcur r hr n0 (by rw [hpc0]; rfl)
    · simp only [release_wait, Function.update_noteq e] at hb ⊢
      exact hcur r hr n hb
  case relCloseCh r0 n0 hr0 hpc0 hc0 =>
    intro r hr n hb
    by_cases e : r = r0
    · subst e; simp [release_closeCh, RelPc.body] at hb
    · simp only [release_closeCh, Function.update_noteq e] at hb ⊢
      obtain ⟨h1, h2, h3⟩ := hcur r hr n hb
      have e3 : n ≠ n0 := by
        intro e3; subst e3
        exact e (h.e.uniq r hr r0 hr0 n hb (by rw [hpc0]; rfl))
      rw [Function.update_noteq e3]
      exact ⟨h1, h2, h3⟩

/-- Changing the statement of one goroutine keeps the bodies of `once.Do` exclusive. -/
theorem uniq_update {s : State T} (h : Inv s) {r0 : Nat} (pc1 : RelPc)
    (hnew : ∀ n, pc1.body = some n → ∀ r', r' < s.nRels → r' ≠ r0 → (s.rpc r').body ≠ some n) :
    ∀ r, r < s.nRels → ∀ r', r' < s.nRels → ∀ n,
      (Function.update s.rpc r0 pc1 r).body = some n →
      (Function.update s.rpc r0 pc1 r').body = some n → r = r' := by
  intro r hr r' hr' n hb hb'
  by_cases e : r = r0
  · by_cases e' : r' = r0
    · rw [e, e']
    · exfalso
      subst e
      rw [Function.update_same] at hb
      rw [Function.update_noteq e'] at hb'
      exact hnew n hb r' hr' e' hb'
  · by_cases e' : r' = r0
    · exfalso
      subst e'
      rw [Function.update_same] at hb'
      rw [Function.update_noteq e] at hb
      exact hnew n hb' r hr e hb
    · rw [Function.update_noteq e] at hb
      rw [Function.update_noteq e'] at hb'
      exact h.e.uniq r hr r' hr' n hb hb'

theorem uniq_step {s s' : State T} (h : Inv s) (hs : Step s s') :
    ∀ r, r < s'.nRels → ∀ r', r' < s'.nRels → ∀ n, (s'.rpc r).body = some n →
      (s'.rpc r').body = some n → r = r' := by
  have hcur := h.e.uniq
  cases hs <;> first | exact hcur | skip
  case callRelease c hc =>
    intro r hr r' hr' n hb hb'
    by_cases e : r = s.nRels
    · subst e; simp [State.spawnRel, RelPc.body] at hb
    · by_cases e' : r' = s.nRels
      · subst e'; simp [State.spawnRel, RelPc.body] at hb'
      · simp only [State.spawnRel, Function.update_noteq e, Function.update_noteq e'] at hb hb' hr hr'
        exact hcur r (by omega) r' (by omega) n hb hb'
  case callReleaseAll =>
    intro r hr r' hr' n hb hb'
    by_cases e : r = s.nRels
    · subst e; simp [State.spawnRel, RelPc.body] at hb
    · by_cases e' : r' = s.nRels
      · subst e'; simp [State.spawnRel, RelPc.body] at hb'
      · simp only [State.spawnRel, Function.update_noteq e, Function.update_noteq e'] at hb hb' hr hr'
        exact hcur r (by omega) r' (by omega) n hb hb'
  case relRlock r0 hr0 hpc0 =>
    exact uniq_update h _ (fun n hb => by simp [RelPc.body] at hb)
  case relCollect r0 n0 hr0 hpc0 =>
    exact uniq_update h _ (fun n hb => by simp [RelPc.body] at hb)
  case relRunlock r0 hr0 hpc0 =>
    exact uniq_update h _ (fun n hb => by simp [RelPc.body] at hb)
  case relCloseCh r0 n0 hr0 hpc0 hc0 =>
    exact uniq_update h _ (fun n hb => by simp [RelPc.body] at hb)
  case relEnter r0 c0 n0 hr0 hpc0 hc0 hrel0 ho0 =>
    refine uniq_update h _ (fun n hb r' hr' _ hb' => ?_)
    simp only [RelPc.body, Option.some.injEq] at hb
    subst hb
    have := (h.e.body r' hr' _ hb').1
    rw [ho0] at this
    cases this
  case relDelete r0 n0 hr0 hpc0 hm0 =>
    refine uniq_update h _ (fun n hb r' hr' hne hb' => ?_)
    simp only [RelPc.body, Option.some.injEq] at hb
    subst hb
    exact hne (hcur r' hr' r0 hr0 _ hb' (by rw [hpc0]; rfl))
  case relCloseDone r0 n0 hr0 hpc0 hd0 =>
    refine uniq_update h _ (fun n hb r' hr' hne hb' => ?_)
    simp only [RelPc.body, Option.some.injEq] at hb
    subst hb
    exact hne (hcur r' hr' r0 hr0 _ hb' (by rw [hpc0]; rfl))
  case relWait r0 n0 hr0 hpc0 hs0 =>
    refine uniq_update h _ (fun n hb r' hr' hne hb' => ?_)
    simp only [RelPc.body, Option.some.injEq] at hb
    subst hb
    exact hne (hcur r' hr' r0 hr0 _ hb' (by rw [hpc0]; rfl))

theorem not_mem_Insert {s : State T} (h : Inv s) {n : Nat} (hn : n ∉ s.channels.nodes)
    (hl : n < s.channels.size) : n ∉ (Acquire_insert s).channels.nodes := by
  rw [Acquire_channels, nodes_Insert h]
  intro hm
  rcases List.mem_append.1 hm with hm | hm
  · exact hn hm
  · rw [List.mem_singleton] at hm; omega

theorem not_mem_Delete {s : State T} (h : Inv s) {n : Nat} (r m : Nat)
    (hn : n ∉ s.channels.nodes) : n ∉ (release_delete s r m).channels.nodes := by
  show n ∉ (s.channels.Delete m).nodes
  rw [nodes_Delete h]
  exact fun hm => hn (List.mem_of_mem_erase hm)

theorem not_mem_Delete_self {s : State T} (h : Inv s) (r m : Nat) :
    m ∉ (release_delete s r m).channels.nodes := by
  show m ∉ (s.channels.Delete m).nodes
  rw [nodes_Delete h]
  exact h.a.wf.nodup.not_mem_erase

/-- A helper that still holds `ch.send` keeps the counter positive. -/
theorem send_pos {s : State T} (h : Inv s) {p : Nat} (hp : p < s.nCopies)
    (hh : (s.helper p).holdsCh = true) : 1 ≤ s.send (s.cpChan p) := by
  rw [h.d.send _ (h.b.copyChan p hp)]
  have := cnt_pos (f := fun q => onChan s.cpChan (s.cpChan p) q (s.helper q)) hp
    (by simp [onChan, hh])
  omega

theorem atDelete_step {s s' : State T} (h : Inv s) (hs : Step s s') :
    ∀ r, r < s'.nRels → ∀ n, s'.rpc r = RelPc.delete n → s'.doneClosed n = false ∧ s'.chClosed n = false := by
  have hcur := h.e.atDelete
  cases hs <;> first | exact hcur | skip
  case acquire hm0 =>
    intro r hr n hpc
    change s.rpc r = _ at hpc
    have hold := hcur r hr n hpc
    have hl := (body_of_pc h hr (show (s.rpc r).body = some n by rw [hpc]; rfl)).2.1
    have e : n ≠ s.channels.size := by omega
    simp only [Acquire_insert, Function.update_noteq e]
    exact ⟨hold.1, hold.2⟩
  case callRelease c0 hc0 =>
    intro r hr n hpc
    by_cases e : r = s.nRels
    · subst e; simp [State.spawnRel] at hpc
    · have hr' : r < s.nRels := by simp only [State.spawnRel] at hr; omega
      simp only [State.spawnRel, Function.update_noteq e] at hpc ⊢
      exact hcur r hr' n hpc
  case callReleaseAll  =>
    intro r hr n hpc
    by_cases e : r = s.nRels
    · subst e; simp [State.spawnRel] at hpc
    · have hr' : r < s.nRels := by simp only [State.spawnRel] at hr; omega
      simp only [State.spawnRel, Function.update_noteq e] at hpc ⊢
      exact hcur r hr' n hpc
  case relRlock r0 hr0 hpc0 =>
    intro r hr n hpc
    by_cases e : r = r0
    · subst e; simp [release_rlock] at hpc
    · simp only [release_rlock, Function.update_noteq e] at hpc ⊢
      exact hcur r hr n hpc
  case relCollect r0 n0 hr0 hpc0 =>
    intro r hr n hpc
    by_cases e : r = r0
    · subst e; simp [release_collect] at hpc
    · simp only [release_collect, Function.update_noteq e] at hpc ⊢
      exact hcur r hr n hpc
  case relRunlock r0 hr0 hpc0 =>
    intro r hr n hpc
    by_cases e : r = r0
    · subst e; simp [release_runlock] at hpc
    · simp only [release_runlock, Function.update_noteq e] at hpc ⊢
      exact hcur r hr n hpc
  case relEnter r0 c0 n0 hr0 hpc0 hc0 hrel0 ho0 =>
    intro r hr n hpc
    by_cases e : r = r0
    · subst e
      simp only [release_enter, Function.update_same, RelPc.delete.injEq] at hpc ⊢
      subst hpc
      obtain ⟨e1, e2⟩ := h.a.rel _ _ hrel0
      have := h.e.fresh _ (e1 ▸ e2) ho0
      exact ⟨this.1, this.2.1⟩
    · simp only [release_enter, Function.update_noteq e] at hpc ⊢
      exact hcur r hr n hpc
  case relDelete r0 n0 hr0 hpc0 hm0 =>
    intro r hr n hpc
    by_cases e : r = r0
    · subst e; simp [release_delete] at hpc
    · simp only [release_delete, Function.update_noteq e] at hpc
      have hold := hcur r hr n hpc
      exact hold
  case relCloseDone r0 n0 hr0 hpc0 hd0 =>
    intro r hr n hpc
    obtain ⟨_, hl0, _, he0⟩ := body_of_pc h hr0 (show (s.rpc r0).body = some n0 by rw [hpc0]; rfl)
    by_cases e : r = r0
    · subst e; simp [release_closeDone] at hpc
    · simp only [release_closeDone, Function.update_noteq e] at hpc ⊢
      have hold := hcur r hr n hpc
      have e3 : n ≠ s.elem n0 := by
        rw [he0]; intro e3; subst e3
        exact e (h.e.uniq r hr r0 hr0 n (by rw [hpc]; rfl) (by rw [hpc0]; rfl))
      rw [Function.update_noteq e3]
      exact hold
  case relWait r0 n0 hr0 hpc0 hs0 =>
    intro r hr n hpc
    by_cases e : r = r0
    · subst e; simp [release_wait] at hpc
    · simp only [release_wait, Function.update_noteq e] at hpc ⊢
      exact hcur r hr n hpc
  case relCloseCh r0 n0 hr0 hpc0 hc0 =>
    intro r hr n hpc
    obtain ⟨_, hl0, _, he0⟩ := body_of_pc h hr0 (show (s.rpc r0).body = some n0 by rw [hpc0]; rfl)
    by_cases e : r = r0
    · subst e; simp [release_closeCh] at hpc
    · simp only [release_closeCh, Function.update_noteq e] at hpc ⊢
      have hold := hcur r hr n hpc
      have e3 : n ≠ s.elem n0 := by
        rw [he0]; intro e3; subst e3
        exact e (h.e.uniq r hr r0 hr0 n (by rw [hpc]; rfl) (by rw [hpc0]; rfl))
      rw [Function.update_noteq e3]
      exact hold

theorem atCloseDone_step {s s' : State T} (h : Inv s) (hs : Step s s') :
    ∀ r, r < s'.nRels → ∀ n, s'.rpc r = RelPc.closeDone n → n ∉ s'.channels.nodes ∧ s'.doneClosed n = false ∧ s'.chClosed n = false := by
  have hcur := h.e.atCloseDone
  cases hs <;> first | exact hcur | skip
  case acquire hm0 =>
    intro r hr n hpc
    change s.rpc r = _ at hpc
    have hold := hcur r hr n hpc
    have hl := (body_of_pc h hr (show (s.rpc r).body = some n by rw [hpc]; rfl)).2.1
    have e : n ≠ s.channels.size := by omega
    simp only [Acquire_insert, Function.update_noteq e]
    exact ⟨not_mem_Insert h hold.1 hl, hold.2⟩
  case callRelease c0 hc0 =>
    intro r hr n hpc
    by_cases e : r = s.nRels
    · subst e; simp [State.spawnRel] at hpc
    · have hr' : r < s.nRels := by simp only [State.spawnRel] at hr; omega
      simp only [State.spawnRel, Function.update_noteq e] at hpc ⊢
      exact hcur r hr' n hpc
  case callReleaseAll  =>
    intro r hr n hpc
    by_cases e : r = s.nRels
    · subst e; simp [State.spawnRel] at hpc
    · have hr' : r < s.nRels := by simp only [State.spawnRel] at hr; omega
      simp only [State.spawnRel, Function.update_noteq e] at hpc ⊢
      exact hcur r hr' n hpc
  case relRlock r0 hr0 hpc0 =>
    intro r hr n hpc
    by_cases e : r = r0
    · subst e; simp [release_rlock] at hpc
    · simp only [release_rlock, Function.update_noteq e] at hpc ⊢
      exact hcur r hr n hpc
  case relCollect r0 n0 hr0 hpc0 =>
    intro r hr n hpc
    by_cases e : r = r0
    · subst e; simp [release_collect] at hpc
    · simp only [release_collect, Function.update_noteq e] at hpc ⊢
      exact hcur r hr n hpc
  case relRunlock r0 hr0 hpc0 =>
    intro r hr n hpc
    by_cases e : r = r0
    · subst e; simp [release_runlock] at hpc
    · simp only [release_runlock, Function.update_noteq e] at hpc ⊢
      exact hcur r hr n hpc
  case relEnter r0 c0 n0 hr0 hpc0 hc0 hrel0 ho0 =>
    intro r hr n hpc
    by_cases e : r = r0
    · subst e; simp [release_enter] at hpc
    · simp only [release_enter, Function.update_noteq e] at hpc ⊢
      exact hcur r hr n hpc
  case relDelete r0 n0 hr0 hpc0 hm0 =>
    intro r hr n hpc
    by_cases e : r = r0
    · subst e
      simp only [release_delete, Function.update_same, RelPc.closeDone.injEq] at hpc
      subst hpc
      exact ⟨not_mem_Delete_self h r n0, h.e.atDelete r hr n0 hpc0⟩
    · simp only [release_delete, Function.update_noteq e] at hpc
      have hold := hcur r hr n hpc
      exact ⟨not_mem_Delete h r0 n0 hold.1, hold.2⟩
  case relCloseDone r0 n0 hr0 hpc0 hd0 =>
    intro r hr n hpc
    obtain ⟨_, hl0, _, he0⟩ := body_of_pc h hr0 (show (s.rpc r0).body = some n0 by rw [hpc0]; rfl)
    by_cases e : r = r0
    · subst e; simp [release_closeDone] at hpc
    · simp only [release_closeDone, Function.update_noteq e] at hpc ⊢
      have hold := hcur r hr n hpc
      have e3 : n ≠ s.elem n0 := by
        rw [he0]; intro e3; subst e3
        exact e (h.e.uniq r hr r0 hr0 n (by rw [hpc]; rfl) (by rw [hpc0]; rfl))
      rw [Function.update_noteq e3]
      exact hold
  case relWait r0 n0 hr0 hpc0 hs0 =>
    intro r hr n hpc
    by_cases e : r = r0
    · subst e; simp [release_wait] at hpc
    · simp only [release_wait, Function.update_noteq e] at hpc ⊢
      exact hcur r hr n hpc
  case relCloseCh r0 n0 hr0 hpc0 hc0 =>
    intro r hr n hpc
    obtain ⟨_, hl0, _, he0⟩ := body_of_pc h hr0 (show (s.rpc r0).body = some n0 by rw [hpc0]; rfl)
    by_cases e : r = r0
    · subst e; simp [release_closeCh] at hpc
    · simp only [release_closeCh, Function.update_noteq e] at hpc ⊢
      have hold := hcur r hr n hpc
      have e3 : n ≠ s.elem n0 := by
        rw [he0]; intro e3; subst e3
        exact e (h.e.uniq r hr r0 hr0 n (by rw [hpc]; rfl) (by rw [hpc0]; rfl))
      rw [Function.update_noteq e3]
      exact hold

theorem atWait_step {s s' : State T} (h : Inv s) (hs : Step s s') :
    ∀ r, r < s'.nRels → ∀ n, s'.rpc r = RelPc.wait n → n ∉ s'.channels.nodes ∧ s'.doneClosed n = true ∧ s'.chClosed n = false := by
  have hcur := h.e.atWait
  cases hs <;> first | exact hcur | skip
  case acquire hm0 =>
    intro r hr n hpc
    change s.rpc r = _ at hpc
    have hold := hcur r hr n hpc
    have hl := (body_of_pc h hr (show (s.rpc r).body = some n by rw [hpc]; rfl)).2.1
    have e : n ≠ s.channels.size := by omega
    simp only [Acquire_insert, Function.update_noteq e]
    exact ⟨not_mem_Insert h hold.1 hl, hold.2⟩
  case callRelease c0 hc0 =>
    intro r hr n hpc
    by_cases e : r = s.nRels
    · subst e; simp [State.spawnRel] at hpc
    · have hr' : r < s.nRels := by simp only [State.spawnRel] at hr; omega
      simp only [State.spawnRel, Function.update_noteq e] at hpc ⊢
      exact hcur r hr' n hpc
  case callReleaseAll  =>
    intro r hr n hpc
    by_cases e : r = s.nRels
    · subst e; simp [State.spawnRel] at hpc
    · have hr' : r < s.nRels := by simp only [State.spawnRel] at hr; omega
      simp only [State.spawnRel, Function.update_noteq e] at hpc ⊢
      exact hcur r hr' n hpc
  case relRlock r0 hr0 hpc0 =>
    intro r hr n hpc
    by_cases e : r = r0
    · subst e; simp [release_rlock] at hpc
    · simp only [release_rlock, Function.update_noteq e] at hpc ⊢
      exact hcur r hr n hpc
  case relCollect r0 n0 hr0 hpc0 =>
    intro r hr n hpc
    by_cases e : r = r0
    · subst e; simp [release_collect] at hpc
    · simp only [release_collect, Function.update_noteq e] at hpc ⊢
      exact hcur r hr n hpc
  case relRunlock r0 hr0 hpc0 =>
    intro r hr n hpc
    by_cases e : r = r0
    · subst e; simp [release_runlock] at hpc
    · simp only [release_runlock, Function.update_noteq e] at hpc ⊢
      exact hcur r hr n hpc
  case relEnter r0 c0 n0 hr0 hpc0 hc0 hrel0 ho0 =>
    intro r hr n hpc
    by_cases e : r = r0
    · subst e; simp [release_enter] at hpc
    · simp only [release_enter, Function.update_noteq e] at hpc ⊢
      exact hcur r hr n hpc
  case relDelete r0 n0 hr0 hpc0 hm0 =>
    intro r hr n hpc
    by_cases e : r = r0
    · subst e; simp [release_delete] at hpc
    · simp only [release_delete, Function.update_noteq e] at hpc
      have hold := hcur r hr n hpc
      exact ⟨not_mem_Delete h r0 n0 hold.1, hold.2⟩
  case relCloseDone r0 n0 hr0 hpc0 hd0 =>
    intro r hr n hpc
    obtain ⟨_, hl0, _, he0⟩ := body_of_pc h hr0 (show (s.rpc r0).body = some n0 by rw [hpc0]; rfl)
    by_cases e : r = r0
    · subst e
      simp only [release_closeDone, Function.update_same, RelPc.wait.injEq] at hpc ⊢
      subst hpc
      have hold := h.e.atCloseDone r hr n0 hpc0
      rw [he0, Function.update_same]
      exact ⟨hold.1, rfl, hold.2.2⟩
    · simp only [release_closeDone, Function.update_noteq e] at hpc ⊢
      have hold := hcur r hr n hpc
      have e3 : n ≠ s.elem n0 := by
        rw [he0]; intro e3; subst e3
        exact e (h.e.uniq r hr r0 hr0 n (by rw [hpc]; rfl) (by rw [hpc0]; rfl))
      rw [Function.update_noteq e3]
      exact hold
  case relWait r0 n0 hr0 hpc0 hs0 =>
    intro r hr n hpc
    by_cases e : r = r0
    · subst e; simp [release_wait] at hpc
    · simp only [release_wait, Function.update_noteq e] at hpc ⊢
      exact hcur r hr n hpc
  case relCloseCh r0 n0 hr0 hpc0 hc0 =>
    intro r hr n hpc
    obtain ⟨_, hl0, _, he0⟩ := body_of_pc h hr0 (show (s.rpc r0).body = some n0 by rw [hpc0]; rfl)
    by_cases e : r = r0
    · subst e; simp [release_closeCh] at hpc
    · simp only [release_closeCh, Function.update_noteq e] at hpc ⊢
      have hold := hcur r hr n hpc
      have e3 : n ≠ s.elem n0 := by
        rw [he0]; intro e3; subst e3
        exact e (h.e.uniq r hr r0 hr0 n (by rw [hpc]; rfl) (by rw [hpc0]; rfl))
      rw [Function.update_noteq e3]
      exact hold

theorem atCloseCh_step {s s' : State T} (h : Inv s) (hs : Step s s') :
    ∀ r, r < s'.nRels → ∀ n, s'.rpc r = RelPc.closeCh n → n ∉ s'.channels.nodes ∧ s'.doneClosed n = true ∧ s'.chClosed n = false ∧ s'.send n = 0 := by
  have hcur := h.e.atCloseCh
  cases hs <;> first | exact hcur | skip
  case acquire hm0 =>
    intro r hr n hpc
    change s.rpc r = _ at hpc
    have hold := hcur r hr n hpc
    have hl := (body_of_pc h hr (show (s.rpc r).body = some n by rw [hpc]; rfl)).2.1
    have e : n ≠ s.channels.size := by omega
    simp only [Acquire_insert, Function.update_noteq e]
    exact ⟨not_mem_Insert h hold.1 hl, hold.2⟩
  case callRelease c0 hc0 =>
    intro r hr n hpc
    by_cases e : r = s.nRels
    · subst e; simp [State.spawnRel] at hpc
    · have hr' : r < s.nRels := by simp only [State.spawnRel] at hr; omega
      simp only [State.spawnRel, Function.update_noteq e] at hpc ⊢
      exact hcur r hr' n hpc
  case callReleaseAll  =>
    intro r hr n hpc
    by_cases e : r = s.nRels
    · subst e; simp [State.spawnRel] at hpc
    · have hr' : r < s.nRels := by simp only [State.spawnRel] at hr; omega
      simp only [State.spawnRel, Function.update_noteq e] at hpc ⊢
      exact hcur r hr' n hpc
  case sendDefault k0 n0 hk0 hpc0 hc0 =>
    intro r hr n hpc
    have hold := hcur r hr n hpc
    obtain ⟨hm, hl, he⟩ := cursor_mem h hk0 hpc0
    have e : n ≠ s.elem n0 := by
      rw [he]; intro e; subst e; exact hold.1 hm
    simp only [Send_default, Function.update_noteq e]
    exact hold
  case helperChDone p0 hp0 hh0 hn0 =>
    intro r hr n hpc
    have hold := hcur r hr n hpc
    have e : n ≠ s.cpChan p0 := by
      intro e; subst e
      have := send_pos h hp0 (by rw [hh0]; rfl)
      omega
    simp only [helper_chDone, Function.update_noteq e]
    exact hold
  case relRlock r0 hr0 hpc0 =>
    intro r hr n hpc
    by_cases e : r = r0
    · subst e; simp [release_rlock] at hpc
    · simp only [release_rlock, Function.update_noteq e] at hpc ⊢
      exact hcur r hr n hpc
  case relCollect r0 n0 hr0 hpc0 =>
    intro r hr n hpc
    by_cases e : r = r0
    · subst e; simp [release_collect] at hpc
    · simp only [release_collect, Function.update_noteq e] at hpc ⊢
      exact hcur r hr n hpc
  case relRunlock r0 hr0 hpc0 =>
    intro r hr n hpc
    by_cases e : r = r0
    · subst e; simp [release_runlock] at hpc
    · simp only [release_runlock, Function.update_noteq e] at hpc ⊢
      exact hcur r hr n hpc
  case relEnter r0 c0 n0 hr0 hpc0 hc0 hrel0 ho0 =>
    intro r hr n hpc
    by_cases e : r = r0
    · subst e; simp [release_enter] at hpc
    · simp only [release_enter, Function.update_noteq e] at hpc ⊢
      exact hcur r hr n hpc
  case relDelete r0 n0 hr0 hpc0 hm0 =>
    intro r hr n hpc
    by_cases e : r = r0
    · subst e; simp [release_delete] at hpc
    · simp only [release_delete, Function.update_noteq e] at hpc
      have hold := hcur r hr n hpc
      exact ⟨not_mem_Delete h r0 n0 hold.1, hold.2⟩
  case relCloseDone r0 n0 hr0 hpc0 hd0 =>
    intro r hr n hpc
    obtain ⟨_, hl0, _, he0⟩ := body_of_pc h hr0 (show (s.rpc r0).body = some n0 by rw [hpc0]; rfl)
    by_cases e : r = r0
    · subst e; simp [release_closeDone] at hpc
    · simp only [release_closeDone, Function.update_noteq e] at hpc ⊢
      have hold := hcur r hr n hpc
      have e3 : n ≠ s.elem n0 := by
        rw [he0]; intro e3; subst e3
        exact e (h.e.uniq r hr r0 hr0 n (by rw [hpc]; rfl) (by rw [hpc0]; rfl))
      rw [Function.update_noteq e3]
      exact hold
  case relWait r0 n0 hr0 hpc0 hs0 =>
    intro r hr n hpc
    obtain ⟨_, hl0, _, he0⟩ := body_of_pc h hr0 (show (s.rpc r0).body = some n0 by rw [hpc0]; rfl)
    by_cases e : r = r0
    · subst e
      simp only [release_wait, Function.update_same, RelPc.closeCh.injEq] at hpc ⊢
      subst hpc
      have hold := h.e.atWait r hr n0 hpc0
      rw [he0] at hs0
      exact ⟨hold.1, hold.2.1, hold.2.2, hs0⟩
    · simp only [release_wait, Function.update_noteq e] at hpc ⊢
      exact hcur r hr n hpc
  case relCloseCh r0 n0 hr0 hpc0 hc0 =>
    intro r hr n hpc
    obtain ⟨_, hl0, _, he0⟩ := body_of_pc h hr0 (show (s.rpc r0).body = some n0 by rw [hpc0]; rfl)
    by_cases e : r = r0
    · subst e; simp [release_closeCh] at hpc
    · simp only [release_closeCh, Function.update_noteq e] at hpc ⊢
      have hold := hcur r hr n hpc
      have e3 : n ≠ s.elem n0 := by
        rw [he0]; intro e3; subst e3
        exact e (h.e.uniq r hr r0 hr0 n (by rw [hpc]; rfl) (by rw [hpc0]; rfl))
      rw [Function.update_noteq e3]
      exact hold


theorem size_Acquire (s : State T) :
    (Acquire_insert s).channels.size = s.channels.size + 1 := by
  rw [Acquire_channels, Insert_size]

theorem mem_Acquire {s : State T} (h : Inv s) (n : Nat) :
    n ∈ (Acquire_insert s).channels.nodes ↔ n ∈ s.channels.nodes ∨ n = s.channels.size := by
  rw [Acquire_channels, nodes_Insert h]
  simp

theorem fresh_step {s s' : State T} (h : Inv s) (hs : Step s s') :
    ∀ n, n < s'.channels.size → s'.once n = Once.fresh →
      s'.doneClosed n = false ∧ s'.chClosed n = false ∧ n ∈ s'.channels.nodes := by
  have hcur := h.e.fresh
  cases hs <;> first | exact hcur | skip
  case acquire hm =>
    intro n hn ho
    rw [size_Acquire] at hn
    rw [mem_Acquire h]
    by_cases e : n = s.channels.size
    · subst e; simp [Acquire_insert]
    · simp only [Acquire_insert, Function.update_noteq e] at ho ⊢
      have := hcur n (by omega) ho
      exact ⟨this.1, this.2.1, Or.inl this.2.2⟩
  case relEnter r0 c0 n0 hr0 hpc0 hc0 hrel0 ho0 =>
    intro n hn ho
    by_cases e : n = n0
    · subst e; simp [release_enter] at ho
    · simp only [release_enter, Function.update_noteq e] at ho ⊢
      exact hcur n hn ho
  case relDelete r0 n0 hr0 hpc0 hm0 =>
    intro n hn ho
    have := hcur n hn ho
    refine ⟨this.1, this.2.1, ?_⟩
    show n ∈ (s.channels.Delete n0).nodes
    rw [nodes_Delete h]
    have hb := body_of_pc h hr0 (show (s.rpc r0).body = some n0 by rw [hpc0]; rfl)
    have e : n ≠ n0 := by
      intro e; subst e
      change s.once n = _ at ho
      rw [hb.1] at ho; cases ho
    exact (List.mem_erase_of_ne e).2 this.2.2
  case relCloseDone r0 n0 hr0 hpc0 hd0 =>
    intro n hn ho
    have := hcur n hn ho
    have hb := body_of_pc h hr0 (show (s.rpc r0).body = some n0 by rw [hpc0]; rfl)
    have e : n ≠ s.elem n0 := by
      rw [hb.2.2.2]
      intro e; subst e
      change s.once n = _ at ho
      rw [hb.1] at ho; cases ho
    simp only [release_closeDone, Function.update_noteq e]
    exact this
  case relCloseCh r0 n0 hr0 hpc0 hc0 =>
    intro n hn ho
    have hb := body_of_pc h hr0 (show (s.rpc r0).body = some n0 by rw [hpc0]; rfl)
    by_cases e : n = n0
    · subst e; simp [release_closeCh] at ho
    · have e2 : n ≠ s.elem n0 := by rw [hb.2.2.2]; exact e
      simp only [release_closeCh, Function.update_noteq e, Function.update_noteq e2] at ho ⊢
      exact hcur n hn ho

theorem done_step {s s' : State T} (h : Inv s) (hs : Step s s') :
    ∀ n, n < s'.channels.size → s'.once n = Once.done →
      s'.doneClosed n = true ∧ s'.chClosed n = true ∧ n ∉ s'.channels.nodes ∧ s'.send n = 0 := by
  have hcur := h.e.done
  cases hs <;> first | exact hcur | skip
  case acquire hm =>
    intro n hn ho
    rw [size_Acquire] at hn
    rw [mem_Acquire h]
    by_cases e : n = s.channels.size
    · subst e; simp [Acquire_insert] at ho
    · simp only [Acquire_insert, Function.update_noteq e] at ho ⊢
      have := hcur n (by omega) ho
      exact ⟨this.1, this.2.1, fun hx => hx.elim this.2.2.1 e, this.2.2.2⟩
  case sendDefault k0 n0 hk0 hpc0 hc0 =>
    intro n hn ho
    have hold := hcur n hn ho
    obtain ⟨hm, hl, he⟩ := cursor_mem h hk0 hpc0
    have e : n ≠ s.elem n0 := by
      rw [he]; intro e; subst e; exact hold.2.2.1 hm
    simp only [Send_default, Function.update_noteq e]
    exact hold
  case helperChDone p0 hp0 hh0 hn0 =>
    intro n hn ho
    have hold := hcur n hn ho
    have e : n ≠ s.cpChan p0 := by
      intro e; subst e
      have := send_pos h hp0 (by rw [hh0]; rfl)
      omega
    simp only [helper_chDone, Function.update_noteq e]
    exact hold
  case relEnter r0 c0 n0 hr0 hpc0 hc0 hrel0 ho0 =>
    intro n hn ho
    by_cases e : n = n0
    · subst e; simp [release_enter] at ho
    · simp only [release_enter, Function.update_noteq e] at ho ⊢
      exact hcur n hn ho
  case relDelete r0 n0 hr0 hpc0 hm0 =>
    intro n hn ho
    have := hcur n hn ho
    exact ⟨this.1, this.2.1, not_mem_Delete h r0 n0 this.2.2.1, this.2.2.2⟩
  case relCloseDone r0 n0 hr0 hpc0 hd0 =>
    intro n hn ho
    have := hcur n hn ho
    simp only [release_closeDone, Function.update_apply]
    refine ⟨?_, this.2⟩
    split_ifs
    · rfl
    · exact this.1
  case relCloseCh r0 n0 hr0 hpc0 hc0 =>
    intro n hn ho
    have hb := body_of_pc h hr0 (show (s.rpc r0).body = some n0 by rw [hpc0]; rfl)
    have hst := h.e.atCloseCh r0 hr0 n0 hpc0
    by_cases e : n = n0
    · subst e
      simp only [release_closeCh, hb.2.2.2, Function.update_same]
      exact ⟨hst.2.1, trivial, hst.1, hst.2.2.2⟩
    · have e2 : n ≠ s.elem n0 := by rw [hb.2.2.2]; exact e
      simp only [release_closeCh, Function.update_noteq e, Function.update_noteq e2] at ho ⊢
      exact hcur n hn ho

theorem chClosed_step {s s' : State T} (h : Inv s) (hs : Step s s') :
    ∀ n, n < s'.channels.size → s'.chClosed n = true → s'.once n = Once.done := by
  have hcur := h.e.chClosed
  cases hs <;> first | exact hcur | skip
  case acquire hm =>
    intro n hn ho
    rw [size_Acquire] at hn
    by_cases e : n = s.channels.size
    · subst e; simp [Acquire_insert] at ho
    · simp only [Acquire_insert, Function.update_noteq e] at ho ⊢
      exact hcur n (by omega) ho
  case relEnter r0 c0 n0 hr0 hpc0 hc0 hrel0 ho0 =>
    intro n hn ho
    have := hcur n hn ho
    by_cases e : n = n0
    · subst e; rw [ho0] at this; cases this
    · simp only [release_enter, Function.update_noteq e]
      exact this
  case relCloseCh r0 n0 hr0 hpc0 hc0 =>
    intro n hn ho
    have hb := body_of_pc h hr0 (show (s.rpc r0).body = some n0 by rw [hpc0]; rfl)
    by_cases e : n = n0
    · subst e; simp [release_closeCh]
    · have e2 : n ≠ s.elem n0 := by rw [hb.2.2.2]; exact e
      simp only [release_closeCh, Function.update_noteq e, Function.update_noteq e2] at ho ⊢
      exact hcur n hn ho

theorem doneClosed_step {s s' : State T} (h : Inv s) (hs : Step s s') :
    ∀ n, n < s'.channels.size → s'.doneClosed n = true →
      n ∉ s'.channels.nodes ∧ s'.once n ≠ Once.fresh := by
  have hcur := h.e.doneClosed
  cases hs <;> first | exact hcur | skip
  case acquire hm =>
    intro n hn ho
    rw [size_Acquire] at hn
    rw [mem_Acquire h]
    by_cases e : n = s.channels.size
    · subst e; simp [Acquire_insert] at ho
    · simp only [Acquire_insert, Function.update_noteq e] at ho ⊢
      have := hcur n (by omega) ho
      exact ⟨fun hx => hx.elim this.1 e, this.2⟩
  case relEnter r0 c0 n0 hr0 hpc0 hc0 hrel0 ho0 =>
    intro n hn ho
    have := hcur n hn ho
    refine ⟨this.1, ?_⟩
    by_cases e : n = n0
    · subst e; simp [release_enter]
    · simp only [release_enter, Function.update_noteq e]
      exact this.2
  case relDelete r0 n0 hr0 hpc0 hm0 =>
    intro n hn ho
    have := hcur n hn ho
    exact ⟨not_mem_Delete h r0 n0 this.1, this.2⟩
  case relCloseDone r0 n0 hr0 hpc0 hd0 =>
    intro n hn ho
    have hb := body_of_pc h hr0 (show (s.rpc r0).body = some n0 by rw [hpc0]; rfl)
    have hst := h.e.atCloseDone r0 hr0 n0 hpc0
    by_cases e : n = n0
    · subst e
      refine ⟨hst.1, ?_⟩
      show s.once n ≠ _
      rw [hb.1]; simp
    · have e2 : n ≠ s.elem n0 := by rw [hb.2.2.2]; exact e
      simp only [release_closeDone, Function.update_noteq e2] at ho ⊢
      exact hcur n hn ho
  case relCloseCh r0 n0 hr0 hpc0 hc0 =>
    intro n hn ho
    have := hcur n hn ho
    refine ⟨this.1, ?_⟩
    by_cases e : n = n0
    · subst e; simp [release_closeCh]
    · simp only [release_closeCh, Function.update_noteq e]
      exact this.2

theorem returned_step {s s' : State T} (h : Inv s) (hs : Step s s') :
    ∀ r, r < s'.nRels → ∀ i, i < s'.idx r → ∀ c, (s'.all r).get? i = some c →
      s'.once c = Once.done ∧ c < s'.channels.size := by
  have hcur := h.e.returned
  cases hs <;> first | exact hcur | skip
  case acquire hm =>
    intro r hr i hi c hc
    have := hcur r hr i hi c hc
    rw [size_Acquire]
    have e : c ≠ s.channels.size := by omega
    simp only [Acquire_insert, Function.update_noteq e]
    exact ⟨this.1, by omega⟩
  case callRelease c0 hc0 =>
    intro r hr i hi c hc
    by_cases e : r = s.nRels
    · subst e; simp [State.spawnRel] at hi
    · have hr' : r < s.nRels := by simp only [State.spawnRel] at hr; omega
      simp only [State.spawnRel, Function.update_noteq e] at hi hc ⊢
      exact hcur r hr' i hi c hc
  case callReleaseAll =>
    intro r hr i hi c hc
    by_cases e : r = s.nRels
    · subst e; simp [State.spawnRel] at hi
    · have hr' : r < s.nRels := by simp only [State.spawnRel] at hr; omega
      simp only [State.spawnRel, Function.update_noteq e] at hi hc ⊢
      exact hcur r hr' i hi c hc
  case relCollect r0 n0 hr0 hpc0 =>
    intro r hr i hi c hc
    by_cases e : r = r0
    · subst e
      obtain ⟨_, _, _, _, hidx⟩ := h.b.relCur r hr _ hpc0
      change i < s.idx r at hi
      omega
    · simp only [release_collect, Function.update_noteq e] at hi hc ⊢
      exact hcur r hr i hi c hc
  case relEnter r0 c0 n0 hr0 hpc0 hc0 hrel0 ho0 =>
    intro r hr i hi c hc
    have := hcur r hr i hi c hc
    have e : c ≠ n0 := by
      intro e; subst e
      rw [ho0] at this
      cases this.1
    simp only [release_enter, Function.update_noteq e]
    exact this
  case relSkip r0 c0 n0 hr0 hpc0 hc0 hrel0 ho0 =>
    intro r hr i hi c hc
    by_cases e : r = r0
    · subst e
      simp only [release_skip, Function.update_same] at hi hc ⊢
      by_cases e2 : i = s.idx r
      · subst e2
        rw [hc0] at hc
        cases hc
        obtain ⟨e1, e2⟩ := h.a.rel _ _ hrel0
        subst e1
        exact ⟨ho0, e2⟩
      · exact hcur r hr i (by omega) c hc
    · simp only [release_skip, Function.update_noteq e] at hi hc ⊢
      exact hcur r hr i hi c hc
  case relCloseCh r0 n0 hr0 hpc0 hc0 =>
    intro r hr i hi c hc
    have hb := body_of_pc h hr0 (show (s.rpc r0).body = some n0 by rw [hpc0]; rfl)
    have key : ∀ c, s.once c = Once.done ∧ c < s.channels.size →
        Function.update s.once n0 Once.done c = Once.done ∧ c < s.channels.size := by
      intro c hc
      refine ⟨?_, hc.2⟩
      by_cases e : c = n0
      · subst e; simp
      · rw [Function.update_noteq e]; exact hc.1
    by_cases e : r = r0
    · subst e
      simp only [release_closeCh, Function.update_same] at hi hc ⊢
      by_cases e2 : i = s.idx r
      · subst e2
        rw [hb.2.2.1] at hc
        cases hc
        exact ⟨Function.update_same _ _ _, hb.2.1⟩
      · exact key c (hcur r hr i (by omega) c hc)
    · simp only [release_closeCh, Function.update_noteq e] at hi hc ⊢
      exact key c (hcur r hr i hi c hc)

theorem invE_step {s s' : State T} (h : Inv s) (hs : Step s s') : InvE s' :=
  ⟨body_step h hs, uniq_step h hs, atDelete_step h hs, atCloseDone_step h hs, atWait_step h hs,
    atCloseCh_step h hs, fresh_step h hs, done_step h hs, chClosed_step h hs,
    doneClosed_step h hs, returned_step h hs⟩

/-- The goroutine waiting for the acknowledgments starts only after the traversal. -/
theorem waiter_notStarted {s : State T} (h : Inv s) {k : Nat} (hk : k < s.nCalls)
    (hp : (s.pc k).past = false) : s.waiter k = WaiterPc.notStarted := by
  cases hw : s.waiter k with
  | notStarted => rfl
  | waiting => have := (h.f.waiting k hk hw).2; rw [hp] at this; cases this
  | finished => have := (h.f.finished k hk hw).2.1; rw [hp] at this; cases this

theorem notStarted_step {s s' : State T} (h : Inv s) (hs : Step s s') :
    ∀ k, k < s'.nCalls → s'.waiter k = WaiterPc.notStarted → s'.acks k = 0 := by
  have hcur := h.f.notStarted
  cases hs <;> first | exact hcur | skip
  case callSend v async =>
    intro k hk hw
    by_cases e : k = s.nCalls
    · subst e; simp [callSend]
    · have hk' : k < s.nCalls := by simp only [callSend] at hk; omega
      simp only [callSend, Function.update_noteq e] at hw ⊢
      exact hcur k hk' hw
  case sendRunlock k0 hk0 hpc0 =>
    intro k hk hw
    by_cases e : k = k0
    · subst e
      exact hcur k hk (waiter_notStarted h hk (by rw [hpc0]; rfl))
    · simp only [Send_runlock, Function.update_noteq e] at hw ⊢
      exact hcur k hk hw
  case ackFire k0 hk0 hw0 ha0 =>
    intro k hk hw
    by_cases e : k = k0
    · subst e; simp [ack_fire] at hw
    · simp only [ack_fire, Function.update_noteq e] at hw ⊢
      exact hcur k hk hw

theorem waiting_step {s s' : State T} (h : Inv s) (hs : Step s s') :
    ∀ k, k < s'.nCalls → s'.waiter k = WaiterPc.waiting →
      s'.acks k = 0 ∧ (s'.pc k).past = true := by
  have hcur := h.f.waiting
  cases hs <;> first | exact hcur | skip
  case callSend v async =>
    intro k hk hw
    by_cases e : k = s.nCalls
    · subst e; simp [callSend] at hw
    · have hk' : k < s.nCalls := by simp only [callSend] at hk; omega
      simp only [callSend, Function.update_noteq e] at hw ⊢
      exact hcur k hk' hw
  case sendRlock k0 hk0 hpc0 =>
    intro k hk hw
    by_cases e : k = k0
    · subst e
      have := waiter_notStarted h hk (show (s.pc k).past = false by rw [hpc0]; rfl)
      change s.waiter k = _ at hw
      rw [this] at hw; cases hw
    · simp only [Send_rlock, Function.update_noteq e] at hw ⊢
      exact hcur k hk hw
  case sendHandoff k0 n0 hk0 hpc0 hc0 =>
    intro k hk hw
    by_cases e : k = k0
    · subst e
      have := waiter_notStarted h hk (show (s.pc k).past = false by rw [hpc0]; rfl)
      change s.waiter k = _ at hw
      rw [this] at hw; cases hw
    · simp only [Send_handoff, Function.update_noteq e] at hw ⊢
      exact hcur k hk hw
  case sendDefault k0 n0 hk0 hpc0 hc0 =>
    intro k hk hw
    by_cases e : k = k0
    · subst e
      have := waiter_notStarted h hk (show (s.pc k).past = false by rw [hpc0]; rfl)
      change s.waiter k = _ at hw
      rw [this] at hw; cases hw
    · simp only [Send_default, Function.update_noteq e] at hw ⊢
      exact hcur k hk hw
  case sendRunlock k0 hk0 hpc0 =>
    intro k hk hw
    by_cases e : k = k0
    · subst e
      have hns := waiter_notStarted h hk (show (s.pc k).past = false by rw [hpc0]; rfl)
      refine ⟨h.f.notStarted k hk hns, ?_⟩
      simp only [Send_runlock, Function.update_same]
      split_ifs <;> rfl
    · simp only [Send_runlock, Function.update_noteq e] at hw ⊢
      exact hcur k hk hw
  case sendReturn k0 hk0 hpc0 hw0 =>
    intro k hk hw
    by_cases e : k = k0
    · subst e
      have := hcur k hk hw
      exact ⟨this.1, by simp [Send_return, SendPc.past]⟩
    · simp only [Send_return, Function.update_noteq e] at hw ⊢
      exact hcur k hk hw
  case ackFire k0 hk0 hw0 ha0 =>
    intro k hk hw
    by_cases e : k = k0
    · subst e; simp [ack_fire] at hw
    · simp only [ack_fire, Function.update_noteq e] at hw ⊢
      exact hcur k hk hw

theorem finished_step {s s' : State T} (h : Inv s) (hs : Step s s') :
    ∀ k, k < s'.nCalls → s'.waiter k = WaiterPc.finished →
      s'.acks k = 1 ∧ (s'.pc k).past = true ∧
        ∀ p, p < s'.nCopies → s'.cpCall p = k →
          s'.cpOnce p = true ∨ s'.abandoned p = true := by
  have hcur := h.f.finished
  cases hs <;> first | exact hcur | skip
  case callSend v async =>
    intro k hk hw
    by_cases e : k = s.nCalls
    · subst e; simp [callSend] at hw
    · have hk' : k < s.nCalls := by simp only [callSend] at hk; omega
      simp only [callSend, Function.update_noteq e] at hw ⊢
      exact hcur k hk' hw
  case ackFirst p0 ha0 hp0 hd0 ho0 hn0 =>
    intro k hk hw
    have := hcur k hk hw
    refine ⟨this.1, this.2.1, fun p hp hc => ?_⟩
    simp only [Ack_first, Function.update_apply]
    split_ifs
    · exact Or.inl rfl
    · exact this.2.2 p hp hc
  case helperAbandon p0 hp0 hh0 hd0 hn0 =>
    intro k hk hw
    have := hcur k hk hw
    refine ⟨this.1, this.2.1, fun p hp hc => ?_⟩
    simp only [helper_abandon, Function.update_apply]
    split_ifs
    · exact Or.inr rfl
    · exact this.2.2 p hp hc
  case sendRlock k0 hk0 hpc0 =>
    intro k hk hw
    by_cases e : k = k0
    · subst e
      have := waiter_notStarted h hk (show (s.pc k).past = false by rw [hpc0]; rfl)
      change s.waiter k = _ at hw
      rw [this] at hw; cases hw
    · simp only [Send_rlock, Function.update_noteq e] at hw ⊢
      exact hcur k hk hw
  case sendHandoff k0 n0 hk0 hpc0 hc0 =>
    intro k hk hw
    by_cases e : k = k0
    · subst e
      have := waiter_notStarted h hk (show (s.pc k).past = false by rw [hpc0]; rfl)
      change s.waiter k = _ at hw
      rw [this] at hw; cases hw
    · simp only [Send_handoff, Function.update_noteq e] at hw ⊢
      have := hcur k hk hw
      refine ⟨this.1, this.2.1, fun p hp hc => ?_⟩
      by_cases e2 : p = s.nCopies
      · subst e2; simp at hc; exact absurd hc.symm e
      · simp only [Function.update_noteq e2] at hc ⊢
        exact this.2.2 p (by omega) hc
  case sendDefault k0 n0 hk0 hpc0 hc0 =>
    intro k hk hw
    by_cases e : k = k0
    · subst e
      have := waiter_notStarted h hk (show (s.pc k).past = false by rw [hpc0]; rfl)
      change s.waiter k = _ at hw
      rw [this] at hw; cases hw
    · simp only [Send_default, Function.update_noteq e] at hw ⊢
      have := hcur k hk hw
      refine ⟨this.1, this.2.1, fun p hp hc => ?_⟩
      by_cases e2 : p = s.nCopies
      · subst e2; simp at hc; exact absurd hc.symm e
      · simp only [Function.update_noteq e2] at hc ⊢
        exact this.2.2 p (by omega) hc
  case sendRunlock k0 hk0 hpc0 =>
    intro k hk hw
    by_cases e : k = k0
    · subst e
      have hns := waiter_notStarted h hk (show (s.pc k).past = false by rw [hpc0]; rfl)
      simp only [Send_runlock, Function.update_same] at hw
      rw [hns] at hw
      split_ifs at hw
    · simp only [Send_runlock, Function.update_noteq e] at hw ⊢
      exact hcur k hk hw
  case sendReturn k0 hk0 hpc0 hw0 =>
    intro k hk hw
    by_cases e : k = k0
    · subst e
      have := hcur k hk hw
      exact ⟨this.1, by simp [Send_return, SendPc.past], this.2.2⟩
    · simp only [Send_return, Function.update_noteq e] at hw ⊢
      exact hcur k hk hw
  case ackFire k0 hk0 hw0 ha0 =>
    intro k hk hw
    by_cases e : k = k0
    · subst e
      have hwt := h.f.waiting k hk hw0
      simp only [ack_fire, Function.update_same]
      refine ⟨by omega, hwt.2, fun p hp hc => ?_⟩
      have hack : s.ackable = true := by
        cases ha : s.ackable with
        | true => rfl
        | false => have := h.f.plain k hk ha; rw [hw0] at this; cases this
      have hcnt := h.d.ack k hk
      rw [ha0, if_pos hack] at hcnt
      have hz := cnt_zero (f := fun q => unsettled s.cpCall k q (s.cpOnce q) (s.abandoned q))
        (by omega) hp
      simp only [unsettled, hc, decide_True, Bool.true_and, Bool.and_eq_false_iff,
        Bool.not_eq_false'] at hz
      exact hz
    · simp only [ack_fire, Function.update_noteq e] at hw ⊢
      exact hcur k hk hw

theorem spawned_step {s s' : State T} (h : Inv s) (hs : Step s s') :
    ∀ k, k < s'.nCalls → s'.ackable = true → (s'.pc k).past = true →
      s'.waiter k ≠ WaiterPc.notStarted := by
  have hcur := h.f.spawned
  cases hs <;> first | exact hcur | skip
  case callSend v async =>
    intro k hk ha hp
    by_cases e : k = s.nCalls
    · subst e; simp [callSend, SendPc.past] at hp
    · have hk' : k < s.nCalls := by simp only [callSend] at hk; omega
      simp only [callSend, Function.update_noteq e] at hp ⊢
      exact hcur k hk' ha hp
  case sendRlock k0 hk0 hpc0 =>
    intro k hk ha hp
    by_cases e : k = k0
    · subst e; simp [Send_rlock, SendPc.past] at hp
    · simp only [Send_rlock, Function.update_noteq e] at hp ⊢
      exact hcur k hk ha hp
  case sendHandoff k0 n0 hk0 hpc0 hc0 =>
    intro k hk ha hp
    by_cases e : k = k0
    · subst e; simp [Send_handoff, SendPc.past] at hp
    · simp only [Send_handoff, Function.update_noteq e] at hp ⊢
      exact hcur k hk ha hp
  case sendDefault k0 n0 hk0 hpc0 hc0 =>
    intro k hk ha hp
    by_cases e : k = k0
    · subst e; simp [Send_default, SendPc.past] at hp
    · simp only [Send_default, Function.update_noteq e] at hp ⊢
      exact hcur k hk ha hp
  case sendRunlock k0 hk0 hpc0 =>
    intro k hk ha hp
    by_cases e : k = k0
    · subst e
      change s.ackable = true at ha
      simp [Send_runlock, ha]
    · simp only [Send_runlock, Function.update_noteq e] at hp ⊢
      exact hcur k hk ha hp
  case sendReturn k0 hk0 hpc0 hw0 =>
    intro k hk ha hp
    by_cases e : k = k0
    · subst e
      exact hcur k hk ha (by rw [hpc0]; rfl)
    · simp only [Send_return, Function.update_noteq e] at hp ⊢
      exact hcur k hk ha hp
  case ackFire k0 hk0 hw0 ha0 =>
    intro k hk ha hp
    by_cases e : k = k0
    · subst e; simp [ack_fire]
    · simp only [ack_fire, Function.update_noteq e] at hp ⊢
      exact hcur k hk ha hp

theorem plain_step {s s' : State T} (h : Inv s) (hs : Step s s') :
    ∀ k, k < s'.nCalls → s'.ackable = false → s'.waiter k = WaiterPc.notStarted := by
  have hcur := h.f.plain
  cases hs <;> first | exact hcur | skip
  case callSend v async =>
    intro k hk ha
    by_cases e : k = s.nCalls
    · subst e; simp [callSend]
    · have hk' : k < s.nCalls := by simp only [callSend] at hk; omega
      simp only [callSend, Function.update_noteq e]
      exact hcur k hk' ha
  case sendRunlock k0 hk0 hpc0 =>
    intro k hk ha
    change s.ackable = false at ha
    by_cases e : k = k0
    · subst e
      simp only [Send_runlock, Function.update_same, ha]
      exact hcur k hk ha
    · simp only [Send_runlock, Function.update_noteq e]
      exact hcur k hk ha
  case ackFire k0 hk0 hw0 ha0 =>
    intro k hk ha
    have := hcur k hk ha
    by_cases e : k = k0
    · subst e; rw [hw0] at this; cases this
    · simp only [ack_fire, Function.update_noteq e]
      exact this

theorem invF_step {s s' : State T} (h : Inv s) (hs : Step s s') : InvF s' :=
  ⟨notStarted_step h hs, waiting_step h hs, finished_step h hs, spawned_step h hs,
    plain_step h hs⟩

theorem before_step {s s' : State T} (h : Inv s) (hs : Step s s') :
    ∀ b, b < s'.nCalls → ∀ a, a ∈ s'.before b →
      a < b ∧ s'.pc a = SendPc.returned ∧ s'.async a = false := by
  have hcur := h.h.before
  cases hs <;> first | exact hcur | skip
  case callSend v async =>
    intro b hb a ha
    by_cases e : b = s.nCalls
    · subst e
      simp only [callSend, Function.update_same, List.mem_filter, List.mem_range,
        decide_eq_true_eq] at ha
      have e2 : a ≠ s.nCalls := by omega
      simp only [callSend, Function.update_noteq e2]
      exact ⟨ha.1, ha.2⟩
    · have hb' : b < s.nCalls := by simp only [callSend] at hb; omega
      simp only [callSend, Function.update_noteq e] at ha
      have := hcur b hb' a ha
      have e2 : a ≠ s.nCalls := by omega
      simp only [callSend, Function.update_noteq e2]
      exact this
  case sendRlock k0 hk0 hpc0 =>
    intro b hb a ha
    have := hcur b hb a ha
    have e : a ≠ k0 := by
      intro e; subst e
      rw [hpc0] at this
      cases this.2.1
    simp only [Send_rlock, Function.update_noteq e]
    exact this
  case sendHandoff k0 n0 hk0 hpc0 hc0 =>
    intro b hb a ha
    have := hcur b hb a ha
    have e : a ≠ k0 := by
      intro e; subst e
      rw [hpc0] at this
      cases this.2.1
    simp only [Send_handoff, Function.update_noteq e]
    exact this
  case sendDefault k0 n0 hk0 hpc0 hc0 =>
    intro b hb a ha
    have := hcur b hb a ha
    have e : a ≠ k0 := by
      intro e; subst e
      rw [hpc0] at this
      cases this.2.1
    simp only [Send_default, Function.update_noteq e]
    exact this
  case sendRunlock k0 hk0 hpc0 =>
    intro b hb a ha
    have := hcur b hb a ha
    have e : a ≠ k0 := by
      intro e; subst e
      rw [hpc0] at this
      cases this.2.1
    simp only [Send_runlock, Function.update_noteq e]
    exact this
  case sendReturn k0 hk0 hpc0 hw0 =>
    intro b hb a ha
    have := hcur b hb a ha
    have e : a ≠ k0 := by
      intro e; subst e
      rw [hpc0] at this
      cases this.2.1
    simp only [Send_return, Function.update_noteq e]
    exact this

theorem quiet_step {s s' : State T} (h : Inv s) (hs : Step s s') :
    ∀ k, k < s'.nCalls → s'.pc k = SendPc.returned → s'.async k = false →
      ∀ p, p < s'.nCopies → s'.cpCall p = k → (s'.helper p).holdsWg = false := by
  have hcur := h.h.quiet
  cases hs <;> first | exact hcur | skip
  case callSend v async =>
    intro k hk hpc ha p hp hc
    by_cases e : k = s.nCalls
    · subst e; simp [callSend] at hpc
    · have hk' : k < s.nCalls := by simp only [callSend] at hk; omega
      simp only [callSend, Function.update_noteq e] at hpc ha
      exact hcur k hk' hpc ha p hp hc
  case sendRlock k0 hk0 hpc0 =>
    intro k hk hpc ha p hp hc
    by_cases e : k = k0
    · subst e; simp [Send_rlock] at hpc
    · simp only [Send_rlock, Function.update_noteq e] at hpc
      exact hcur k hk hpc ha p hp hc
  case sendHandoff k0 n0 hk0 hpc0 hc0 =>
    intro k hk hpc ha p hp hc
    by_cases e : k = k0
    · subst e; simp [Send_handoff] at hpc
    · simp only [Send_handoff, Function.update_noteq e] at hpc
      by_cases e2 : p = s.nCopies
      · subst e2; simp [Send_handoff] at hc; exact absurd hc.symm e
      · simp only [Send_handoff, Function.update_noteq e2] at hc ⊢
        exact hcur k hk hpc ha p (by simp only [Send_handoff] at hp; omega) hc
  case sendDefault k0 n0 hk0 hpc0 hc0 =>
    intro k hk hpc ha p hp hc
    by_cases e : k = k0
    · subst e; simp [Send_default] at hpc
    · simp only [Send_default, Function.update_noteq e] at hpc
      by_cases e2 : p = s.nCopies
      · subst e2; simp [Send_default] at hc; exact absurd hc.symm e
      · simp only [Send_default, Function.update_noteq e2] at hc ⊢
        exact hcur k hk hpc ha p (by simp only [Send_default] at hp; omega) hc
  case sendRunlock k0 hk0 hpc0 =>
    intro k hk hpc ha p hp hc
    by_cases e : k = k0
    · subst e
      change s.async k = false at ha
      simp [Send_runlock, ha] at hpc
    · simp only [Send_runlock, Function.update_noteq e] at hpc
      exact hcur k hk hpc ha p hp hc
  case sendReturn k0 hk0 hpc0 hw0 =>
    intro k hk hpc ha p hp hc
    by_cases e : k = k0
    · subst e
      change s.async k = false at ha
      change p < s.nCopies at hp
      have hwg := h.d.wg k hk
      rw [hw0, ha] at hwg
      simp only [Bool.false_eq_true, if_false] at hwg
      have hz := cnt_zero (f := fun q => inWg s.cpCall k q (s.helper q)) (by omega) hp
      change s.cpCall p = k at hc
      simpa [inWg, hc] using hz
    · simp only [Send_return, Function.update_noteq e] at hpc
      exact hcur k hk hpc ha p hp hc
  case helperHandoff p0 hp0 hh0 hc0 =>
    intro k hk hpc ha p hp hc
    have := hcur k hk hpc ha p hp hc
    by_cases e : p = p0
    · subst e; rw [hh0] at this; cases this
    · simp only [helper_handoff, Function.update_noteq e]
      exact this
  case helperAbandon p0 hp0 hh0 hd0 hn0 =>
    intro k hk hpc ha p hp hc
    have := hcur k hk hpc ha p hp hc
    by_cases e : p = p0
    · subst e; rw [hh0] at this; cases this
    · simp only [helper_abandon, Function.update_noteq e]
      exact this
  case helperChDone p0 hp0 hh0 hn0 =>
    intro k hk hpc ha p hp hc
    have := hcur k hk hpc ha p hp hc
    by_cases e : p = p0
    · subst e; rw [hh0] at this; cases this
    · simp only [helper_chDone, Function.update_noteq e]
      exact this
  case helperWgDone p0 hp0 hh0 hn0 =>
    intro k hk hpc ha p hp hc
    have := hcur k hk hpc ha p hp hc
    by_cases e : p = p0
    · subst e; rw [hh0] at this; cases this
    · simp only [helper_wgDone, Function.update_noteq e]
      exact this

theorem fifo_step {s s' : State T} (h : Inv s) (hs : Step s s') :
    ∀ c, c < s'.channels.size →
      List.Pairwise (fun x y => s'.cpCall y ∉ s'.before (s'.cpCall x)) (s'.recvd c) := by
  have hcur := h.h.fifo
  cases hs <;> first | exact hcur | skip
  case acquire hm =>
    intro c hc
    rw [size_Acquire] at hc
    by_cases e : c = s.channels.size
    · subst e; simp [Acquire_insert]
    · simp only [Acquire_insert, Function.update_noteq e]
      exact hcur c (by omega)
  case callSend v async =>
    intro c hc
    refine List.Pairwise.imp_of_mem ?_ (hcur c hc)
    intro x y hx _ hxy
    have := h.c.call x (h.c.recvd c hc x hx).1
    have e : s.cpCall x ≠ s.nCalls := by omega
    simp only [callSend, Function.update_noteq e]
    exact hxy
  case sendDefault k0 n0 hk0 hpc0 hc0 =>
    intro c hc
    refine List.Pairwise.imp_of_mem ?_ (hcur c hc)
    intro x y hx hy hxy
    have e1 : x ≠ s.nCopies := by have := (h.c.recvd c hc x hx).1; omega
    have e2 : y ≠ s.nCopies := by have := (h.c.recvd c hc y hy).1; omega
    simp only [Send_default, Function.update_noteq e1, Function.update_noteq e2]
    exact hxy
  case sendHandoff k0 n0 hk0 hpc0 hc0 =>
    intro c hc
    have key : List.Pairwise (fun x y => Function.update s.cpCall s.nCopies k0 y ∉
        s.before (Function.update s.cpCall s.nCopies k0 x)) (s.recvd c) := by
      refine List.Pairwise.imp_of_mem ?_ (hcur c hc)
      intro x y hx hy hxy
      have e1 : x ≠ s.nCopies := by have := (h.c.recvd c hc x hx).1; omega
      have e2 : y ≠ s.nCopies := by have := (h.c.recvd c hc y hy).1; omega
      simp only [Function.update_noteq e1, Function.update_noteq e2]
      exact hxy
    by_cases e : c = s.elem n0
    · subst e
      simp only [Send_handoff, Function.update_same]
      rw [List.pairwise_append]
      refine ⟨key, List.pairwise_singleton _ _, ?_⟩
      intro x hx y hy
      rw [List.mem_singleton] at hy
      subst hy
      have hx1 := (h.c.recvd _ hc x hx).1
      have e1 : x ≠ s.nCopies := by omega
      simp only [Function.update_same, Function.update_noteq e1]
      intro hmem
      have := (h.h.before _ (h.c.call x hx1) _ hmem).2.1
      rw [hpc0] at this
      cases this
    · simp only [Send_handoff, Function.update_noteq e]
      exact key
  case helperHandoff p0 hp0 hh0 hc0 =>
    intro c hc
    by_cases e : c = s.cpChan p0
    · subst e
      simp only [helper_handoff, Function.update_same]
      rw [List.pairwise_append]
      refine ⟨hcur _ hc, List.pairwise_singleton _ _, ?_⟩
      intro x hx y hy
      rw [List.mem_singleton] at hy
      subst hy
      have hx1 := (h.c.recvd _ hc x hx).1
      intro hmem
      have hb := h.h.before _ (h.c.call x hx1) _ hmem
      have := h.h.quiet _ (h.c.call y hp0) hb.2.1 hb.2.2 y hp0 rfl
      rw [hh0] at this
      cases this
    · simp only [helper_handoff, Function.update_noteq e]
      exact hcur c hc

theorem invH_step {s s' : State T} (h : Inv s) (hs : Step s s') : InvH s' :=
  ⟨before_step h hs, quiet_step h hs, fifo_step h hs⟩

/-- Every statement preserves the invariants. -/
theorem inv_step {s s' : State T} (h : Inv s) (hs : Step s s') : Inv s' :=
  ⟨invA_step h hs, invB_step h hs, invC_step h hs, invD_step h hs, invE_step h hs,
    invF_step h hs, invH_step h hs⟩

/-- A copy that is neither acked nor abandoned keeps the counter `ack` positive. -/
theorem ack_pos {s : State T} (h : Inv s) (ha : s.ackable = true) {p : Nat} (hp : p < s.nCopies)
    (ho : s.cpOnce p = false) (hab : s.abandoned p = false) : 1 ≤ s.ack (s.cpCall p) := by
  rw [h.d.ack _ (h.c.call p hp), if_pos ha]
  have := cnt_pos (f := fun q => unsettled s.cpCall (s.cpCall p) q (s.cpOnce q) (s.abandoned q))
    hp (by simp [unsettled, ho, hab])
  omega

/-- A helper that still holds `wg` keeps the counter positive. -/
theorem wg_pos {s : State T} (h : Inv s) {p : Nat} (hp : p < s.nCopies)
    (hh : (s.helper p).holdsWg = true) (ha : s.async (s.cpCall p) = false) :
    1 ≤ s.wg (s.cpCall p) := by
  rw [h.d.wg _ (h.c.call p hp), ha]
  have := cnt_pos (f := fun q => inWg s.cpCall (s.cpCall p) q (s.helper q)) hp
    (by simp [inWg, hh])
  simp only [Bool.false_eq_true, if_false]
  omega

/-- A copy whose helper is blocked in `select` has not been acked. -/
theorem once_of_select {s : State T} (h : Inv s) {p : Nat} (hp : p < s.nCopies)
    (hh : s.helper p = HelperPc.select) : s.cpOnce p = false := by
  cases ho : s.cpOnce p with
  | false => rfl
  | true =>
    have := h.c.onceDel p hp ho
    rw [(h.c.sel p hp hh).1] at this
    cases this

/-- The only panic a state satisfying the invariants can raise is the call of a nil
`release`, in a `ReleaseAll` that collected a channel whose `Acquire` has not returned. -/
theorem crash_nil {s : State T} (h : Inv s) {p : Panic} (hc : Crash s p) :
    p = Panic.nilFunc := by
  cases hc with
  | ack p ha hp hd ho hn =>
    have := ack_pos h ha hp ho (h.c.delAb p hp hd)
    omega
  | visit k n hk hpc hc =>
    obtain ⟨hm, hl, he⟩ := cursor_mem h hk hpc
    rw [he] at hc
    exact absurd hm (h.e.done n hl (h.e.chClosed n hl hc)).2.2.1
  | helperSend p hp hh hc =>
    have hl := h.b.copyChan p hp
    have h0 := (h.e.done _ hl (h.e.chClosed _ hl hc)).2.2.2
    have := send_pos h hp (by rw [hh]; rfl)
    omega
  | helperDone p hp hh hd ha hn =>
    have := ack_pos h ha hp (once_of_select h hp hh) (h.c.sel p hp hh).2
    omega
  | chDone p hp hh hn =>
    have := send_pos h hp (by rw [hh]; rfl)
    omega
  | wgDone p hp hh hn =>
    have := wg_pos h hp (by rw [hh]; rfl) (h.c.wgSync p hp hh)
    omega
  | nilRelease r c hr hpc hc hrel => rfl
  | closeDone r n hr hpc hd =>
    have hb := body_of_pc h hr (show (s.rpc r).body = some n by rw [hpc]; rfl)
    rw [hb.2.2.2, (h.e.atCloseDone r hr n hpc).2.1] at hd
    cases hd
  | closeCh r n hr hpc hc =>
    have hb := body_of_pc h hr (show (s.rpc r).body = some n by rw [hpc]; rfl)
    rw [hb.2.2.2, (h.e.atCloseCh r hr n hpc).2.2.1] at hc
    cases hc

theorem inv_crash {s : State T} (h : Inv s) (p : Panic) : Inv (s.crash p) :=
  ⟨⟨h.a.wf, h.a.elem, h.a.rel⟩,
    ⟨h.b.mu, h.b.sendCur, h.b.relCur, h.b.relPre, h.b.sendPre, h.b.sendPost, h.b.snap,
      h.b.relPost, h.b.relBound, h.b.copyChan⟩,
    ⟨h.c.val, h.c.call, h.c.delAb, h.c.onceDel, h.c.sel, h.c.settled, h.c.abDone, h.c.wgSync,
      h.c.recvd⟩,
    ⟨h.d.send, h.d.wg, h.d.ack⟩,
    ⟨h.e.body, h.e.uniq, h.e.atDelete, h.e.atCloseDone, h.e.atWait, h.e.atCloseCh, h.e.fresh,
      h.e.done, h.e.chClosed, h.e.doneClosed, h.e.returned⟩,
    ⟨h.f.notStarted, h.f.waiting, h.f.finished, h.f.spawned, h.f.plain⟩,
    ⟨h.h.before, h.h.quiet, h.h.fifo⟩⟩

theorem inv_New [Inhabited T] (ackable : Bool) : Inv (New ackable : State T) := by
  refine ⟨⟨?_, ?_, ?_⟩, ⟨?_, ?_, ?_, ?_, ?_, ?_, ?_, ?_, ?_, ?_⟩,
    ⟨?_, ?_, ?_, ?_, ?_, ?_, ?_, ?_, ?_⟩, ⟨?_, ?_, ?_⟩,
    ⟨?_, ?_, ?_, ?_, ?_, ?_, ?_, ?_, ?_, ?_, ?_⟩, ⟨?_, ?_, ?_, ?_, ?_⟩, ⟨?_, ?_, ?_⟩⟩
  case refine_1 => exact WF.newList Nat
  all_goals
    first
      | rfl
      | (intro x hx; exact absurd hx (Nat.not_lt_zero x))
      | (intro c n hx; simp [New] at hx)

theorem inv_perform {s : State T} (h : Inv s) (a : Action T) : Inv (perform s a) := by
  rcases perform_cases s a with e | ⟨p, _, e⟩ | hs
  · rw [e]; exact h
  · rw [e]; exact inv_crash h p
  · exact inv_step h hs

theorem inv_act {s : State T} (h : Inv s) (a : Action T) : Inv (step s a) := by
  unfold changroup.step
  split_ifs
  · exact inv_perform h a
  · exact h

theorem inv_run {s : State T} (h : Inv s) (acts : List (Action T)) : Inv (run s acts) := by
  induction acts generalizing s with
  | nil => exact h
  | cons a acts ih => exact ih (inv_act h a)

/-- The invariants hold in every state a group can reach. -/
theorem inv_reach [Inhabited T] (ackable : Bool) (acts : List (Action T)) :
    Inv (run (New ackable) acts) :=
  inv_run (inv_New ackable) acts

/-- No statement changes the flag `panic`. -/
theorem Step.panic {s s' : State T} (hs : Step s s') : s'.panic = s.panic := by
  cases hs <;> rfl

/-- No statement changes the kind of the group. -/
theorem Step.ackable {s s' : State T} (hs : Step s s') : s'.ackable = s.ackable := by
  cases hs <;> rfl

/-- The only panic is the call of a nil `release`. -/
def Safe (s : State T) : Prop := s.panic = none ∨ s.panic = some Panic.nilFunc

theorem safe_act {s : State T} (h : Inv s) (hp : Safe s) (a : Action T) : Safe (step s a) := by
  unfold changroup.step
  split_ifs with hn
  · rcases perform_cases s a with e | ⟨p, hc, e⟩ | hs
    · rw [e]; exact hp
    · rw [e]; right; rw [crash_nil h hc]; rfl
    · left; rw [hs.panic]; exact hn
  · exact hp

theorem safe_run {s : State T} (h : Inv s) (hp : Safe s) (acts : List (Action T)) :
    Safe (run s acts) := by
  induction acts generalizing s with
  | nil => exact hp
  | cons a acts ih => exact ih (inv_act h a) (safe_act h hp a)

theorem safe_reach [Inhabited T] (ackable : Bool) (acts : List (Action T)) :
    Safe (run (New ackable) acts) :=
  safe_run (inv_New ackable) (Or.inl rfl) acts

theorem ackable_act (s : State T) (a : Action T) : (step s a).ackable = s.ackable := by
  unfold changroup.step
  split_ifs
  · rcases perform_cases s a with e | ⟨p, _, e⟩ | hs
    · rw [e]
    · rw [e]; rfl
    · exact hs.ackable
  · rfl

theorem ackable_run (s : State T) (acts : List (Action T)) :
    (run s acts).ackable = s.ackable := by
  induction acts generalizing s with
  | nil => rfl
  | cons a acts ih => exact (ih (step s a)).trans (ackable_act s a)

end model

section claims

variable {T : Type}

/-! ## Reachable states -/

/-- The states the program can be in: those reached from the constructor by some schedule. -/
def Reachable [Inhabited T] (ackable : Bool) (s : State T) : Prop :=
  ∃ acts : List (Action T), s = run (New ackable) acts

theorem run_append (s : State T) (xs ys : List (Action T)) :
    run s (xs ++ ys) = run (run s xs) ys := by
  unfold run
  rw [List.foldl_append]

theorem Reachable.inv [Inhabited T] {ackable : Bool} {s : State T} (h : Reachable ackable s) :
    Inv s := by
  obtain ⟨acts, rfl⟩ := h
  exact inv_reach ackable acts

theorem Reachable.kind [Inhabited T] {ackable : Bool} {s : State T} (h : Reachable ackable s) :
    s.ackable = ackable := by
  obtain ⟨acts, rfl⟩ := h
  exact ackable_run _ acts

theorem Reachable.safe [Inhabited T] {ackable : Bool} {s : State T} (h : Reachable ackable s) :
    Safe s := by
  obtain ⟨acts, rfl⟩ := h
  exact safe_reach ackable acts

theorem Reachable.later [Inhabited T] {ackable : Bool} {s : State T} (h : Reachable ackable s)
    (acts : List (Action T)) : Reachable ackable (run s acts) := by
  obtain ⟨pre, rfl⟩ := h
  exact ⟨pre ++ acts, (run_append _ pre acts).symm⟩

/-- The first `Ack` of a delivered copy runs `ack.Done()`. -/
theorem step_ack_first {s : State T} (h : Inv s) (hp0 : s.panic = none) (ha : s.ackable = true)
    {p : Nat} (hp : p < s.nCopies) (hd : s.delivered p = true) (ho : s.cpOnce p = false) :
    step s (Action.ack p) = Ack_first s p := by
  have h1 := ack_pos h ha hp ho (h.c.delAb p hp hd)
  unfold step
  rw [if_pos hp0]
  show Ack s p = _
  unfold Ack
  rw [if_pos ⟨ha, hp, hd⟩, if_neg (by rw [ho]; exact Bool.false_ne_true),
    if_neg (by omega)]

/-- The helper of a copy whose channel has `done` closed can take `case <-ch.done`. -/
theorem step_helper_done {s : State T} (h : Inv s) (hp0 : s.panic = none) {p : Nat}
    (hp : p < s.nCopies) (hh : s.helper p = HelperPc.select)
    (hd : s.doneClosed (s.cpChan p) = true) :
    step s (Action.helperDone p) = helper_abandon s p := by
  unfold step
  rw [if_pos hp0]
  show helper_done s p = _
  unfold helper_done
  rw [if_pos ⟨hp, hh, hd⟩, if_neg]
  rintro ⟨ha, hn⟩
  have h1 := ack_pos h ha hp (once_of_select h hp hh) (h.c.sel p hp hh).2
  omega

/-- The waiting goroutine invokes the original `Ack` when the counter is zero. -/
theorem step_ack_wait {s : State T} (hp0 : s.panic = none) {k : Nat} (hk : k < s.nCalls)
    (hw : s.waiter k = WaiterPc.waiting) (hz : s.ack k = 0) :
    step s (Action.ackWait k) = ack_fire s k := by
  unfold step
  rw [if_pos hp0]
  show ack_wait s k = _
  unfold ack_wait
  rw [if_pos ⟨hk, hw, hz⟩]

/-- The counter `ack` is zero when every copy of the call is acked or abandoned. -/
theorem ack_zero {s : State T} (h : Inv s) {k : Nat} (hk : k < s.nCalls)
    (hall : ∀ p, p < s.nCopies → s.cpCall p = k → s.cpOnce p = true ∨ s.abandoned p = true) :
    s.ack k = 0 := by
  rw [h.d.ack k hk]
  split_ifs
  · have : cnt (fun q => unsettled s.cpCall k q (s.cpOnce q) (s.abandoned q)) s.nCopies
        = 0 := by
      apply cnt_none
      intro q hq
      by_cases e : s.cpCall q = k
      · rcases hall q hq e with h3 | h3 <;> simp [unsettled, h3]
      · simp [unsettled, e]
    rw [this]; rfl
  · rfl

/-! ## The claims -/

/-- Schedule of the test `ack happens once for Send`: two subscribers acquire, `Send(v)` hands
the first copy over inside the traversal and the second through a helper goroutine, `Send`
returns, the first subscriber acks three times and the second once. -/
def ackOnceSchedule (v : T) : List (Action T) :=
  [Action.acquire, Action.acquireReturn 0, Action.acquire, Action.acquireReturn 1,
   Action.callSend v, Action.send 0 false, Action.send 0 true, Action.send 0 false,
   Action.send 0 false, Action.helperSend 1, Action.helperDefer 1, Action.helperDefer 1,
   Action.send 0 false, Action.ack 0, Action.ack 0, Action.ack 0, Action.ackWait 0,
   Action.ack 1]

/-- C1: in every reachable state of an `AckableGroup`, the original `Ack` of call `k` has been
invoked at most once; when it has been invoked, the traversal of the call is over, every
channel registered when the call took the lock got a copy, and every copy of the call has been
acked or abandoned; and when the traversal is over and every copy has been acked or abandoned,
the original `Ack` has been invoked once or is invoked by the next step of the waiting
goroutine. -/
theorem C1_original_ack_exactly_once [Inhabited T] (s : State T) (hr : Reachable true s)
    (k : Nat) (hk : k < s.nCalls) :
    s.acks k ≤ 1 ∧
    (s.acks k = 1 →
      (s.pc k).past = true ∧ attempts s k = s.snapshot k ∧
      ∀ p, p < s.nCopies → s.cpCall p = k → s.cpOnce p = true ∨ s.abandoned p = true) ∧
    (s.panic = none → (s.pc k).past = true →
      (∀ p, p < s.nCopies → s.cpCall p = k → s.cpOnce p = true ∨ s.abandoned p = true) →
      s.acks k = 1 ∨ (s.acks k = 0 ∧ (step s (Action.ackWait k)).acks k = 1)) := by
  have h := hr.inv
  have ha := hr.kind
  refine ⟨?_, ?_, ?_⟩
  · cases hw : s.waiter k with
    | notStarted => rw [h.f.notStarted k hk hw]; exact Nat.zero_le 1
    | waiting => rw [(h.f.waiting k hk hw).1]; exact Nat.zero_le 1
    | finished => rw [(h.f.finished k hk hw).1]
  · intro h1
    cases hw : s.waiter k with
    | notStarted => rw [h.f.notStarted k hk hw] at h1; exact absurd h1 (by decide)
    | waiting => rw [(h.f.waiting k hk hw).1] at h1; exact absurd h1 (by decide)
    | finished =>
      have h2 := h.f.finished k hk hw
      exact ⟨h2.2.1, h.b.sendPost k hk h2.2.1, h2.2.2⟩
  · intro hp hpast hall
    cases hw : s.waiter k with
    | notStarted => exact absurd hw (h.f.spawned k hk ha hpast)
    | finished => exact Or.inl (h.f.finished k hk hw).1
    | waiting =>
      have h0 := (h.f.waiting k hk hw).1
      refine Or.inr ⟨h0, ?_⟩
      rw [step_ack_wait hp hk hw (ack_zero h hk hall)]
      show Function.update s.acks k (s.acks k + 1) k = 1
      rw [Function.update_same, h0]

/-- Witness of C1: in the schedule of the test, where one subscriber acks three times, the
original `Ack` has not been invoked while the second copy is not acked, and is invoked exactly
once by the step of the waiting goroutine that follows the last first `Ack`. -/
theorem C1_original_ack_exactly_once_witness :
    (run (NewAckableGroup : State Nat) (ackOnceSchedule 7)).acks 0 = 0 ∧
    (step (run (NewAckableGroup : State Nat) (ackOnceSchedule 7)) (Action.ackWait 0)).acks 0
      = 1 :=
  ((C1_original_ack_exactly_once (run (NewAckableGroup : State Nat) (ackOnceSchedule 7))
      ⟨ackOnceSchedule 7, rfl⟩ 0 (by decide!)).2.2
    (by decide!) (by decide!) (by decide!)).resolve_left (by decide!)

/-- Schedule in which the only subscriber is released without reading: `Send(v)` finds no
receiver and starts a helper, the subscriber calls its `ReleaseFunc`, which closes `done`, and
the helper takes `case <-ch.done`. -/
def abandonSchedule (v : T) : List (Action T) :=
  [Action.acquire, Action.acquireReturn 0, Action.callSend v, Action.send 0 false,
   Action.send 0 false, Action.send 0 false, Action.callRelease 0, Action.release 0,
   Action.release 0, Action.release 0]

/-- C2: in every reachable state of an `AckableGroup`, the counter `ack` of call `k` is the
number of copies of the call that are neither acked nor abandoned (so it is not negative), no
copy is both acked and abandoned, and no `Done` has panicked; the first `Ack` of a delivered
copy decrements the counter by one and every later `Ack` of the copy changes nothing; the
abandonment branch of a helper whose channel has `done` closed decrements the counter by one,
and after it neither an `Ack` nor the helper decrements again. -/
theorem C2_counter_decremented_once [Inhabited T] (s : State T) (hr : Reachable true s)
    (k : Nat) (hk : k < s.nCalls) :
    s.ack k = cnt (fun q => unsettled s.cpCall k q (s.cpOnce q) (s.abandoned q)) s.nCopies ∧
    0 ≤ s.ack k ∧
    s.panic ≠ some Panic.negativeCounter ∧
    ∀ p, p < s.nCopies → s.cpCall p = k →
      ¬ (s.cpOnce p = true ∧ s.abandoned p = true) ∧
      (s.panic = none → s.delivered p = true → s.cpOnce p = false →
        (step s (Action.ack p)).ack k = s.ack k - 1 ∧
        (step s (Action.ack p)).cpOnce p = true ∧
        (step s (Action.ack p)).panic = none) ∧
      (s.cpOnce p = true →
        step s (Action.ack p) = s ∧ step s (Action.helperDone p) = s) ∧
      (s.panic = none → s.helper p = HelperPc.select → s.doneClosed (s.cpChan p) = true →
        (step s (Action.helperDone p)).ack k = s.ack k - 1 ∧
        (step s (Action.helperDone p)).abandoned p = true ∧
        (step s (Action.helperDone p)).panic = none) ∧
      (s.abandoned p = true →
        step s (Action.ack p) = s ∧ step s (Action.helperDone p) = s) := by
  have h := hr.inv
  have ha := hr.kind
  have h1 : s.ack k =
      cnt (fun q => unsettled s.cpCall k q (s.cpOnce q) (s.abandoned q)) s.nCopies := by
    rw [h.d.ack k hk, if_pos ha]
  refine ⟨h1, by rw [h1]; exact Int.natCast_nonneg _, ?_, ?_⟩
  · rcases hr.safe with e | e <;> rw [e] <;> simp
  intro p hp hc
  have hsel : s.helper p = HelperPc.select → s.cpOnce p = false ∧ s.abandoned p = false :=
    fun hh => ⟨once_of_select h hp hh, (h.c.sel p hp hh).2⟩
  have hnd : s.helper p ≠ HelperPc.select → step s (Action.helperDone p) = s := by
    intro hh
    unfold step
    split_ifs
    · show helper_done s p = s
      unfold helper_done
      rw [if_neg (fun hx => hh hx.2.1)]
    · rfl
  refine ⟨?_, ?_, ?_, ?_, ?_⟩
  · rintro ⟨h2, h3⟩
    rw [h.c.delAb p hp (h.c.onceDel p hp h2)] at h3
    exact absurd h3 (by decide)
  · intro hp0 hd ho
    rw [step_ack_first h hp0 ha hp hd ho]
    refine ⟨?_, Function.update_same _ _ _, hp0⟩
    show Function.update s.ack (s.cpCall p) (s.ack (s.cpCall p) - 1) k = _
    rw [hc, Function.update_same]
  · intro ho
    refine ⟨?_, hnd (fun hh => ?_)⟩
    · unfold step
      split_ifs
      · show Ack s p = s
        unfold Ack
        split_ifs <;> rfl
      · rfl
    · rw [(hsel hh).1] at ho; exact absurd ho (by decide)
  · intro hp0 hh hd
    rw [step_helper_done h hp0 hp hh hd]
    refine ⟨?_, Function.update_same _ _ _, hp0⟩
    show Function.update s.ack (s.cpCall p)
      (if s.ackable = true then s.ack (s.cpCall p) - 1 else s.ack (s.cpCall p)) k = _
    rw [hc, Function.update_same, if_pos ha]
  · intro hab
    refine ⟨?_, hnd (fun hh => ?_)⟩
    · unfold step
      split_ifs
      · show Ack s p = s
        unfold Ack
        rw [if_neg]
        rintro ⟨_, _, hd⟩
        rw [h.c.delAb p hp hd] at hab
        exact absurd hab (by decide)
      · rfl
    · rw [(hsel hh).2] at hab; exact absurd hab (by decide)

/-- Witness of C2: the subscriber is released without reading; the abandonment branch of the
helper brings the counter from one to zero, and the next step of the waiting goroutine invokes
the original `Ack`. -/
theorem C2_counter_decremented_once_witness :
    (run (NewAckableGroup : State Nat) (abandonSchedule 7)).ack 0 = 1 ∧
    (step (run (NewAckableGroup : State Nat) (abandonSchedule 7)) (Action.helperDone 0)).ack 0
      = 1 - 1 ∧
    (run (NewAckableGroup : State Nat)
      (abandonSchedule 7 ++ [Action.helperDone 0, Action.ackWait 0])).acks 0 = 1 :=
  ⟨by decide!,
    (((C2_counter_decremented_once (run (NewAckableGroup : State Nat) (abandonSchedule 7))
      ⟨abandonSchedule 7, rfl⟩ 0 (by decide!)).2.2.2 0 (by decide!) (by decide!)).2.2.2.1
      (by decide!) (by decide!) (by decide!)).1.trans
      (congrArg (fun x => x - 1) (by decide! :
        (run (NewAckableGroup : State Nat) (abandonSchedule 7)).ack 0 = 1)),
    by decide!⟩

/-- The action is a call of `Ack` on copy `p`. -/
def isAck (p : Nat) : Action T → Bool
  | Action.ack q => decide (q = p)
  | _ => false

/-- The program has panicked or the `sync.Once` in the `Ack` of copy `p` is used up. -/
def Acked (s : State T) (p : Nat) : Prop :=
  s.panic ≠ none ∨ (p < s.nCopies ∧ s.cpOnce p = true)

theorem Acked.first {s : State T} {p : Nat} (ha : s.ackable = true) (hp : p < s.nCopies)
    (hd : s.delivered p = true) : Acked (step s (Action.ack p)) p := by
  unfold step
  split_ifs with h0
  · show Acked (Ack s p) p
    unfold Ack
    rw [if_pos ⟨ha, hp, hd⟩]
    split_ifs with h1 h2
    · exact Or.inr ⟨hp, h1⟩
    · exact Or.inl (by simp [State.crash])
    · exact Or.inr ⟨hp, Function.update_same _ _ _⟩
  · exact Or.inl h0

theorem Acked.again {s : State T} {p : Nat} (h : Acked s p) : step s (Action.ack p) = s := by
  unfold step
  split_ifs with h0
  · rcases h with h | h
    · exact absurd h0 h
    · show Ack s p = s
      unfold Ack
      split_ifs with h1 h2
      · rfl
      · exact absurd h.2 h2
      · exact absurd h.2 h2
      · rfl
  · rfl

/-- No statement resets the `sync.Once` of a copy. -/
theorem cpOnce_step {s s' : State T} {p : Nat} (h : p < s.nCopies ∧ s.cpOnce p = true)
    (hs : Step s s') : p < s'.nCopies ∧ s'.cpOnce p = true := by
  have hne : p ≠ s.nCopies := Nat.ne_of_lt h.1
  cases hs <;> first
    | exact h
    | exact ⟨Nat.lt_succ_of_lt h.1, by
        show Function.update s.cpOnce s.nCopies false p = true
        rw [Function.update_noteq hne]; exact h.2⟩
    | skip
  case ackFirst q _ _ _ _ _ =>
    refine ⟨h.1, ?_⟩
    show Function.update s.cpOnce q true p = true
    by_cases e : p = q
    · rw [e, Function.update_same]
    · rw [Function.update_noteq e]; exact h.2

theorem Acked.keep {s : State T} {p : Nat} (h : Acked s p) (a : Action T) :
    Acked (step s a) p := by
  unfold step
  split_ifs with h0
  · rcases h with h | h
    · exact absurd h0 h
    · rcases perform_cases s a with e | ⟨x, _, e⟩ | hs
      · rw [e]; exact Or.inr h
      · rw [e]; exact Or.inl (by simp [State.crash])
      · exact Or.inr (cpOnce_step h hs)
  · exact h

theorem Acked.filter {s : State T} {p : Nat} (h : Acked s p) (acts : List (Action T)) :
    run s acts = run s (acts.filter (fun a => !isAck p a)) := by
  induction acts generalizing s with
  | nil => rfl
  | cons a acts ih =>
    cases a with
    | ack q =>
      by_cases e : q = p
      · subst e
        have e1 : (Action.ack q :: acts).filter (fun a => !isAck q a) =
            acts.filter (fun a => !isAck q a) := by
          simp [List.filter, isAck]
        rw [e1]
        show run (step s (Action.ack q)) acts = _
        rw [h.again]
        exact ih h
      · have e1 : (Action.ack q :: acts).filter (fun a => !isAck p a) =
            Action.ack q :: acts.filter (fun a => !isAck p a) := by
          simp [List.filter, isAck, e]
        rw [e1]
        exact ih (h.keep _)
    | _ => exact ih (h.keep _)

/-- C3: when a delivered copy `p` has been acked once, every further call of its `Ack`, at any
later point of any schedule, changes nothing: the schedule ends in the same state as the
schedule without these calls (so they do not panic either), and calling `Ack` `n + 1` times in
a row is the same as calling it once. -/
theorem C3_ack_idempotent (s : State T) (p : Nat) (ha : s.ackable = true)
    (hp : p < s.nCopies) (hd : s.delivered p = true) :
    (∀ acts : List (Action T),
      run (step s (Action.ack p)) acts =
        run (step s (Action.ack p)) (acts.filter (fun a => !isAck p a))) ∧
    ∀ n, run s (List.replicate (n + 1) (Action.ack p)) = step s (Action.ack p) := by
  have h := Acked.first ha hp hd
  refine ⟨fun acts => h.filter acts, fun n => ?_⟩
  show run (step s (Action.ack p)) (List.replicate n (Action.ack p)) = _
  rw [h.filter]
  have : (List.replicate n (Action.ack p : Action T)).filter (fun a => !isAck p a) = [] := by
    rw [List.filter_eq_nil_iff]
    intro a ha
    rw [List.eq_of_mem_replicate ha]
    simp [isAck]
  rw [this]
  rfl

/-- Witness of C3: after `Send` of the test schedule has returned, the first subscriber acks
its copy; two more calls of its `Ack`, interleaved with the `Ack` of the other subscriber, lead
to the state reached without them, in which the original `Ack` has been invoked once. -/
theorem C3_ack_idempotent_witness :
    run (step (run (NewAckableGroup : State Nat) ((ackOnceSchedule 7).take 13)) (Action.ack 0))
      [Action.ack 0, Action.ack 1, Action.ack 0, Action.ackWait 0] =
    run (step (run (NewAckableGroup : State Nat) ((ackOnceSchedule 7).take 13)) (Action.ack 0))
      [Action.ack 1, Action.ackWait 0] ∧
    (run (step (run (NewAckableGroup : State Nat) ((ackOnceSchedule 7).take 13)) (Action.ack 0))
      [Action.ack 1, Action.ackWait 0]).acks 0 = 1 :=
  ⟨(C3_ack_idempotent (run (NewAckableGroup : State Nat) ((ackOnceSchedule 7).take 13)) 0
      (by decide!) (by decide!) (by decide!)).1
      [Action.ack 0, Action.ack 1, Action.ack 0, Action.ackWait 0],
    by decide!⟩

/-- The elements of the registry are the channels at the addresses of its nodes. -/
theorem ForEach_eq_nodes {s : State T} (h : Inv s) : s.channels.ForEach = s.channels.nodes := by
  unfold list.ForEach
  conv_rhs => rw [← List.map_id s.channels.nodes]
  apply List.map_congr_left
  intro n hn
  exact h.a.elem n (h.a.wf.lt n hn)

/-- What a call has fixed when it took the read lock. -/
structure SameCall (s0 s : State T) (k : Nat) : Prop where
  lt : k < s.nCalls
  pc : s.pc k ≠ SendPc.rlock
  snapshot : s.snapshot k = s0.snapshot k
  value : s.value k = s0.value k

theorem SameCall.stmt_same {s0 s s' : State T} {k : Nat} (h : SameCall s0 s k) (hs : Step s s') :
    SameCall s0 s' k := by
  obtain ⟨hk, hpc, h1, h2⟩ := h
  have hne : k ≠ s.nCalls := Nat.ne_of_lt hk
  cases hs <;> first
    | exact ⟨hk, hpc, h1, h2⟩
    | skip
  case callSend v async =>
    refine ⟨Nat.lt_succ_of_lt hk, ?_, ?_, ?_⟩
    · show Function.update s.pc s.nCalls SendPc.rlock k ≠ _
      rw [Function.update_noteq hne]; exact hpc
    · show Function.update s.snapshot s.nCalls [] k = _
      rw [Function.update_noteq hne]; exact h1
    · show Function.update s.value s.nCalls v k = _
      rw [Function.update_noteq hne]; exact h2
  case sendRlock k0 _ hpc0 =>
    have e : k ≠ k0 := fun e => hpc (e ▸ hpc0)
    refine ⟨hk, ?_, ?_, h2⟩
    · show Function.update s.pc k0 _ k ≠ _
      rw [Function.update_noteq e]; exact hpc
    · show Function.update s.snapshot k0 _ k = _
      rw [Function.update_noteq e]; exact h1
  case sendHandoff k0 n _ _ _ =>
    refine ⟨hk, ?_, h1, h2⟩
    show Function.update s.pc k0 _ k ≠ _
    by_cases e : k = k0
    · rw [e, Function.update_same]; exact fun x => nomatch x
    · rw [Function.update_noteq e]; exact hpc
  case sendDefault k0 n _ _ _ =>
    refine ⟨hk, ?_, h1, h2⟩
    show Function.update s.pc k0 _ k ≠ _
    by_cases e : k = k0
    · rw [e, Function.update_same]; exact fun x => nomatch x
    · rw [Function.update_noteq e]; exact hpc
  case sendRunlock k0 _ _ =>
    refine ⟨hk, ?_, h1, h2⟩
    show Function.update s.pc k0 _ k ≠ _
    by_cases e : k = k0
    · rw [e, Function.update_same]; split_ifs <;> exact fun x => nomatch x
    · rw [Function.update_noteq e]; exact hpc
  case sendReturn k0 _ _ _ =>
    refine ⟨hk, ?_, h1, h2⟩
    show Function.update s.pc k0 _ k ≠ _
    by_cases e : k = k0
    · rw [e, Function.update_same]; exact fun x => nomatch x
    · rw [Function.update_noteq e]; exact hpc

theorem SameCall.act_same {s0 s : State T} {k : Nat} (h : SameCall s0 s k) (a : Action T) :
    SameCall s0 (step s a) k := by
  unfold step
  split_ifs
  · rcases perform_cases s a with e | ⟨x, _, e⟩ | hs
    · rw [e]; exact h
    · rw [e]; exact ⟨h.lt, h.pc, h.snapshot, h.value⟩
    · exact h.stmt_same hs
  · exact h

theorem SameCall.later_same {s0 s : State T} {k : Nat} (h : SameCall s0 s k)
    (acts : List (Action T)) : SameCall s0 (run s acts) k := by
  induction acts generalizing s with
  | nil => exact h
  | cons a acts ih => exact ih (h.act_same a)

/-- A call of `Send` or `SendAsync` that is at the start of `ForEach` takes the read lock. -/
theorem step_send_rlock {s : State T} (hp0 : s.panic = none) {k : Nat} (hk : k < s.nCalls)
    (hpc : s.pc k = SendPc.rlock) (recv : Bool) :
    step s (Action.send k recv) = Send_rlock s k := by
  unfold step
  rw [if_pos hp0]
  show Send_step s k recv = _
  unfold Send_step
  rw [if_pos hk, hpc]

/-- The channels for which a call has built a copy are among those of its snapshot. -/
theorem attempts_sub {s : State T} (h : Inv s) {k : Nat} (hk : k < s.nCalls) (c : Nat)
    (hc : c ∈ attempts s k) : c ∈ s.snapshot k := by
  cases hpc : s.pc k with
  | rlock => rw [h.b.sendPre k hk hpc] at hc; exact absurd hc (List.not_mem_nil c)
  | forEach cur =>
    obtain ⟨rest, _, h1, h2⟩ := h.b.sendCur k hk cur hpc
    rw [h2, ← h1]
    exact List.mem_append_left _ hc
  | wait => rw [← h.b.sendPost k hk (by rw [hpc]; rfl)]; exact hc
  | returned => rw [← h.b.sendPost k hk (by rw [hpc]; rfl)]; exact hc

theorem copy_attempt {s : State T} {k p : Nat} (hp : p < s.nCopies) (hc : s.cpCall p = k) :
    s.cpChan p ∈ attempts s k := by
  unfold attempts
  rw [mem_gather]
  exact ⟨p, hp, by unfold target; rw [if_pos hc]⟩

/-- Schedule in which a first channel is acquired and released, a second one is acquired,
`Send(v)` is called and takes the read lock. -/
def sendSchedule (v : T) : List (Action T) :=
  [Action.acquire, Action.acquireReturn 0, Action.callRelease 0, Action.release 0,
   Action.release 0, Action.release 0, Action.release 0, Action.release 0,
   Action.acquire, Action.acquireReturn 1, Action.callSend v]

/-- C4: let call `k` of `Send` or `SendAsync` take the read lock of the registry in the
reachable state `s0`.  The registry then holds, once each, the channels that have been acquired
and whose release has not started, none whose release has returned, and none that is acquired
later.  In every state `s` reached afterwards, each copy built by the call is for a channel of
that registry and carries the value of the call, a subscriber receives a copy of the call only
on such a channel, no channel gets two copies, and when the traversal is over the channels for
which the call built a copy and attempted the handoff are exactly those of that registry, in
order. -/
theorem C4_send_targets_registered [Inhabited T] (ackable : Bool) (s0 : State T)
    (hr : Reachable ackable s0) (k : Nat) (hk : k < s0.nCalls) (hpc : s0.pc k = SendPc.rlock)
    (hp0 : s0.panic = none) (recv : Bool) (acts : List (Action T)) :
    (s0.channels.ForEach).Nodup ∧
    (∀ c, c < s0.channels.size → s0.once c = Once.fresh → c ∈ s0.channels.ForEach) ∧
    (∀ c, c < s0.channels.size → s0.once c = Once.done → c ∉ s0.channels.ForEach) ∧
    (∀ c, s0.channels.size ≤ c → c ∉ s0.channels.ForEach) ∧
    (∀ p, p < (run (step s0 (Action.send k recv)) acts).nCopies →
      (run (step s0 (Action.send k recv)) acts).cpCall p = k →
      (run (step s0 (Action.send k recv)) acts).cpChan p ∈ s0.channels.ForEach ∧
      (run (step s0 (Action.send k recv)) acts).cpValue p = s0.value k) ∧
    (∀ c, c < (run (step s0 (Action.send k recv)) acts).channels.size →
      ∀ p, p ∈ (run (step s0 (Action.send k recv)) acts).recvd c →
      (run (step s0 (Action.send k recv)) acts).cpCall p = k →
      c ∈ s0.channels.ForEach ∧
      (run (step s0 (Action.send k recv)) acts).cpValue p = s0.value k) ∧
    (attempts (run (step s0 (Action.send k recv)) acts) k).Nodup ∧
    (((run (step s0 (Action.send k recv)) acts).pc k).past = true →
      attempts (run (step s0 (Action.send k recv)) acts) k = s0.channels.ForEach) := by
  have h0 := hr.inv
  have e0 := ForEach_eq_nodes h0
  have hr1 : Reachable ackable (run (step s0 (Action.send k recv)) acts) :=
    (hr.later [Action.send k recv]).later acts
  have h := hr1.inv
  have hsame : SameCall (Send_rlock s0 k) (run (step s0 (Action.send k recv)) acts) k := by
    rw [step_send_rlock hp0 hk hpc]
    have hbase : SameCall (Send_rlock s0 k) (Send_rlock s0 k) k := by
      refine ⟨hk, ?_, rfl, rfl⟩
      show Function.update s0.pc k _ k ≠ _
      rw [Function.update_same]; exact fun x => nomatch x
    exact hbase.later_same acts
  have hsnap : (run (step s0 (Action.send k recv)) acts).snapshot k = s0.channels.ForEach := by
    rw [hsame.snapshot, e0]
    show Function.update s0.snapshot k _ k = _
    rw [Function.update_same]
  have hval : (run (step s0 (Action.send k recv)) acts).value k = s0.value k := hsame.value
  have hk1 := hsame.lt
  generalize run (step s0 (Action.send k recv)) acts = s at h hsnap hval hk1 ⊢
  have hcopy : ∀ p, p < s.nCopies → s.cpCall p = k →
      s.cpChan p ∈ s0.channels.ForEach ∧ s.cpValue p = s0.value k := by
    intro p hp hc
    refine ⟨?_, ?_⟩
    · rw [← hsnap]; exact attempts_sub h hk1 _ (copy_attempt hp hc)
    · rw [h.c.val p hp, hc, hval]
  have hnd : (s.snapshot k).Nodup := (h.b.snap k hk1).1
  refine ⟨?_, ?_, ?_, ?_, hcopy, ?_, ?_, ?_⟩
  · rw [e0]; exact h0.a.wf.nodup
  · intro c hc ho
    rw [e0]; exact (h0.e.fresh c hc ho).2.2
  · intro c hc ho
    rw [e0]; exact (h0.e.done c hc ho).2.2.1
  · intro c hc hm
    rw [e0] at hm
    exact absurd (h0.a.wf.lt c hm) (Nat.not_lt.mpr hc)
  · intro c hc p hp hcall
    obtain ⟨h1, h2, _⟩ := h.c.recvd c hc p hp
    rw [← h2]
    exact hcopy p h1 hcall
  · cases hpc1 : s.pc k with
    | rlock => rw [h.b.sendPre k hk1 hpc1]; exact List.nodup_nil
    | forEach cur =>
      obtain ⟨rest, _, h1, h2⟩ := h.b.sendCur k hk1 cur hpc1
      rw [h2, ← h1] at hnd
      exact (List.nodup_append.mp hnd).1
    | wait => rw [h.b.sendPost k hk1 (by rw [hpc1]; rfl)]; exact hnd
    | returned => rw [h.b.sendPost k hk1 (by rw [hpc1]; rfl)]; exact hnd
  · intro hpast
    rw [h.b.sendPost k hk1 hpast, hsnap]

/-- Witness of C4: the call takes the lock when channel 0 is released and channel 1 is
registered; channel 2 is acquired after the traversal; the call attempts the handoff to
channel 1 only, and the subscriber of channel 1 receives the value of the call. -/
theorem C4_send_targets_registered_witness :
    (run (NewGroup : State Nat) (sendSchedule 7)).channels.ForEach = [1] ∧
    attempts (run (step (run (NewGroup : State Nat) (sendSchedule 7)) (Action.send 0 true))
      [Action.send 0 true, Action.send 0 true, Action.acquire, Action.acquireReturn 2,
        Action.send 0 true]) 0 = (run (NewGroup : State Nat) (sendSchedule 7)).channels.ForEach ∧
    (run (step (run (NewGroup : State Nat) (sendSchedule 7)) (Action.send 0 true))
      [Action.send 0 true, Action.send 0 true, Action.acquire, Action.acquireReturn 2,
        Action.send 0 true]).recvd 1 = [0] ∧
    (run (step (run (NewGroup : State Nat) (sendSchedule 7)) (Action.send 0 true))
      [Action.send 0 true, Action.send 0 true, Action.acquire, Action.acquireReturn 2,
        Action.send 0 true]).cpValue 0 = 7 ∧
    (run (step (run (NewGroup : State Nat) (sendSchedule 7)) (Action.send 0 true))
      [Action.send 0 true, Action.send 0 true, Action.acquire, Action.acquireReturn 2,
        Action.send 0 true]).channels.ForEach = [1, 2] :=
  ⟨by decide!,
    (C4_send_targets_registered false (run (NewGroup : State Nat) (sendSchedule 7))
      ⟨sendSchedule 7, rfl⟩ 0 (by decide!) (by decide!) (by decide!) true
      [Action.send 0 true, Action.send 0 true, Action.acquire, Action.acquireReturn 2,
        Action.send 0 true]).2.2.2.2.2.2.2 (by decide!),
    by decide!, by decide!, by decide!⟩

/-- In a list ordered by `R`, of two distinct members the one that `R` does not allow after the
other comes first. -/
theorem pair_order {α : Type} {R : α → α → Prop} {l : List α} (hl : l.Pairwise R) {x y : α}
    (hx : x ∈ l) (hy : y ∈ l) (hne : x ≠ y) (hR : ¬ R y x) : List.Sublist [x, y] l := by
  induction l with
  | nil => exact absurd hx (List.not_mem_nil x)
  | cons a t ih =>
    rw [List.pairwise_cons] at hl
    rcases List.mem_cons.mp hx with ex | hxt
    · subst ex
      rcases List.mem_cons.mp hy with ey | hyt
      · exact absurd ey.symm hne
      · exact List.Sublist.cons₂ _ (List.singleton_sublist.mpr hyt)
    · rcases List.mem_cons.mp hy with ey | hyt
      · subst ey
        exact absurd (hl.1 x hxt) hR
      · exact List.Sublist.cons _ (ih hl.2 hxt hyt)

/-- No statement changes the history variable `before` of a call that has been made. -/
theorem before_stmt {s s' : State T} {b : Nat} (hb : b < s.nCalls) (hs : Step s s') :
    b < s'.nCalls ∧ s'.before b = s.before b := by
  cases hs <;> first
    | exact ⟨hb, rfl⟩
    | skip
  case callSend v async =>
    refine ⟨Nat.lt_succ_of_lt hb, ?_⟩
    show Function.update s.before s.nCalls _ b = _
    rw [Function.update_noteq (Nat.ne_of_lt hb)]

theorem before_act {s : State T} {b : Nat} (hb : b < s.nCalls) (a : Action T) :
    b < (step s a).nCalls ∧ (step s a).before b = s.before b := by
  unfold step
  split_ifs
  · rcases perform_cases s a with e | ⟨x, _, e⟩ | hs
    · rw [e]; exact ⟨hb, rfl⟩
    · rw [e]; exact ⟨hb, rfl⟩
    · exact before_stmt hb hs
  · exact ⟨hb, rfl⟩

theorem before_run {s : State T} {b : Nat} (hb : b < s.nCalls) (acts : List (Action T)) :
    b < (run s acts).nCalls ∧ (run s acts).before b = s.before b := by
  induction acts generalizing s with
  | nil => exact ⟨hb, rfl⟩
  | cons a acts ih =>
    have h1 := before_act hb a
    have h2 := ih h1.1
    exact ⟨h2.1, h2.2.trans h1.2⟩

/-- Schedule in which a subscriber acquires a channel and `Send(v)` delivers through a helper
goroutine and returns. -/
def firstSendSchedule (v : T) : List (Action T) :=
  [Action.acquire, Action.acquireReturn 0, Action.callSend v, Action.send 0 false,
   Action.send 0 false, Action.send 0 false, Action.helperSend 0, Action.helperDefer 0,
   Action.helperDefer 0, Action.send 0 false]

/-- C5: let call `a` of `Send` have returned in the reachable state `s0`, and let `Send(v)` be
called then: it is call `b = s0.nCalls`.  In every state reached afterwards, a subscriber that
has received a copy `pa` of call `a` and a copy `pb` of call `b` on its channel `c` has
received `pa` before `pb`. -/
theorem C5_sequential_sends_in_order [Inhabited T] (ackable : Bool) (s0 : State T)
    (hr : Reachable ackable s0) (hp0 : s0.panic = none) (a : Nat) (ha : a < s0.nCalls)
    (hret : s0.pc a = SendPc.returned) (hsync : s0.async a = false) (v : T)
    (acts : List (Action T)) (c : Nat)
    (hc : c < (run (step s0 (Action.callSend v)) acts).channels.size) (pa pb : Nat)
    (hpa : pa ∈ (run (step s0 (Action.callSend v)) acts).recvd c)
    (hpb : pb ∈ (run (step s0 (Action.callSend v)) acts).recvd c)
    (hca : (run (step s0 (Action.callSend v)) acts).cpCall pa = a)
    (hcb : (run (step s0 (Action.callSend v)) acts).cpCall pb = s0.nCalls) :
    List.Sublist [pa, pb] ((run (step s0 (Action.callSend v)) acts).recvd c) := by
  have hr1 : Reachable ackable (run (step s0 (Action.callSend v)) acts) :=
    (hr.later [Action.callSend v]).later acts
  have h := hr1.inv
  have e1 : step s0 (Action.callSend v) = callSend s0 v false := by
    unfold step
    rw [if_pos hp0]
    rfl
  have hb : (run (step s0 (Action.callSend v)) acts).before s0.nCalls =
      (List.range s0.nCalls).filter
        (fun k => s0.pc k = SendPc.returned ∧ s0.async k = false) := by
    rw [e1]
    have h1 := before_run (s := callSend s0 v false) (b := s0.nCalls)
      (Nat.lt_succ_self _) acts
    rw [h1.2]
    show Function.update s0.before s0.nCalls _ s0.nCalls = _
    rw [Function.update_same]
  have hmem : a ∈ (run (step s0 (Action.callSend v)) acts).before s0.nCalls := by
    rw [hb, List.mem_filter]
    exact ⟨List.mem_range.mpr ha, by simp [hret, hsync]⟩
  generalize run (step s0 (Action.callSend v)) acts = s at h hc hpa hpb hca hcb hmem ⊢
  have hne : pa ≠ pb := by
    intro e
    rw [e, hcb] at hca
    exact absurd hca (Nat.ne_of_gt ha)
  refine pair_order (h.h.fifo c hc) hpa hpb hne ?_
  rw [hca, hcb]
  exact fun hx => hx hmem

/-- Witness of C5: the first `Send` delivers copy 0 through a helper goroutine and returns; the
second `Send` hands copy 1 over inside its traversal; the subscriber has received copy 0 and
then copy 1. -/
theorem C5_sequential_sends_in_order_witness :
    List.Sublist [0, 1]
      ((run (step (run (NewGroup : State Nat) (firstSendSchedule 7)) (Action.callSend 8))
        [Action.send 1 true, Action.send 1 true, Action.send 1 true,
          Action.send 1 true]).recvd 0) ∧
    (run (step (run (NewGroup : State Nat) (firstSendSchedule 7)) (Action.callSend 8))
      [Action.send 1 true, Action.send 1 true, Action.send 1 true,
        Action.send 1 true]).cpValue 0 = 7 ∧
    (run (step (run (NewGroup : State Nat) (firstSendSchedule 7)) (Action.callSend 8))
      [Action.send 1 true, Action.send 1 true, Action.send 1 true,
        Action.send 1 true]).cpValue 1 = 8 :=
  ⟨C5_sequential_sends_in_order false (run (NewGroup : State Nat) (firstSendSchedule 7))
      ⟨firstSendSchedule 7, rfl⟩ (by decide!) 0 (by decide!) (by decide!) (by decide!) 8
      [Action.send 1 true, Action.send 1 true, Action.send 1 true, Action.send 1 true]
      0 (by decide!) 0 1 (by decide!) (by decide!) (by decide!) (by decide!),
    by decide!, by decide!⟩

/-- C6: in a reachable state in which call `k` of `Send` has returned, the call has built a
copy for every channel that was registered when it took the lock, and every copy of the call
has been received by the subscriber or its channel has been released (`done` is closed and the
entry is out of the registry), and the helper goroutines of the call have finished.  And a
call at `wg.Wait()` whose helpers have all finished returns at its next step, whatever the
state of the acknowledgments, which it leaves unchanged. -/
theorem C6_send_returns_after_handoff [Inhabited T] (ackable : Bool) (s : State T)
    (hr : Reachable ackable s) (k : Nat) (hk : k < s.nCalls) (hsync : s.async k = false) :
    (s.pc k = SendPc.returned →
      attempts s k = s.snapshot k ∧
      (∀ c, c ∈ s.snapshot k → ∃ p, p < s.nCopies ∧ s.cpCall p = k ∧ s.cpChan p = c) ∧
      ∀ p, p < s.nCopies → s.cpCall p = k →
        (s.helper p).holdsWg = false ∧
        (s.delivered p = true ∨
          (s.abandoned p = true ∧ s.doneClosed (s.cpChan p) = true ∧
            s.cpChan p ∉ s.channels.ForEach))) ∧
    (s.pc k = SendPc.wait → s.panic = none →
      (∀ p, p < s.nCopies → s.cpCall p = k → (s.helper p).holdsWg = false) →
      ∀ recv, (step s (Action.send k recv)).pc k = SendPc.returned ∧
        (step s (Action.send k recv)).ack = s.ack ∧
        (step s (Action.send k recv)).acks = s.acks ∧
        (step s (Action.send k recv)).cpOnce = s.cpOnce) := by
  have h := hr.inv
  refine ⟨fun hret => ?_, fun hw hp0 hall recv => ?_⟩
  · have hpost := h.b.sendPost k hk (by rw [hret]; rfl)
    refine ⟨hpost, ?_, ?_⟩
    · intro c hc
      rw [← hpost] at hc
      unfold attempts at hc
      rw [mem_gather] at hc
      obtain ⟨p, hp, ht⟩ := hc
      unfold target at ht
      split_ifs at ht with e
      exact ⟨p, hp, e, Option.some.inj ht⟩
    · intro p hp hc
      have hq := h.h.quiet k hk hret hsync p hp hc
      refine ⟨hq, ?_⟩
      have hns : s.helper p ≠ HelperPc.select := by
        intro e
        rw [e] at hq
        exact absurd hq (by decide)
      rcases h.c.settled p hp hns with hd | hab
      · exact Or.inl hd
      · have hdone := h.c.abDone p hp hab
        refine Or.inr ⟨hab, hdone, ?_⟩
        rw [ForEach_eq_nodes h]
        exact (h.e.doneClosed _ (h.b.copyChan p hp) hdone).1
  · have hz : s.wg k = 0 := by
      rw [h.d.wg k hk, if_neg (by rw [hsync]; exact Bool.false_ne_true)]
      have : cnt (fun q => inWg s.cpCall k q (s.helper q)) s.nCopies = 0 := by
        apply cnt_none
        intro q hq
        by_cases e : s.cpCall q = k
        · simp [inWg, hall q hq e]
        · simp [inWg, e]
      rw [this]; rfl
    have e1 : step s (Action.send k recv) = Send_return s k := by
      unfold step
      rw [if_pos hp0]
      show Send_step s k recv = _
      unfold Send_step
      rw [if_pos hk, hw]
      show (if s.wg k = 0 then Send_return s k else s) = _
      rw [if_pos hz]
    rw [e1]
    exact ⟨Function.update_same _ _ _, rfl, rfl, rfl⟩

/-- Witness of C6: in the schedule of the test, `Send` has returned after its two copies were
received, while no copy has been acked and the original `Ack` has not been invoked. -/
theorem C6_send_returns_after_handoff_witness :
    (run (NewAckableGroup : State Nat) ((ackOnceSchedule 7).take 13)).pc 0 = SendPc.returned ∧
    attempts (run (NewAckableGroup : State Nat) ((ackOnceSchedule 7).take 13)) 0 =
      (run (NewAckableGroup : State Nat) ((ackOnceSchedule 7).take 13)).snapshot 0 ∧
    (run (NewAckableGroup : State Nat) ((ackOnceSchedule 7).take 13)).snapshot 0 = [0, 1] ∧
    (run (NewAckableGroup : State Nat) ((ackOnceSchedule 7).take 13)).ack 0 = 2 ∧
    (run (NewAckableGroup : State Nat) ((ackOnceSchedule 7).take 13)).acks 0 = 0 :=
  ⟨by decide!,
    ((C6_send_returns_after_handoff true
      (run (NewAckableGroup : State Nat) ((ackOnceSchedule 7).take 13))
      ⟨(ackOnceSchedule 7).take 13, rfl⟩ 0 (by decide!) (by decide!)).1 (by decide!)).1,
    by decide!, by decide!, by decide!⟩

/-- No statement raises the counter `send` of a channel whose entry is out of the registry. -/
theorem send_unlinked_stmt {s s' : State T} (h : Inv s) (hs : Step s s') {c : Nat}
    (hc : c < s.channels.size) (hn : c ∉ s.channels.nodes) : s'.send c ≤ s.send c := by
  cases hs <;> first
    | exact le_refl _
    | skip
  case acquire _ =>
    show Function.update s.send s.channels.size 0 c ≤ _
    rw [Function.update_noteq (Nat.ne_of_lt hc)]
  case sendDefault k n hk hpc _ =>
    obtain ⟨hm, _, he⟩ := cursor_mem h hk hpc
    show Function.update s.send (s.elem n) _ c ≤ _
    have e : c ≠ n := fun e => hn (by rw [e]; exact hm)
    rw [he, Function.update_noteq e]
  case helperChDone p _ _ _ =>
    show Function.update s.send (s.cpChan p) _ c ≤ _
    by_cases e : c = s.cpChan p
    · rw [e, Function.update_same]; omega
    · rw [Function.update_noteq e]

theorem send_unlinked {s : State T} (h : Inv s) (a : Action T) {c : Nat}
    (hc : c < s.channels.size) (hn : c ∉ s.channels.nodes) : (step s a).send c ≤ s.send c := by
  unfold step
  split_ifs
  · rcases perform_cases s a with e | ⟨x, _, e⟩ | hs
    · rw [e]
    · rw [e]; exact le_refl _
    · exact send_unlinked_stmt h hs hc hn
  · exact le_refl _

/-- C7: in every reachable state, no send on a closed channel has happened; the channel that a
traversal is about to write to and the channel of every helper blocked in its `select` are
open; a closed channel has `done` closed, its entry out of the registry and its in-flight
counter at zero; the goroutine about to run `close(ch)` has removed the entry, closed `done`
and found the counter at zero; a channel with `done` closed is out of the registry; and no step
raises the in-flight counter of a channel whose entry is out of the registry. -/
theorem C7_no_send_on_closed [Inhabited T] (ackable : Bool) (s : State T)
    (hr : Reachable ackable s) :
    s.panic ≠ some Panic.sendOnClosed ∧
    (∀ k n, k < s.nCalls → s.pc k = SendPc.forEach (some n) →
      s.chClosed (s.elem n) = false) ∧
    (∀ p, p < s.nCopies → s.helper p = HelperPc.select → s.chClosed (s.cpChan p) = false) ∧
    (∀ c, c < s.channels.size → s.chClosed c = true →
      s.doneClosed c = true ∧ c ∉ s.channels.ForEach ∧ s.send c = 0) ∧
    (∀ r n, r < s.nRels → s.rpc r = RelPc.closeCh n →
      n ∉ s.channels.ForEach ∧ s.doneClosed n = true ∧ s.send n = 0) ∧
    (∀ c, c < s.channels.size → s.doneClosed c = true → c ∉ s.channels.ForEach) ∧
    (∀ c a, c < s.channels.size → c ∉ s.channels.ForEach →
      (step s a).send c ≤ s.send c) := by
  have h := hr.inv
  rw [ForEach_eq_nodes h]
  refine ⟨?_, ?_, ?_, ?_, ?_, ?_, ?_⟩
  · rcases hr.safe with e | e <;> rw [e] <;> simp
  · intro k n hk hpc
    obtain ⟨hm, hl, he⟩ := cursor_mem h hk hpc
    rw [he]
    cases hc : s.chClosed n with
    | false => rfl
    | true => exact absurd hm (h.e.done n hl (h.e.chClosed n hl hc)).2.2.1
  · intro p hp hh
    cases hc : s.chClosed (s.cpChan p) with
    | false => rfl
    | true =>
      have hl := h.b.copyChan p hp
      have h0 := (h.e.done _ hl (h.e.chClosed _ hl hc)).2.2.2
      have := send_pos h hp (by rw [hh]; rfl)
      omega
  · intro c hc hcl
    have h1 := h.e.done c hc (h.e.chClosed c hc hcl)
    exact ⟨h1.1, h1.2.2.1, h1.2.2.2⟩
  · intro r n hr0 hpc
    have h1 := h.e.atCloseCh r hr0 n hpc
    exact ⟨h1.1, h1.2.1, h1.2.2.2⟩
  · intro c hc hd
    exact (h.e.doneClosed c hc hd).1
  · intro c a hc hn
    exact send_unlinked h a hc hn

/-- Witness of C7: the helper of the only copy is blocked in its `select` while the channel is
released; the releasing goroutine waits at `send.Wait()` with the channel open, and closes it
only after the helper has taken `case <-ch.done` and run `send.Done()`; nothing panics. -/
theorem C7_no_send_on_closed_witness :
    (run (NewAckableGroup : State Nat) (abandonSchedule 7)).panic ≠ some Panic.sendOnClosed ∧
    (run (NewAckableGroup : State Nat) (abandonSchedule 7)).helper 0 = HelperPc.select ∧
    (run (NewAckableGroup : State Nat) (abandonSchedule 7)).chClosed 0 = false ∧
    (run (NewAckableGroup : State Nat) (abandonSchedule 7 ++ [Action.release 0])).rpc 0
      = RelPc.wait 0 ∧
    (run (NewAckableGroup : State Nat) (abandonSchedule 7 ++
      [Action.helperDone 0, Action.helperDefer 0, Action.release 0, Action.release 0])).chClosed 0
      = true ∧
    (run (NewAckableGroup : State Nat) (abandonSchedule 7 ++
      [Action.helperDone 0, Action.helperDefer 0, Action.release 0, Action.release 0])).panic
      = none :=
  ⟨(C7_no_send_on_closed true (run (NewAckableGroup : State Nat) (abandonSchedule 7))
      ⟨abandonSchedule 7, rfl⟩).1,
    by decide!, by decide!, by decide!, by decide!, by decide!⟩

/-- The release of channel `c` has returned, and no copy with index `m` or more is for it. -/
structure Released (s : State T) (c m : Nat) : Prop where
  lt : c < s.channels.size
  once : s.once c = Once.done
  copies : ∀ p, m ≤ p → p < s.nCopies → s.cpChan p ≠ c

theorem Released.stmt_rel {s s' : State T} {c m : Nat} (h : Inv s) (hd : Released s c m)
    (hs : Step s s') : Released s' c m := by
  obtain ⟨hc, ho, hcp⟩ := hd
  have hout : c ∉ s.channels.nodes := (h.e.done c hc ho).2.2.1
  cases hs <;> first
    | exact ⟨hc, ho, hcp⟩
    | skip
  case acquire _ =>
    refine ⟨?_, ?_, hcp⟩
    · rw [Acquire_channels, Insert_size]; exact Nat.lt_succ_of_lt hc
    · show Function.update s.once s.channels.size Once.fresh c = _
      rw [Function.update_noteq (Nat.ne_of_lt hc)]; exact ho
  case sendHandoff k n hk hpc _ =>
    obtain ⟨hm, _, he⟩ := cursor_mem h hk hpc
    refine ⟨hc, ho, ?_⟩
    intro p hmp hp
    show Function.update s.cpChan s.nCopies (s.elem n) p ≠ c
    by_cases e : p = s.nCopies
    · rw [e, Function.update_same, he]
      exact fun e1 => hout (by rw [← e1]; exact hm)
    · rw [Function.update_noteq e]
      exact hcp p hmp (lt_of_le_of_ne (Nat.lt_succ_iff.mp hp) e)
  case sendDefault k n hk hpc _ =>
    obtain ⟨hm, _, he⟩ := cursor_mem h hk hpc
    refine ⟨hc, ho, ?_⟩
    intro p hmp hp
    show Function.update s.cpChan s.nCopies (s.elem n) p ≠ c
    by_cases e : p = s.nCopies
    · rw [e, Function.update_same, he]
      exact fun e1 => hout (by rw [← e1]; exact hm)
    · rw [Function.update_noteq e]
      exact hcp p hmp (lt_of_le_of_ne (Nat.lt_succ_iff.mp hp) e)
  case relEnter r c0 n _ _ _ _ hfresh =>
    refine ⟨hc, ?_, hcp⟩
    show Function.update s.once n Once.running c = _
    have e : c ≠ n := by
      intro e
      rw [e, hfresh] at ho
      exact absurd ho (by decide)
    rw [Function.update_noteq e]; exact ho
  case relCloseCh r n _ _ _ =>
    refine ⟨hc, ?_, hcp⟩
    show Function.update s.once n Once.done c = _
    by_cases e : c = n
    · rw [e, Function.update_same]
    · rw [Function.update_noteq e]; exact ho

theorem Released.act_rel {s : State T} {c m : Nat} (h : Inv s) (hd : Released s c m)
    (a : Action T) : Released (step s a) c m := by
  unfold step
  split_ifs
  · rcases perform_cases s a with e | ⟨x, _, e⟩ | hs
    · rw [e]; exact hd
    · rw [e]; exact ⟨hd.lt, hd.once, hd.copies⟩
    · exact hd.stmt_rel h hs
  · exact hd

theorem Released.later_rel {s : State T} {c m : Nat} (h : Inv s) (hd : Released s c m)
    (acts : List (Action T)) : Released (run s acts) c m := by
  induction acts generalizing s with
  | nil => exact hd
  | cons a acts ih => exact ih (inv_act h a) (hd.act_rel h a)

/-- Schedule in which a subscriber acquires a channel and calls its `ReleaseFunc`, which runs to
its end. -/
def releaseSchedule : List (Action T) :=
  [Action.acquire, Action.acquireReturn 0, Action.callRelease 0, Action.release 0,
   Action.release 0, Action.release 0, Action.release 0, Action.release 0]

/-- C8: let the call `ch.release()` of releasing goroutine `r` for channel `c` have returned in
the reachable state `s` (the goroutine is past position `i` of its slice `all`, which holds
`c`; a `ReleaseFunc` has returned then).  In `s` and in every state reached afterwards, the
channel and `done` are closed, the entry is not in the registry, and no `Send` or `SendAsync`
builds a copy for the channel any more. -/
theorem C8_release_closes_and_unregisters [Inhabited T] (ackable : Bool) (s : State T)
    (hr : Reachable ackable s) (r i c : Nat) (hr0 : r < s.nRels) (hi : i < s.idx r)
    (hc : (s.all r).get? i = some c) (acts : List (Action T)) :
    (run s acts).chClosed c = true ∧
    (run s acts).doneClosed c = true ∧
    c ∉ (run s acts).channels.ForEach ∧
    (run s acts).once c = Once.done ∧
    ∀ p, s.nCopies ≤ p → p < (run s acts).nCopies → (run s acts).cpChan p ≠ c := by
  have h := hr.inv
  have h1 := h.e.returned r hr0 i hi c hc
  have hrel : Released s c s.nCopies :=
    ⟨h1.2, h1.1, fun p h2 h3 => absurd h3 (Nat.not_lt.mpr h2)⟩
  have h2 := hrel.later_rel h acts
  have h' := (hr.later acts).inv
  have h3 := h'.e.done c h2.lt h2.once
  rw [ForEach_eq_nodes h']
  exact ⟨h3.2.1, h3.1, h3.2.2.1, h2.once, h2.copies⟩

/-- Witness of C8: after the `ReleaseFunc` has returned, a `Send` and a second `Acquire` run;
the released channel stays closed and out of the registry, and gets no copy. -/
theorem C8_release_closes_and_unregisters_witness :
    (run (run (NewGroup : State Nat) releaseSchedule)
      [Action.acquire, Action.acquireReturn 1, Action.callSend 7, Action.send 0 true,
        Action.send 0 true, Action.send 0 true, Action.send 0 true]).chClosed 0 = true ∧
    (run (run (NewGroup : State Nat) releaseSchedule)
      [Action.acquire, Action.acquireReturn 1, Action.callSend 7, Action.send 0 true,
        Action.send 0 true, Action.send 0 true, Action.send 0 true]).channels.ForEach = [1] ∧
    attempts (run (run (NewGroup : State Nat) releaseSchedule)
      [Action.acquire, Action.acquireReturn 1, Action.callSend 7, Action.send 0 true,
        Action.send 0 true, Action.send 0 true, Action.send 0 true]) 0 = [1] :=
  ⟨(C8_release_closes_and_unregisters false (run (NewGroup : State Nat) releaseSchedule)
      ⟨releaseSchedule, rfl⟩ 0 0 0 (by decide!) (by decide!) (by decide!)
      [Action.acquire, Action.acquireReturn 1, Action.callSend 7, Action.send 0 true,
        Action.send 0 true, Action.send 0 true, Action.send 0 true]).1,
    by decide!, by decide!⟩

/-- A step of a releasing goroutine panics only by calling a nil `release`. -/
theorem release_calm {s : State T} (h : Inv s) (r : Nat) :
    (release_step s r).panic = s.panic ∨
      ∃ c, (s.all r).get? (s.idx r) = some c ∧ s.release c = none := by
  unfold release_step
  by_cases hr0 : r < s.nRels
  · rw [if_pos hr0]
    cases hpc : s.rpc r with
    | rlock => exact Or.inl rfl
    | forEach cur =>
      cases cur with
      | none => exact Or.inl rfl
      | some n => exact Or.inl rfl
    | loop =>
      show State.panic (match (s.all r).get? (s.idx r) with
        | none => _ | some c => _) = _ ∨ _
      cases hc : (s.all r).get? (s.idx r) with
      | none => exact Or.inl rfl
      | some c =>
        show State.panic (match s.release c with
          | none => _ | some n => _) = _ ∨ _
        cases hr : s.release c with
        | none => exact Or.inr ⟨c, rfl, hr⟩
        | some n =>
          show State.panic (match s.once n with
            | Once.fresh => _ | Once.running => _ | Once.done => _) = _ ∨ _
          cases ho : s.once n with
          | fresh => exact Or.inl rfl
          | running => exact Or.inl rfl
          | done => exact Or.inl rfl
    | delete n =>
      show State.panic (if _ then _ else _) = _ ∨ _
      split_ifs <;> exact Or.inl rfl
    | closeDone n =>
      show State.panic (if _ then _ else _) = _ ∨ _
      have hb := body_of_pc h hr0 (show (s.rpc r).body = some n by rw [hpc]; rfl)
      rw [hb.2.2.2, (h.e.atCloseDone r hr0 n hpc).2.1, if_neg Bool.false_ne_true]
      exact Or.inl rfl
    | wait n =>
      show State.panic (if _ then _ else _) = _ ∨ _
      split_ifs <;> exact Or.inl rfl
    | closeCh n =>
      show State.panic (if _ then _ else _) = _ ∨ _
      have hb := body_of_pc h hr0 (show (s.rpc r).body = some n by rw [hpc]; rfl)
      rw [hb.2.2.2, (h.e.atCloseCh r hr0 n hpc).2.2.1, if_neg Bool.false_ne_true]
      exact Or.inl rfl
  · rw [if_neg hr0]; exact Or.inl rfl

theorem once_base {x y : Once} (e : y = x) :
    (x = Once.done → y = Once.done) ∧ (x = Once.running → y ≠ Once.fresh) := by
  subst e
  exact ⟨fun e => e, fun e => by rw [e]; exact Once.noConfusion⟩

/-- No statement takes a `sync.Once` back: from done it stays done, from running it does not
become fresh. -/
theorem once_stmt {s s' : State T} (hs : Step s s') {n : Nat} (hn : n < s.channels.size) :
    (s.once n = Once.done → s'.once n = Once.done) ∧
    (s.once n = Once.running → s'.once n ≠ Once.fresh) := by
  cases hs <;> first
    | exact once_base rfl
    | skip
  case acquire _ =>
    exact once_base (Function.update_noteq (Nat.ne_of_lt hn) _ _)
  case relEnter r c n0 _ _ _ _ hfresh =>
    by_cases e : n = n0
    · subst e
      rw [hfresh]
      exact ⟨Once.noConfusion, Once.noConfusion⟩
    · exact once_base (Function.update_noteq e _ _)
  case relCloseCh r n0 _ _ _ =>
    by_cases e : n = n0
    · subst e
      exact ⟨fun _ => Function.update_same _ _ _, fun _ => by
        show Function.update s.once n Once.done n ≠ _
        rw [Function.update_same]; exact Once.noConfusion⟩
    · exact once_base (Function.update_noteq e _ _)

theorem once_act (s : State T) (a : Action T) {n : Nat} (hn : n < s.channels.size) :
    (s.once n = Once.done → (step s a).once n = Once.done) ∧
    (s.once n = Once.running → (step s a).once n ≠ Once.fresh) := by
  unfold step
  split_ifs
  · rcases perform_cases s a with e | ⟨x, _, e⟩ | hs
    · rw [e]; exact once_base rfl
    · rw [e]; exact once_base rfl
    · exact once_stmt hs hn
  · exact once_base rfl

/-- C9: in every reachable state, no close of a closed channel has happened; at most one
goroutine is inside the `once.Do` body of a channel, and the `Once` of that channel is then
running; no step takes an `Once` back, so the body never starts again; when the `Once` is done
the entry is out of the registry and `done` and the channel are closed; a call of `release`
that finds the `Once` done only advances the loop of its caller, one that finds it running
waits, and a call of `release` on a channel whose `Acquire` has returned does not panic. -/
theorem C9_release_idempotent [Inhabited T] (ackable : Bool) (s : State T)
    (hr : Reachable ackable s) :
    s.panic ≠ some Panic.closeOfClosed ∧
    (∀ r r' n, r < s.nRels → r' < s.nRels → (s.rpc r).body = some n →
      (s.rpc r').body = some n → r = r') ∧
    (∀ r n, r < s.nRels → (s.rpc r).body = some n → s.once n = Once.running) ∧
    (∀ a n, n < s.channels.size →
      (s.once n = Once.done → (step s a).once n = Once.done) ∧
      (s.once n = Once.running → (step s a).once n ≠ Once.fresh)) ∧
    (∀ n, n < s.channels.size → s.once n = Once.done →
      s.doneClosed n = true ∧ s.chClosed n = true ∧ n ∉ s.channels.ForEach) ∧
    (∀ r c n, s.panic = none → r < s.nRels → s.rpc r = RelPc.loop →
      (s.all r).get? (s.idx r) = some c → s.release c = some n →
      (s.once n = Once.done → step s (Action.release r) = release_skip s r) ∧
      (s.once n = Once.running → step s (Action.release r) = s)) ∧
    (∀ r, s.panic = none →
      (∀ c, (s.all r).get? (s.idx r) = some c → s.release c ≠ none) →
      (step s (Action.release r)).panic = none) := by
  have h := hr.inv
  rw [ForEach_eq_nodes h]
  refine ⟨?_, ?_, ?_, ?_, ?_, ?_, ?_⟩
  · rcases hr.safe with e | e <;> rw [e] <;> simp
  · intro r r' n h1 h2 h3 h4
    exact h.e.uniq r h1 r' h2 n h3 h4
  · intro r n h1 h2
    exact (h.e.body r h1 n h2).1
  · intro a n hn
    exact once_act s a hn
  · intro n hn ho
    have h1 := h.e.done n hn ho
    exact ⟨h1.1, h1.2.1, h1.2.2.1⟩
  · intro r c n hp0 hr0 hpc hc hrel
    have e1 : step s (Action.release r) =
        (match s.once n with
          | Once.fresh => release_enter s r n
          | Once.running => s
          | Once.done => release_skip s r) := by
      unfold step
      rw [if_pos hp0]
      show release_step s r = _
      unfold release_step
      rw [if_pos hr0, hpc]
      show (match (s.all r).get? (s.idx r) with
        | none => _ | some c => _) = _
      rw [hc]
      show (match s.release c with
        | none => _ | some n => _) = _
      rw [hrel]
    rw [e1]
    refine ⟨fun ho => ?_, fun ho => ?_⟩ <;> rw [ho]
  · intro r hp0 hrel
    unfold step
    rw [if_pos hp0]
    show (release_step s r).panic = none
    rcases release_calm h r with e | ⟨c, hc, hn⟩
    · rw [e]; exact hp0
    · exact absurd hn (hrel c hc)

/-- Witness of C9: the `ReleaseFunc` has run to its end; a second call of it and a call of
`ReleaseAll` follow; the second call only advances its own loop, nothing panics, and the
registry stays empty. -/
theorem C9_release_idempotent_witness :
    step (run (NewGroup : State Nat) (@releaseSchedule Nat ++ [Action.callRelease 0]))
        (Action.release 1) =
      release_skip (run (NewGroup : State Nat) (@releaseSchedule Nat ++ [Action.callRelease 0])) 1 ∧
    (run (NewGroup : State Nat) (@releaseSchedule Nat ++
      [Action.callRelease 0, Action.release 1, Action.release 1, Action.callReleaseAll,
        Action.release 2, Action.release 2, Action.release 2])).panic = none ∧
    (run (NewGroup : State Nat) (@releaseSchedule Nat ++
      [Action.callRelease 0, Action.release 1, Action.release 1, Action.callReleaseAll,
        Action.release 2, Action.release 2, Action.release 2])).channels.ForEach = [] :=
  ⟨((C9_release_idempotent false
      (run (NewGroup : State Nat) (@releaseSchedule Nat ++ [Action.callRelease 0]))
      ⟨@releaseSchedule Nat ++ [Action.callRelease 0], rfl⟩).2.2.2.2.2.1 1 0 0
      (by decide!) (by decide!) (by decide!) (by decide!) (by decide!)).1 (by decide!),
    by decide!, by decide!⟩

/-- What a `ReleaseAll` that took the read lock in state `s0` has fixed and collected. -/
structure Collected (s0 s : State T) (r : Nat) : Prop where
  lt : r < s.nRels
  notPre : s.rpc r ≠ RelPc.rlock
  bound : s.bound r = s0.channels.size
  cur : (s.rpc r).inForEach = true → s.channels.nodes = s0.channels.nodes
  post : (s.rpc r).past = true → ∀ c, c ∈ s0.channels.nodes → c ∈ s.all r

theorem Collected.stmt_col {s0 s s' : State T} {r : Nat} (h : Inv s) (hd : Collected s0 s r)
    (hs : Step s s') : Collected s0 s' r := by
  obtain ⟨hlt, hpre, hb, hcur, hpost⟩ := hd
  have hne : r ≠ s.nRels := Nat.ne_of_lt hlt
  have hfree : s.channels.mu = 0 → (s.rpc r).inForEach = false :=
    fun hm => (noReader h hm).2 r hlt
  cases hs <;> first
    | exact ⟨hlt, hpre, hb, hcur, hpost⟩
    | skip
  case acquire hm =>
    refine ⟨hlt, hpre, hb, fun hx => ?_, hpost⟩
    change (s.rpc r).inForEach = true at hx
    rw [hfree hm] at hx
    exact absurd hx Bool.false_ne_true
  case callRelease c _ =>
    refine ⟨Nat.lt_succ_of_lt hlt, ?_, ?_, ?_, ?_⟩
    · show Function.update s.rpc s.nRels _ r ≠ _
      rw [Function.update_noteq hne]; exact hpre
    · show Function.update s.bound s.nRels _ r = _
      rw [Function.update_noteq hne]; exact hb
    · show (Function.update s.rpc s.nRels _ r).inForEach = true → _
      rw [Function.update_noteq hne]; exact hcur
    · show (Function.update s.rpc s.nRels _ r).past = true →
        ∀ c, c ∈ s0.channels.nodes → c ∈ Function.update s.all s.nRels _ r
      rw [Function.update_noteq hne, Function.update_noteq hne]; exact hpost
  case callReleaseAll =>
    refine ⟨Nat.lt_succ_of_lt hlt, ?_, ?_, ?_, ?_⟩
    · show Function.update s.rpc s.nRels _ r ≠ _
      rw [Function.update_noteq hne]; exact hpre
    · show Function.update s.bound s.nRels _ r = _
      rw [Function.update_noteq hne]; exact hb
    · show (Function.update s.rpc s.nRels _ r).inForEach = true → _
      rw [Function.update_noteq hne]; exact hcur
    · show (Function.update s.rpc s.nRels _ r).past = true →
        ∀ c, c ∈ s0.channels.nodes → c ∈ Function.update s.all s.nRels _ r
      rw [Function.update_noteq hne, Function.update_noteq hne]; exact hpost
  case relRlock r0 _ hpc0 =>
    have e : r ≠ r0 := fun e => hpre (by rw [e]; exact hpc0)
    refine ⟨hlt, ?_, ?_, ?_, ?_⟩
    · show Function.update s.rpc r0 _ r ≠ _
      rw [Function.update_noteq e]; exact hpre
    · show Function.update s.bound r0 _ r = _
      rw [Function.update_noteq e]; exact hb
    · show (Function.update s.rpc r0 _ r).inForEach = true → _
      rw [Function.update_noteq e]; exact hcur
    · show (Function.update s.rpc r0 _ r).past = true → _
      rw [Function.update_noteq e]; exact hpost
  case relCollect r0 n _ hpc0 =>
    by_cases e : r = r0
    · subst e
      refine ⟨hlt, ?_, hb, fun _ => hcur (by rw [hpc0]; rfl), ?_⟩
      · show Function.update s.rpc r _ r ≠ _
        rw [Function.update_same]; exact RelPc.noConfusion
      · show (Function.update s.rpc r _ r).past = true → _
        rw [Function.update_same]
        exact fun hx => absurd hx Bool.false_ne_true
    · refine ⟨hlt, ?_, hb, ?_, ?_⟩
      · show Function.update s.rpc r0 _ r ≠ _
        rw [Function.update_noteq e]; exact hpre
      · show (Function.update s.rpc r0 _ r).inForEach = true → _
        rw [Function.update_noteq e]; exact hcur
      · show (Function.update s.rpc r0 _ r).past = true →
          ∀ c, c ∈ s0.channels.nodes → c ∈ Function.update s.all r0 _ r
        rw [Function.update_noteq e, Function.update_noteq e]; exact hpost
  case relRunlock r0 hr0 hpc0 =>
    by_cases e : r = r0
    · subst e
      refine ⟨hlt, ?_, hb, ?_, ?_⟩
      · show Function.update s.rpc r _ r ≠ _
        rw [Function.update_same]; exact RelPc.noConfusion
      · show (Function.update s.rpc r _ r).inForEach = true → _
        rw [Function.update_same]
        exact fun hx => absurd hx Bool.false_ne_true
      · intro _ c hc
        show c ∈ s.all r
        obtain ⟨rest, h1, h2, _⟩ := h.b.relCur r hr0 none hpc0
        cases rest with
        | nil =>
          rw [List.append_nil] at h2
          rw [h2, hcur (by rw [hpc0]; rfl)]
          exact hc
        | cons a rest => exact absurd h1 (by simp [chainBy])
    · refine ⟨hlt, ?_, hb, ?_, ?_⟩
      · show Function.update s.rpc r0 _ r ≠ _
        rw [Function.update_noteq e]; exact hpre
      · show (Function.update s.rpc r0 _ r).inForEach = true → _
        rw [Function.update_noteq e]; exact hcur
      · show (Function.update s.rpc r0 _ r).past = true → _
        rw [Function.update_noteq e]; exact hpost
  case relEnter r0 c n _ hpc0 _ _ _ =>
    by_cases e : r = r0
    · subst e
      refine ⟨hlt, ?_, hb, ?_, fun _ => hpost (by rw [hpc0]; rfl)⟩
      · show Function.update s.rpc r _ r ≠ _
        rw [Function.update_same]; exact RelPc.noConfusion
      · show (Function.update s.rpc r _ r).inForEach = true → _
        rw [Function.update_same]
        exact fun hx => absurd hx Bool.false_ne_true
    · refine ⟨hlt, ?_, hb, ?_, ?_⟩
      · show Function.update s.rpc r0 _ r ≠ _
        rw [Function.update_noteq e]; exact hpre
      · show (Function.update s.rpc r0 _ r).inForEach = true → _
        rw [Function.update_noteq e]; exact hcur
      · show (Function.update s.rpc r0 _ r).past = true → _
        rw [Function.update_noteq e]; exact hpost
  case relDelete r0 n _ hpc0 hm =>
    by_cases e : r = r0
    · subst e
      refine ⟨hlt, ?_, hb, ?_, fun _ => hpost (by rw [hpc0]; rfl)⟩
      · show Function.update s.rpc r _ r ≠ _
        rw [Function.update_same]; exact RelPc.noConfusion
      · show (Function.update s.rpc r _ r).inForEach = true → _
        rw [Function.update_same]
        exact fun hx => absurd hx Bool.false_ne_true
    · refine ⟨hlt, ?_, hb, ?_, ?_⟩
      · show Function.update s.rpc r0 _ r ≠ _
        rw [Function.update_noteq e]; exact hpre
      · show (Function.update s.rpc r0 _ r).inForEach = true → _
        rw [Function.update_noteq e, hfree hm]
        exact fun hx => absurd hx Bool.false_ne_true
      · show (Function.update s.rpc r0 _ r).past = true → _
        rw [Function.update_noteq e]; exact hpost
  case relCloseDone r0 n _ hpc0 _ =>
    by_cases e : r = r0
    · subst e
      refine ⟨hlt, ?_, hb, ?_, fun _ => hpost (by rw [hpc0]; rfl)⟩
      · show Function.update s.rpc r _ r ≠ _
        rw [Function.update_same]; exact RelPc.noConfusion
      · show (Function.update s.rpc r _ r).inForEach = true → _
        rw [Function.update_same]
        exact fun hx => absurd hx Bool.false_ne_true
    · refine ⟨hlt, ?_, hb, ?_, ?_⟩
      · show Function.update s.rpc r0 _ r ≠ _
        rw [Function.update_noteq e]; exact hpre
      · show (Function.update s.rpc r0 _ r).inForEach = true → _
        rw [Function.update_noteq e]; exact hcur
      · show (Function.update s.rpc r0 _ r).past = true → _
        rw [Function.update_noteq e]; exact hpost
  case relWait r0 n _ hpc0 _ =>
    by_cases e : r = r0
    · subst e
      refine ⟨hlt, ?_, hb, ?_, fun _ => hpost (by rw [hpc0]; rfl)⟩
      · show Function.update s.rpc r _ r ≠ _
        rw [Function.update_same]; exact RelPc.noConfusion
      · show (Function.update s.rpc r _ r).inForEach = true → _
        rw [Function.update_same]
        exact fun hx => absurd hx Bool.false_ne_true
    · refine ⟨hlt, ?_, hb, ?_, ?_⟩
      · show Function.update s.rpc r0 _ r ≠ _
        rw [Function.update_noteq e]; exact hpre
      · show (Function.update s.rpc r0 _ r).inForEach = true → _
        rw [Function.update_noteq e]; exact hcur
      · show (Function.update s.rpc r0 _ r).past = true → _
        rw [Function.update_noteq e]; exact hpost
  case relCloseCh r0 n _ hpc0 _ =>
    by_cases e : r = r0
    · subst e
      refine ⟨hlt, ?_, hb, ?_, fun _ => hpost (by rw [hpc0]; rfl)⟩
      · show Function.update s.rpc r _ r ≠ _
        rw [Function.update_same]; exact RelPc.noConfusion
      · show (Function.update s.rpc r _ r).inForEach = true → _
        rw [Function.update_same]
        exact fun hx => absurd hx Bool.false_ne_true
    · refine ⟨hlt, ?_, hb, ?_, ?_⟩
      · show Function.update s.rpc r0 _ r ≠ _
        rw [Function.update_noteq e]; exact hpre
      · show (Function.update s.rpc r0 _ r).inForEach = true → _
        rw [Function.update_noteq e]; exact hcur
      · show (Function.update s.rpc r0 _ r).past = true → _
        rw [Function.update_noteq e]; exact hpost

theorem Collected.act_col {s0 s : State T} {r : Nat} (h : Inv s) (hd : Collected s0 s r)
    (a : Action T) : Collected s0 (step s a) r := by
  unfold step
  split_ifs
  · rcases perform_cases s a with e | ⟨x, _, e⟩ | hs
    · rw [e]; exact hd
    · rw [e]; exact ⟨hd.lt, hd.notPre, hd.bound, hd.cur, hd.post⟩
    · exact hd.stmt_col h hs
  · exact hd

theorem Collected.later_col {s0 s : State T} {r : Nat} (h : Inv s) (hd : Collected s0 s r)
    (acts : List (Action T)) : Collected s0 (run s acts) r := by
  induction acts generalizing s with
  | nil => exact hd
  | cons a acts ih => exact ih (inv_act h a) (hd.act_col h a)

/-- A `ReleaseAll` that starts at the read lock takes it. -/
theorem step_release_rlock {s : State T} (hp0 : s.panic = none) {r : Nat} (hr : r < s.nRels)
    (hpc : s.rpc r = RelPc.rlock) : step s (Action.release r) = release_rlock s r := by
  unfold step
  rw [if_pos hp0]
  show release_step s r = _
  unfold release_step
  rw [if_pos hr, hpc]

/-- A `ReleaseAll` at the end of an empty traversal releases the read lock. -/
theorem step_release_runlock {s : State T} (hp0 : s.panic = none) {r : Nat} (hr : r < s.nRels)
    (hpc : s.rpc r = RelPc.forEach none) : step s (Action.release r) = release_runlock s r := by
  unfold step
  rw [if_pos hp0]
  show release_step s r = _
  unfold release_step
  rw [if_pos hr, hpc]

/-- Taking and releasing the read lock leaves the list as it was. -/
theorem mu_restore {α : Type} (l : list α) : { l with mu := l.mu + 1 - 1 } = l := by
  cases l
  simp

/-- A call of `ReleaseAll` on an empty registry, run to its end: the state it leaves. -/
theorem releaseAll_empty {s : State T} (h : Inv s) (hp0 : s.panic = none)
    (he : s.channels.nodes = []) :
    run s [Action.callReleaseAll, Action.release s.nRels, Action.release s.nRels] =
      { s with
        channels := { s.channels with mu := s.channels.mu + 1 - 1 }
        rpc := Function.update (Function.update (Function.update s.rpc s.nRels RelPc.rlock)
          s.nRels (RelPc.forEach s.channels.first)) s.nRels RelPc.loop
        all := Function.update s.all s.nRels []
        idx := Function.update s.idx s.nRels 0
        bound := Function.update (Function.update s.bound s.nRels 0) s.nRels s.channels.size
        nRels := s.nRels + 1 } := by
  have hfirst : s.channels.first = none := by
    rw [h.a.wf.first_eq, he]; rfl
  have e1 : step s (Action.callReleaseAll : Action T) = s.spawnRel RelPc.rlock [] := by
    unfold step
    rw [if_pos hp0]
    rfl
  have e2 : step (s.spawnRel RelPc.rlock []) (Action.release s.nRels : Action T) =
      release_rlock (s.spawnRel RelPc.rlock []) s.nRels :=
    step_release_rlock (s := s.spawnRel RelPc.rlock []) hp0 (Nat.lt_succ_self _)
      (Function.update_same _ _ _)
  have e3 : step (release_rlock (s.spawnRel RelPc.rlock []) s.nRels)
      (Action.release s.nRels : Action T) =
      release_runlock (release_rlock (s.spawnRel RelPc.rlock []) s.nRels) s.nRels := by
    refine step_release_runlock (s := release_rlock (s.spawnRel RelPc.rlock []) s.nRels) hp0
      (Nat.lt_succ_self _) ?_
    show Function.update (Function.update s.rpc s.nRels RelPc.rlock) s.nRels
      (RelPc.forEach s.channels.first) s.nRels = _
    rw [Function.update_same, hfirst]
  show step (step (step s _) _) _ = _
  rw [e1, e2, e3]
  rfl

/-- Schedule in which a subscriber acquires a channel, its `ReleaseFunc` runs up to and
including `ch.Delete()`, and then `ReleaseAll` is called, traverses the registry and returns. -/
def midReleaseSchedule : List (Action T) :=
  [Action.acquire, Action.acquireReturn 0, Action.callRelease 0, Action.release 0,
   Action.release 0, Action.callReleaseAll, Action.release 1, Action.release 1]

/-- Schedule in which two subscribers acquire a channel each and `ReleaseAll` is called. -/
def releaseAllSchedule : List (Action T) :=
  [Action.acquire, Action.acquireReturn 0, Action.acquire, Action.acquireReturn 1,
   Action.callReleaseAll]

/-- What a `ReleaseAll` that has returned has achieved.  Let `ReleaseAll`, goroutine `r`, take
the read lock of the registry in the reachable state `s0`, and let it have returned in a state
reached afterwards.  Then every channel that was linked in `s0`, also one whose `once.Do` body
was running in another goroutine, and every channel whose release had returned in `s0`, is
closed, with `done` closed and its entry out of the registry; the registry holds only channels
acquired after `s0`, so it is empty when none was; and on an empty registry a further
`ReleaseAll`, run to its end, changes nothing but its own bookkeeping. -/
theorem releaseAll_closes_linked [Inhabited T] (ackable : Bool) (s0 : State T)
    (hr : Reachable ackable s0) (r : Nat) (hr0 : r < s0.nRels) (hpc : s0.rpc r = RelPc.rlock)
    (hp0 : s0.panic = none) (acts : List (Action T))
    (hret : (run (step s0 (Action.release r)) acts).rpc r = RelPc.loop)
    (hend : ((run (step s0 (Action.release r)) acts).all r).length ≤
      (run (step s0 (Action.release r)) acts).idx r) :
    (∀ c, c ∈ s0.channels.ForEach ∨ (c < s0.channels.size ∧ s0.once c = Once.done) →
      (run (step s0 (Action.release r)) acts).chClosed c = true ∧
      (run (step s0 (Action.release r)) acts).doneClosed c = true ∧
      c ∉ (run (step s0 (Action.release r)) acts).channels.ForEach) ∧
    (∀ n, n ∈ (run (step s0 (Action.release r)) acts).channels.ForEach →
      s0.channels.size ≤ n) ∧
    ((run (step s0 (Action.release r)) acts).channels.size = s0.channels.size →
      (run (step s0 (Action.release r)) acts).channels.ForEach = []) ∧
    ((run (step s0 (Action.release r)) acts).channels.ForEach = [] →
      (run (step s0 (Action.release r)) acts).panic = none →
      ∀ s2, s2 = run (run (step s0 (Action.release r)) acts)
          [Action.callReleaseAll,
            Action.release (run (step s0 (Action.release r)) acts).nRels,
            Action.release (run (step s0 (Action.release r)) acts).nRels] →
        s2.channels = (run (step s0 (Action.release r)) acts).channels ∧
        s2.chClosed = (run (step s0 (Action.release r)) acts).chClosed ∧
        s2.doneClosed = (run (step s0 (Action.release r)) acts).doneClosed ∧
        s2.once = (run (step s0 (Action.release r)) acts).once ∧
        s2.send = (run (step s0 (Action.release r)) acts).send ∧
        s2.recvd = (run (step s0 (Action.release r)) acts).recvd ∧
        s2.panic = none ∧
        s2.rpc (run (step s0 (Action.release r)) acts).nRels = RelPc.loop ∧
        s2.all (run (step s0 (Action.release r)) acts).nRels = []) := by
  have h0 := hr.inv
  have hfe0 := ForEach_eq_nodes h0
  have hr1 : Reachable ackable (step s0 (Action.release r)) := hr.later [Action.release r]
  have hr2 : Reachable ackable (run (step s0 (Action.release r)) acts) := hr1.later acts
  have h := hr2.inv
  have hcol : Collected s0 (run (step s0 (Action.release r)) acts) r := by
    refine Collected.later_col hr1.inv ?_ acts
    rw [step_release_rlock hp0 hr0 hpc]
    refine ⟨hr0, ?_, Function.update_same _ _ _, fun _ => rfl, ?_⟩
    · show Function.update s0.rpc r _ r ≠ _
      rw [Function.update_same]; exact RelPc.noConfusion
    · show (Function.update s0.rpc r _ r).past = true → _
      rw [Function.update_same]
      exact fun hx => absurd hx Bool.false_ne_true
  have hdone : ∀ c, c < s0.channels.size → s0.once c = Once.done →
      Released (run (step s0 (Action.release r)) acts) c s0.nCopies := by
    intro c hc ho
    have hrel : Released s0 c s0.nCopies :=
      ⟨hc, ho, fun p h2 h3 => absurd h3 (Nat.not_lt.mpr h2)⟩
    exact (hrel.act_rel h0 (Action.release r)).later_rel hr1.inv acts
  generalize run (step s0 (Action.release r)) acts = s at h hcol hdone hret hend ⊢
  have hfe := ForEach_eq_nodes h
  have hpast : (s.rpc r).past = true := by rw [hret]; rfl
  have hreg : ∀ n, n ∈ s.channels.nodes → s0.channels.size ≤ n := by
    intro n hn
    rcases h.b.relPost r hcol.lt hpast n hn with hm | hb
    · rw [List.drop_eq_nil_of_le hend] at hm
      exact absurd hm (List.not_mem_nil n)
    · rw [← hcol.bound]; exact hb
  refine ⟨?_, ?_, ?_, ?_⟩
  · intro c hc
    rw [hfe]
    have key : s.once c = Once.done ∧ c < s.channels.size := by
      rcases hc with hlinked | ⟨hlt, ho0⟩
      · rw [hfe0] at hlinked
        have hm := hcol.post hpast c hlinked
        obtain ⟨i, hi, e⟩ := List.getElem_of_mem hm
        exact h.e.returned r hcol.lt i (lt_of_lt_of_le hi hend) c
          (by rw [List.get?_eq_getElem?, List.getElem?_eq_getElem hi, e])
      · exact ⟨(hdone c hlt ho0).once, (hdone c hlt ho0).lt⟩
    have h3 := h.e.done c key.2 key.1
    exact ⟨h3.2.1, h3.1, h3.2.2.1⟩
  · intro n hn
    rw [hfe] at hn
    exact hreg n hn
  · intro hsz
    rw [hfe, List.eq_nil_iff_forall_not_mem]
    intro n hn
    have h1 := hreg n hn
    have h2 := h.a.wf.lt n hn
    omega
  · intro he hp2 s2 hs2
    rw [hfe] at he
    rw [hs2, releaseAll_empty h hp2 he]
    exact ⟨mu_restore s.channels, rfl, rfl, rfl, rfl, rfl, hp2, Function.update_same _ _ _,
      Function.update_same _ _ _⟩

/-- Two channels are registered when `ReleaseAll` takes the lock; it collects both, releases
them one after the other and returns; both are closed and the registry is empty. -/
theorem releaseAll_closes_two :
    (run (step (run (NewGroup : State Nat) releaseAllSchedule) (Action.release 0))
      (List.replicate 13 (Action.release 0))).chClosed 0 = true ∧
    (run (step (run (NewGroup : State Nat) releaseAllSchedule) (Action.release 0))
      (List.replicate 13 (Action.release 0))).chClosed 1 = true ∧
    (run (step (run (NewGroup : State Nat) releaseAllSchedule) (Action.release 0))
      (List.replicate 13 (Action.release 0))).channels.ForEach = [] :=
  have h := releaseAll_closes_linked false
    (run (NewGroup : State Nat) releaseAllSchedule) ⟨releaseAllSchedule, rfl⟩ 0
    (by decide!) (by decide!) (by decide!) (List.replicate 13 (Action.release 0))
    (by decide!) (by decide!)
  ⟨(h.1 0 (Or.inl (by decide!))).1, (h.1 1 (Or.inl (by decide!))).1,
    h.2.2.1 (by decide!)⟩

/-- Schedule in which the `ReleaseFunc` of the only channel has entered `once.Do` and not yet
run `ch.Delete()` when `ReleaseAll` is called and traverses the registry. -/
def lateReleaseSchedule : List (Action T) :=
  [Action.acquire, Action.acquireReturn 0, Action.callRelease 0, Action.release 0,
   Action.callReleaseAll, Action.release 1, Action.release 1, Action.release 1]

/-- C10, failing input: in `midReleaseSchedule` the only `Acquire` has returned and the
`ReleaseFunc` of its channel has run `ch.Delete()` and stands before `close(ch.elem.done)` when
`ReleaseAll` is called.  `ReleaseAll` finds the registry empty, collects nothing and returns,
without a panic and with no `Acquire` made since it took the lock: the registry is empty, and
channel 0, acquired before the call, is not closed.  It is closed when the `ReleaseFunc` has run
its three remaining steps.  In `lateReleaseSchedule`, where `ReleaseAll` traverses the registry
before `ch.Delete()`, it collects the channel and waits in `once.Do`: it has not returned, and
returns only after the `ReleaseFunc` has closed the channel. -/
theorem C10_release_all_returns_early :
    (run (NewGroup : State Nat) midReleaseSchedule).release 0 = some 0 ∧
    (run (NewGroup : State Nat) midReleaseSchedule).rpc 0 = RelPc.closeDone 0 ∧
    (run (NewGroup : State Nat) midReleaseSchedule).rpc 1 = RelPc.loop ∧
    (run (NewGroup : State Nat) midReleaseSchedule).all 1 = [] ∧
    (run (NewGroup : State Nat) midReleaseSchedule).bound 1 = 1 ∧
    (run (NewGroup : State Nat) midReleaseSchedule).channels.size = 1 ∧
    (run (NewGroup : State Nat) midReleaseSchedule).channels.ForEach = [] ∧
    (run (NewGroup : State Nat) midReleaseSchedule).panic = none ∧
    (run (NewGroup : State Nat) midReleaseSchedule).doneClosed 0 = false ∧
    (run (NewGroup : State Nat) midReleaseSchedule).chClosed 0 = false ∧
    (run (NewGroup : State Nat) (midReleaseSchedule ++
      [Action.release 0, Action.release 0, Action.release 0])).chClosed 0 = true ∧
    (run (NewGroup : State Nat) lateReleaseSchedule).all 1 = [0] ∧
    (run (NewGroup : State Nat) lateReleaseSchedule).idx 1 = 0 ∧
    (run (NewGroup : State Nat) (lateReleaseSchedule ++ [Action.release 1])).idx 1 = 0 ∧
    (run (NewGroup : State Nat) (lateReleaseSchedule ++
      [Action.release 1, Action.release 0, Action.release 0, Action.release 0,
        Action.release 0, Action.release 1])).idx 1 = 1 ∧
    (run (NewGroup : State Nat) (lateReleaseSchedule ++
      [Action.release 1, Action.release 0, Action.release 0, Action.release 0,
        Action.release 0, Action.release 1])).chClosed 0 = true := by
  decide!


/-- The original `Ack` of a call has been invoked at most once. -/
theorem acks_le_one {s : State T} (h : Inv s) {k : Nat} (hk : k < s.nCalls) : s.acks k ≤ 1 := by
  cases hw : s.waiter k with
  | notStarted => rw [h.f.notStarted k hk hw]; exact Nat.zero_le 1
  | waiting => rw [(h.f.waiting k hk hw).1]; exact Nat.zero_le 1
  | finished => rw [(h.f.finished k hk hw).1]

/-- When the traversal of a call of an `AckableGroup` is over and every copy is acked or
abandoned, the original `Ack` has been invoked or is invoked by the next step of the waiting
goroutine. -/
theorem ack_due {s : State T} (h : Inv s) (ha : s.ackable = true) (hp0 : s.panic = none)
    {k : Nat} (hk : k < s.nCalls) (hpast : (s.pc k).past = true)
    (hall : ∀ p, p < s.nCopies → s.cpCall p = k → s.cpOnce p = true ∨ s.abandoned p = true) :
    s.acks k = 1 ∨ (s.acks k = 0 ∧ (step s (Action.ackWait k)).acks k = 1) := by
  cases hw : s.waiter k with
  | notStarted => exact absurd hw (h.f.spawned k hk ha hpast)
  | finished => exact Or.inl (h.f.finished k hk hw).1
  | waiting =>
    have h0 := (h.f.waiting k hk hw).1
    refine Or.inr ⟨h0, ?_⟩
    rw [step_ack_wait hp0 hk hw (ack_zero h hk hall)]
    show Function.update s.acks k (s.acks k + 1) k = 1
    rw [Function.update_same, h0]

/-- The traversal of a call that is at the end of the list releases the read lock. -/
theorem step_send_runlock {s : State T} (hp0 : s.panic = none) {k : Nat} (hk : k < s.nCalls)
    (hpc : s.pc k = SendPc.forEach none) (recv : Bool) :
    step s (Action.send k recv) = Send_runlock s k := by
  unfold step
  rw [if_pos hp0]
  show Send_step s k recv = _
  unfold Send_step
  rw [if_pos hk, hpc]

/-- A call at `wg.Wait()` whose counter is zero returns. -/
theorem step_send_return {s : State T} (hp0 : s.panic = none) {k : Nat} (hk : k < s.nCalls)
    (hpc : s.pc k = SendPc.wait) (hw : s.wg k = 0) (recv : Bool) :
    step s (Action.send k recv) = Send_return s k := by
  unfold step
  rw [if_pos hp0]
  show Send_step s k recv = _
  unfold Send_step
  rw [if_pos hk, hpc]
  show (if s.wg k = 0 then Send_return s k else s) = _
  rw [if_pos hw]

/-- A call that has returned has no further step. -/
theorem step_send_returned {s : State T} {k : Nat} (hpc : s.pc k = SendPc.returned)
    (recv : Bool) : step s (Action.send k recv) = s := by
  unfold step
  by_cases hp0 : s.panic = none
  · rw [if_pos hp0]
    show Send_step s k recv = _
    unfold Send_step
    by_cases hk : k < s.nCalls
    · rw [if_pos hk, hpc]
    · rw [if_neg hk]
  · rw [if_neg hp0]

/-- A call whose snapshot of the registry is empty builds no copy, so that its counters are
zero and its traversal is at the end of the list. -/
theorem empty_snapshot {s : State T} (h : Inv s) {k : Nat} (hk : k < s.nCalls)
    (he : s.snapshot k = []) :
    (∀ p, p < s.nCopies → s.cpCall p ≠ k) ∧ s.wg k = 0 ∧ s.ack k = 0 ∧
    ∀ cur, s.pc k = SendPc.forEach cur → cur = none := by
  have hno : ∀ p, p < s.nCopies → s.cpCall p ≠ k := by
    intro p hp hc
    have := attempts_sub h hk _ (copy_attempt hp hc)
    rw [he] at this
    exact absurd this (List.not_mem_nil _)
  refine ⟨hno, ?_, ack_zero h hk (fun p hp hc => absurd hc (hno p hp)), ?_⟩
  · rw [h.d.wg k hk]
    split_ifs
    · rfl
    · have : cnt (fun q => inWg s.cpCall k q (s.helper q)) s.nCopies = 0 := by
        apply cnt_none
        intro q hq
        simp [inWg, hno q hq]
      rw [this]; rfl
  · intro cur hpc
    obtain ⟨rest, h1, h2, h3⟩ := h.b.sendCur k hk cur hpc
    rw [← h3, he] at h2
    have : rest = [] := (List.append_eq_nil.mp h2).2
    rw [this] at h1
    exact h1

/-- Schedule of the tests `doesn't stuck if not acquired`: `Send(v)` is called on a new
group. -/
def lonelySendSchedule (v : T) : List (Action T) :=
  [Action.callSend v]

/-- C11: let call `k` of `Send` or `SendAsync` take the read lock in a reachable state `s0`
whose registry is empty.  In every state `s` reached afterwards the call has built no copy (no
handoff, no helper goroutine), its counters `wg` and `ack` are zero, its traversal is at the end
of the list, and its next step is not blocked: the traversal ends, and `wg.Wait()` returns.
In an `AckableGroup` the original `Ack` has been invoked at most once, and once the traversal
is over it has been invoked or is invoked by the next step of the waiting goroutine.  The three
steps of the call, run in a row, make it return. -/
theorem C11_no_subscriber_send [Inhabited T] (ackable : Bool) (s0 : State T)
    (hr : Reachable ackable s0) (k : Nat) (hk : k < s0.nCalls) (hpc : s0.pc k = SendPc.rlock)
    (hp0 : s0.panic = none) (hempty : s0.channels.ForEach = []) (recv : Bool)
    (acts : List (Action T)) (s : State T)
    (hs : s = run (step s0 (Action.send k recv)) acts) :
    (∀ p, p < s.nCopies → s.cpCall p ≠ k) ∧
    s.wg k = 0 ∧ s.ack k = 0 ∧
    s.pc k ≠ SendPc.rlock ∧
    (∀ cur, s.pc k = SendPc.forEach cur → cur = none) ∧
    (s.panic = none → ∀ r,
      (s.pc k = SendPc.forEach none →
        (step s (Action.send k r)).pc k =
          if s.async k = true then SendPc.returned else SendPc.wait) ∧
      (s.pc k = SendPc.wait → (step s (Action.send k r)).pc k = SendPc.returned)) ∧
    s.acks k ≤ 1 ∧
    (s.ackable = true → s.panic = none → (s.pc k).past = true →
      s.acks k = 1 ∨ (s.acks k = 0 ∧ (step s (Action.ackWait k)).acks k = 1)) ∧
    (run s0 [Action.send k recv, Action.send k recv, Action.send k recv]).pc k
      = SendPc.returned := by
  have h0 := hr.inv
  have hnodes : s0.channels.nodes = [] := by rw [← ForEach_eq_nodes h0]; exact hempty
  have hbase : SameCall (Send_rlock s0 k) (Send_rlock s0 k) k := by
    refine ⟨hk, ?_, rfl, rfl⟩
    show Function.update s0.pc k _ k ≠ _
    rw [Function.update_same]; exact SendPc.noConfusion
  have hsnap0 : (Send_rlock s0 k).snapshot k = [] := by
    show Function.update s0.snapshot k _ k = _
    rw [Function.update_same, hnodes]
  have e1 := step_send_rlock hp0 hk hpc recv
  have hr1 : Reachable ackable (Send_rlock s0 k) := by
    rw [← e1]; exact hr.later [Action.send k recv]
  -- facts about every later state
  have key : ∀ acts' : List (Action T),
      Inv (run (Send_rlock s0 k) acts') ∧ SameCall (Send_rlock s0 k) (run (Send_rlock s0 k) acts') k ∧
      (run (Send_rlock s0 k) acts').snapshot k = [] := by
    intro acts'
    have hsame := hbase.later_same acts'
    exact ⟨(hr1.later acts').inv, hsame, by rw [hsame.snapshot, hsnap0]⟩
  rw [e1] at hs
  obtain ⟨h, hsame, hsnap⟩ := key acts
  rw [← hs] at h hsame hsnap
  have hk1 := hsame.lt
  obtain ⟨hno, hwg, hack, hcur⟩ := empty_snapshot h hk1 hsnap
  refine ⟨hno, hwg, hack, hsame.pc, hcur, ?_, acks_le_one h hk1, ?_, ?_⟩
  · intro hp r
    refine ⟨fun hpc1 => ?_, fun hpc1 => ?_⟩
    · rw [step_send_runlock hp hk1 hpc1 r]
      exact Function.update_same _ _ _
    · rw [step_send_return hp hk1 hpc1 hwg r]
      exact Function.update_same _ _ _
  · intro ha hp hpast
    exact ack_due h ha hp hk1 hpast (fun p hp1 hc => absurd hc (hno p hp1))
  · show (step (step (step s0 _) _) _).pc k = _
    rw [e1]
    have hfirst : s0.channels.first = none := by
      rw [h0.a.wf.first_eq, hnodes]; rfl
    have hpc1 : (Send_rlock s0 k).pc k = SendPc.forEach none := by
      show Function.update s0.pc k _ k = _
      rw [Function.update_same, hfirst]
    have e2 := step_send_runlock (s := Send_rlock s0 k) hp0 hk hpc1 recv
    rw [e2]
    have hrun : Send_runlock (Send_rlock s0 k) k = run (Send_rlock s0 k) [Action.send k recv] := by
      show _ = step _ _
      rw [e2]
    obtain ⟨h2, _, hsnap2⟩ := key [Action.send k recv]
    rw [← hrun] at h2 hsnap2
    have hwg2 := (empty_snapshot (k := k) h2 hk hsnap2).2.1
    by_cases hasync : s0.async k = true
    · have hpc2 : (Send_runlock (Send_rlock s0 k) k).pc k = SendPc.returned := by
        show Function.update _ k (if s0.async k = true then _ else _) k = _
        rw [Function.update_same, if_pos hasync]
      rw [step_send_returned hpc2]
      exact hpc2
    · have hpc2 : (Send_runlock (Send_rlock s0 k) k).pc k = SendPc.wait := by
        show Function.update _ k (if s0.async k = true then _ else _) k = _
        rw [Function.update_same, if_neg hasync]
      rw [step_send_return (s := Send_runlock (Send_rlock s0 k) k) hp0 hk hpc2 hwg2 recv]
      exact Function.update_same _ _ _

/-- Witness of C11: `Send(v)` on a new `AckableGroup` returns after its three steps without a
copy, and the next step of the waiting goroutine invokes the original `Ack`. -/
theorem C11_no_subscriber_send_witness :
    (run (run (NewAckableGroup : State Nat) (lonelySendSchedule 7))
      [Action.send 0 false, Action.send 0 false, Action.send 0 false]).pc 0
      = SendPc.returned ∧
    (run (NewAckableGroup : State Nat) (lonelySendSchedule 7 ++
      [Action.send 0 false, Action.send 0 false, Action.send 0 false])).nCopies = 0 ∧
    (run (NewAckableGroup : State Nat) (lonelySendSchedule 7 ++
      [Action.send 0 false, Action.send 0 false, Action.send 0 false,
        Action.ackWait 0])).acks 0 = 1 :=
  ⟨(C11_no_subscriber_send true (run (NewAckableGroup : State Nat) (lonelySendSchedule 7))
      ⟨lonelySendSchedule 7, rfl⟩ 0 (by decide!) (by decide!) (by decide!) (by decide!)
      false [] _ rfl).2.2.2.2.2.2.2.2,
    by decide!, by decide!⟩

/-- Values the subscriber of channel `c` has received, oldest first. -/
def received (s : State T) (c : Nat) : List T :=
  (s.recvd c).map s.cpValue

/-- Schedule with two subscribers, both waiting on their channels, and two publishers that
call `Send(1)` and `Send(2)` at the same time: both traversals hold the read lock; the first
hands `1` to channel 0, the second hands `2` to channel 0 and to channel 1, then the first
hands `1` to channel 1; both calls return. -/
def crossedSendSchedule : List (Action Nat) :=
  [Action.acquire, Action.acquireReturn 0, Action.acquire, Action.acquireReturn 1,
   Action.callSend 1, Action.callSend 2, Action.send 0 true, Action.send 1 true,
   Action.send 0 true, Action.send 1 true, Action.send 1 true, Action.send 0 true,
   Action.send 0 true, Action.send 1 true, Action.send 0 true, Action.send 1 true]

/-- C12, failing input: in `crossedSendSchedule` two calls of `Send` (not `SendAsync`) made at
the same time both return without a panic, the subscriber of channel 0 has received `1` and
then `2`, and the subscriber of channel 1 has received `2` and then `1`. -/
theorem C12_concurrent_sends_cross :
    (run (NewGroup : State Nat) crossedSendSchedule).async 0 = false ∧
    (run (NewGroup : State Nat) crossedSendSchedule).async 1 = false ∧
    (run (NewGroup : State Nat) crossedSendSchedule).pc 0 = SendPc.returned ∧
    (run (NewGroup : State Nat) crossedSendSchedule).pc 1 = SendPc.returned ∧
    (run (NewGroup : State Nat) crossedSendSchedule).panic = none ∧
    received (run (NewGroup : State Nat) crossedSendSchedule) 0 = [1, 2] ∧
    received (run (NewGroup : State Nat) crossedSendSchedule) 1 = [2, 1] := by
  decide!

/-! ## The list on its own -/

/-- One call on a list: `l.Insert(x)`, or `n.Delete()` for the node at address `n`. -/
inductive ListOp (α : Type)
  | insert (x : α)
  | delete (n : Nat)

/-- The list after one call. -/
def applyOp {α : Type} (l : list α) : ListOp α → list α
  | ListOp.insert x => (l.Insert x).1
  | ListOp.delete n => l.Delete n

/-- The list after a sequence of calls, from `l`. -/
def runOps {α : Type} (l : list α) (ops : List (ListOp α)) : list α :=
  ops.foldl applyOp l

/-- The list after a sequence of calls on a new list. -/
def build {α : Type} [Inhabited α] (ops : List (ListOp α)) : list α :=
  runOps newList ops

theorem runOps_append {α : Type} (l : list α) (xs ys : List (ListOp α)) :
    runOps l (xs ++ ys) = runOps (runOps l xs) ys := by
  unfold runOps
  rw [List.foldl_append]

theorem applyOp_wf {α : Type} {l : list α} (h : WF l l.nodes) (op : ListOp α) :
    WF (applyOp l op) (applyOp l op).nodes := by
  cases op with
  | insert x => exact (h.Insert x).self
  | delete n => exact (h.Delete n).self

theorem runOps_wf {α : Type} {l : list α} (h : WF l l.nodes) (ops : List (ListOp α)) :
    WF (runOps l ops) (runOps l ops).nodes := by
  induction ops generalizing l with
  | nil => exact h
  | cons op ops ih => exact ih (applyOp_wf h op)

/-- Every list built from a new list is well formed. -/
theorem build_wf {α : Type} [Inhabited α] (ops : List (ListOp α)) :
    WF (build ops) (build ops).nodes :=
  runOps_wf (WF.newList α).self ops

/-- The traversal does not run out of fuel: with `size` iterations or more it gives the same
nodes. -/
theorem walk_enough {α : Type} {l : list α} (h : WF l l.nodes) {fuel : Nat}
    (hf : l.size ≤ fuel) : walk l.heap fuel l.first = l.nodes :=
  walk_eq_of_chainBy h.fwd (le_trans (nodup_length_le h.nodup h.lt) hf)

/-- Nodes and elements visited after `Insert`. -/
theorem Insert_visits {α : Type} {l : list α} (h : WF l l.nodes) (x : α) :
    (l.Insert x).1.nodes = l.nodes ++ [l.size] ∧
    (l.Insert x).1.ForEach = l.ForEach ++ [x] := by
  have hn : (l.Insert x).1.nodes = l.nodes ++ [l.size] := (h.Insert x).nodes_eq
  refine ⟨hn, ?_⟩
  unfold list.ForEach
  rw [hn, List.map_append]
  congr 1
  · apply List.map_congr_left
    intro i hi
    rw [Insert_elem, if_neg (Nat.ne_of_lt (h.lt i hi))]
  · show [((l.Insert x).1.heap l.size).elem] = [x]
    rw [Insert_elem, if_pos rfl]

/-- Nodes visited after `Delete`. -/
theorem Delete_visits {α : Type} {l : list α} (h : WF l l.nodes) (n : Nat) :
    (l.Delete n).nodes = l.nodes.erase n ∧
    (l.Delete n).ForEach = (l.nodes.erase n).map (fun i => (l.heap i).elem) := by
  have hn : (l.Delete n).nodes = l.nodes.erase n := (h.Delete n).nodes_eq
  refine ⟨hn, ?_⟩
  unfold list.ForEach
  rw [hn]
  apply List.map_congr_left
  intro i _
  rw [Delete_elem]

/-- The nodes are visited in the order of their addresses, which is the order of the calls of
`Insert`. -/
theorem applyOp_sorted {α : Type} {l : list α} (h : WF l l.nodes)
    (hs : l.nodes.Pairwise (fun a b => a < b)) (op : ListOp α) :
    (applyOp l op).nodes.Pairwise (fun a b => a < b) := by
  cases op with
  | insert x =>
    show (l.Insert x).1.nodes.Pairwise _
    rw [(Insert_visits h x).1, List.pairwise_append]
    refine ⟨hs, List.pairwise_singleton _ _, ?_⟩
    intro a ha b hb
    rw [List.mem_singleton.mp hb]
    exact h.lt a ha
  | delete n =>
    show (l.Delete n).nodes.Pairwise _
    rw [(Delete_visits h n).1]
    exact hs.sublist (List.erase_sublist n l.nodes)

theorem runOps_sorted {α : Type} {l : list α} (h : WF l l.nodes)
    (hs : l.nodes.Pairwise (fun a b => a < b)) (ops : List (ListOp α)) :
    (runOps l ops).nodes.Pairwise (fun a b => a < b) := by
  induction ops generalizing l with
  | nil => exact hs
  | cons op ops ih => exact ih (applyOp_wf h op) (applyOp_sorted h hs op)

theorem build_sorted {α : Type} [Inhabited α] (ops : List (ListOp α)) :
    (build ops).nodes.Pairwise (fun a b => a < b) :=
  runOps_sorted (WF.newList α).self (by rw [(WF.newList α).nodes_eq]; exact List.Pairwise.nil) ops

/-- A list built by calls of `Insert` only is visited in the order of the calls. -/
theorem inserts_visits {α : Type} {l : list α} (h : WF l l.nodes) (xs : List α) :
    (runOps l (xs.map ListOp.insert)).ForEach = l.ForEach ++ xs := by
  induction xs generalizing l with
  | nil => simp [runOps]
  | cons x xs ih =>
    show (runOps (l.Insert x).1 (xs.map ListOp.insert)).ForEach = _
    rw [ih (h.Insert x).self, (Insert_visits h x).2, List.append_assoc]
    rfl

/-- C13: for the list `l` built by any sequence of calls of `Insert` and `Delete` on a new list
and every element `x`, after `l.Insert(x)` the traversal visits the nodes it visited before, in
the same order, followed by the new node, which is the one `Insert` returns, and `ForEach`
passes the elements it passed before followed by `x`; no node is visited twice; the loop ends
within `size` iterations; the nodes are visited in the order of their addresses, which are
handed out in the order of the calls of `Insert`; a list built by calls of `Insert` only is
visited in the order of the calls; and `Append` does the same. -/
theorem C13_insert_appends {α : Type} [Inhabited α] (ops : List (ListOp α)) (x : α) :
    ((build ops).Insert x).1.ForEach = (build ops).ForEach ++ [x] ∧
    ((build ops).Insert x).1.nodes = (build ops).nodes ++ [((build ops).Insert x).2] ∧
    ((build ops).Insert x).2 = (build ops).size ∧
    ((build ops).Insert x).1.size = (build ops).size + 1 ∧
    ((build ops).Insert x).1.nodes.Nodup ∧
    (∀ fuel, ((build ops).Insert x).1.size ≤ fuel →
      walk ((build ops).Insert x).1.heap fuel ((build ops).Insert x).1.first =
        ((build ops).Insert x).1.nodes) ∧
    ((build ops).Insert x).1.nodes.Pairwise (fun a b => a < b) ∧
    (∀ xs : List α, (build (xs.map ListOp.insert)).ForEach = xs) ∧
    ((build ops).Append x).1.ForEach = (build ops).ForEach ++ [x] := by
  have h := build_wf ops
  have h1 := Insert_visits h x
  have h' : WF ((build ops).Insert x).1 ((build ops).Insert x).1.nodes := (h.Insert x).self
  refine ⟨h1.2, ?_, Insert_snd _ _, Insert_size _ _, h'.nodup, fun fuel hf => walk_enough h' hf,
    ?_, ?_, h1.2⟩
  · rw [Insert_snd]; exact h1.1
  · exact applyOp_sorted h (build_sorted ops) (ListOp.insert x)
  · intro xs
    have := inserts_visits (WF.newList α).self xs
    rw [show (changroup.newList : list α).ForEach = [] from rfl] at this
    exact this

/-- Deleting a linked node cuts it out of the traversal and leaves the rest in order. -/
theorem Delete_cut {α : Type} {l : list α} (h : WF l l.nodes) {n : Nat}
    (hn : n ∈ l.nodes) :
    ∃ a b, n ∉ a ∧ n ∉ b ∧ l.nodes = a ++ n :: b ∧ (l.Delete n).nodes = a ++ b := by
  obtain ⟨a, b, hab⟩ := List.append_of_mem hn
  have hnd := h.nodup
  rw [hab] at hnd
  have ha : n ∉ a := fun hm =>
    (List.nodup_append.mp hnd).2.2 hm (List.mem_cons_self n b) 
  have hb : n ∉ b := (List.nodup_cons.mp (List.nodup_append.mp hnd).2.1).1
  refine ⟨a, b, ha, hb, hab, ?_⟩
  rw [(Delete_visits h n).1, hab, List.erase_append_right _ ha, List.erase_cons_head]

/-- C14: for the list `l` built by any sequence of calls of `Insert` and `Delete` on a new list
and every node `n` linked in it, the traversal of `l` visits nodes `a`, then `n`, then nodes
`b`, with `n` neither in `a` nor in `b`; after `n.Delete()` it visits `a` and then `b`, and
`ForEach` passes the elements it passed before without the element of `n`, the others in the
same order; the loop ends within `size` iterations. -/
theorem C14_delete_removes_one {α : Type} [Inhabited α] (ops : List (ListOp α)) (n : Nat)
    (hn : n ∈ (build ops).nodes) :
    ∃ a b, n ∉ a ∧ n ∉ b ∧
      (build ops).nodes = a ++ n :: b ∧
      ((build ops).Delete n).nodes = a ++ b ∧
      (build ops).ForEach =
        a.map (fun i => ((build ops).heap i).elem) ++
          ((build ops).heap n).elem :: b.map (fun i => ((build ops).heap i).elem) ∧
      ((build ops).Delete n).ForEach =
        a.map (fun i => ((build ops).heap i).elem) ++
          b.map (fun i => ((build ops).heap i).elem) ∧
      ∀ fuel, ((build ops).Delete n).size ≤ fuel →
        walk ((build ops).Delete n).heap fuel ((build ops).Delete n).first =
          ((build ops).Delete n).nodes := by
  have h := build_wf ops
  obtain ⟨a, b, ha, hb, hab, hd⟩ := Delete_cut h hn
  have h' : WF ((build ops).Delete n) ((build ops).Delete n).nodes := (h.Delete n).self
  refine ⟨a, b, ha, hb, hab, hd, ?_, ?_, fun fuel hf => walk_enough h' hf⟩
  · unfold list.ForEach
    rw [hab, List.map_append, List.map_cons]
  · rw [(Delete_visits h n).2, ← (Delete_visits h n).1, hd, List.map_append]

/-- Witness of C14, the test `delete middle from 3 elements`: after three calls of `Insert` the
middle node is deleted. -/
theorem C14_delete_removes_one_witness :
    (build [ListOp.insert 10, ListOp.insert 20, ListOp.insert 30]).ForEach = [10, 20, 30] ∧
    ((build [ListOp.insert 10, ListOp.insert 20, ListOp.insert 30]).Delete 1).ForEach
      = [10, 30] ∧
    ∃ a b, 1 ∉ a ∧ 1 ∉ b ∧
      (build [ListOp.insert 10, ListOp.insert 20, ListOp.insert 30]).nodes = a ++ 1 :: b ∧
      ((build [ListOp.insert 10, ListOp.insert 20, ListOp.insert 30]).Delete 1).nodes
        = a ++ b :=
  ⟨by decide!, by decide!,
    match C14_delete_removes_one [ListOp.insert 10, ListOp.insert 20, ListOp.insert 30] 1
      (by decide!) with
    | ⟨a, b, h1, h2, h3, h4, _⟩ => ⟨a, b, h1, h2, h3, h4⟩⟩

/-- A call of `Delete` on a node that is not linked changes nothing. -/
theorem Delete_absent {α : Type} {l : list α} (h : WF l l.nodes) {n : Nat}
    (hn : n ∉ l.nodes) : l.Delete n = l := by
  obtain ⟨hp, hx⟩ := h.iso n hn
  have hf : l.first ≠ some n := fun e => hn (h.first_mem e)
  have hl : l.last ≠ some n := fun e => hn (h.last_mem e)
  have hh : setPrev (setNext l.heap n none) n none = l.heap := by
    funext i
    unfold setPrev setNext
    by_cases e : i = n
    · subst e
      simp only [Function.update_same]
      cases hi : l.heap i with
      | mk el pv nx =>
        rw [hi] at hp hx
        simp only at hp hx
        rw [hp, hx]
    · simp only [Function.update_noteq e]
  unfold list.Delete
  simp only [hx, hp, if_neg hf, if_neg hl, hh]

/-- A node that has been deleted stays out of the list, whatever is called afterwards. -/
theorem gone_applyOp {α : Type} {l : list α} (h : WF l l.nodes) {n : Nat}
    (hlt : n < l.size) (hn : n ∉ l.nodes) (op : ListOp α) :
    n < (applyOp l op).size ∧ n ∉ (applyOp l op).nodes := by
  cases op with
  | insert x =>
    show n < (l.Insert x).1.size ∧ n ∉ (l.Insert x).1.nodes
    rw [Insert_size, (Insert_visits h x).1]
    refine ⟨Nat.lt_succ_of_lt hlt, fun hm => ?_⟩
    rcases List.mem_append.mp hm with hm | hm
    · exact hn hm
    · rw [List.mem_singleton.mp hm] at hlt
      exact Nat.lt_irrefl _ hlt
  | delete m =>
    show n < (l.Delete m).size ∧ n ∉ (l.Delete m).nodes
    rw [(Delete_visits h m).1]
    exact ⟨hlt, fun hm => hn (List.mem_of_mem_erase hm)⟩

theorem gone_runOps {α : Type} {l : list α} (h : WF l l.nodes) {n : Nat}
    (hlt : n < l.size) (hn : n ∉ l.nodes) (ops : List (ListOp α)) :
    n < (runOps l ops).size ∧ n ∉ (runOps l ops).nodes := by
  induction ops generalizing l with
  | nil => exact ⟨hlt, hn⟩
  | cons op ops ih =>
    have h1 := gone_applyOp h hlt hn op
    exact ih (applyOp_wf h op) h1.1 h1.2

/-- C15: let `n` be a node of the list built by the calls `ops1`, and let `n.Delete()` be
called, followed by any calls `ops2`.  Then `n` is not linked, and a further `n.Delete()`
leaves the whole list as it is: `first`, `last`, the fields of every node, and so the
traversal. -/
theorem C15_second_delete_noop {α : Type} [Inhabited α] (ops1 ops2 : List (ListOp α))
    (n : Nat) (hn : n < (build ops1).size) :
    n ∉ (build (ops1 ++ ListOp.delete n :: ops2)).nodes ∧
    (build (ops1 ++ ListOp.delete n :: ops2)).Delete n =
      build (ops1 ++ ListOp.delete n :: ops2) ∧
    ((build (ops1 ++ ListOp.delete n :: ops2)).Delete n).first =
      (build (ops1 ++ ListOp.delete n :: ops2)).first ∧
    ((build (ops1 ++ ListOp.delete n :: ops2)).Delete n).last =
      (build (ops1 ++ ListOp.delete n :: ops2)).last ∧
    ((build (ops1 ++ ListOp.delete n :: ops2)).Delete n).heap =
      (build (ops1 ++ ListOp.delete n :: ops2)).heap ∧
    ((build (ops1 ++ ListOp.delete n :: ops2)).Delete n).ForEach =
      (build (ops1 ++ ListOp.delete n :: ops2)).ForEach := by
  have h1 := build_wf ops1
  have e : build (ops1 ++ ListOp.delete n :: ops2) = runOps ((build ops1).Delete n) ops2 := by
    unfold build
    rw [runOps_append]
    rfl
  have h2 : WF ((build ops1).Delete n) ((build ops1).Delete n).nodes := (h1.Delete n).self
  have hgone : n ∉ ((build ops1).Delete n).nodes := by
    rw [(Delete_visits h1 n).1]
    exact fun hm => (List.Nodup.not_mem_erase h1.nodup) hm
  have h3 := gone_runOps h2 hn hgone ops2
  have h4 := runOps_wf h2 ops2
  rw [← e] at h3 h4
  have h5 := Delete_absent h4 h3.2
  refine ⟨h3.2, h5, ?_, ?_, ?_, ?_⟩ <;> rw [h5]

/-- Witness of C15, the test `delete 1 element` with two more calls in between: the only node
is deleted, another element is inserted and deleted, and the first node is deleted again. -/
theorem C15_second_delete_noop_witness :
    (build ([ListOp.insert 10] ++ ListOp.delete 0 :: [ListOp.insert 20])).ForEach = [20] ∧
    ((build ([ListOp.insert 10] ++ ListOp.delete 0 :: [ListOp.insert 20])).Delete 0).ForEach
      = (build ([ListOp.insert 10] ++ ListOp.delete 0 :: [ListOp.insert 20])).ForEach :=
  ⟨by decide!,
    (C15_second_delete_noop [ListOp.insert 10] [ListOp.insert 20] 0
      (by decide!)).2.2.2.2.2⟩

/-- Reference for the list claims, in the words of the claim: the addresses of the nodes that
are linked, in insertion order, and the number of nodes created so far.  A call of `Insert`
links the new node, whose address is the number of nodes created before it, at the end; a call
of `Delete` takes its node out. -/
def trackOp {α : Type} (st : List Nat × Nat) : ListOp α → List Nat × Nat
  | ListOp.insert _ => (st.1 ++ [st.2], st.2 + 1)
  | ListOp.delete n => (st.1.erase n, st.2)

/-- Reference for the list claims: the linked nodes and the number of nodes after the calls
`ops` on a new list. -/
def linkedAfter {α : Type} (ops : List (ListOp α)) : List Nat × Nat :=
  ops.foldl trackOp ([], 0)

theorem runOps_track {α : Type} {l : list α} (h : WF l l.nodes) (ops : List (ListOp α)) :
    ((runOps l ops).nodes, (runOps l ops).size) = ops.foldl trackOp (l.nodes, l.size) := by
  induction ops generalizing l with
  | nil => rfl
  | cons op ops ih =>
    show ((runOps (applyOp l op) ops).nodes, (runOps (applyOp l op) ops).size) =
      ops.foldl trackOp (trackOp (l.nodes, l.size) op)
    rw [ih (applyOp_wf h op)]
    congr 1
    cases op with
    | insert x =>
      show ((l.Insert x).1.nodes, (l.Insert x).1.size) = _
      rw [(Insert_visits h x).1, Insert_size]
      rfl
    | delete n =>
      show ((l.Delete n).nodes, (l.Delete n).size) = _
      rw [(Delete_visits h n).1]
      rfl

/-- The linked nodes of a built list are those of the reference. -/
theorem build_track {α : Type} [Inhabited α] (ops : List (ListOp α)) :
    ((build ops).nodes, (build ops).size) = linkedAfter ops := by
  have := runOps_track (WF.newList α).self ops
  rw [(WF.newList α).nodes_eq] at this
  exact this

/-- A node on which `Delete` has been called is not linked, whatever is called afterwards. -/
theorem deleted_gone {α : Type} [Inhabited α] (ops1 ops2 : List (ListOp α)) (n : Nat)
    (hn : n < (build ops1).size) : n ∉ (build (ops1 ++ ListOp.delete n :: ops2)).nodes := by
  have h1 := build_wf ops1
  have e : build (ops1 ++ ListOp.delete n :: ops2) = runOps ((build ops1).Delete n) ops2 := by
    unfold build
    rw [runOps_append]
    rfl
  have h2 : WF ((build ops1).Delete n) ((build ops1).Delete n).nodes := (h1.Delete n).self
  have hgone : n ∉ ((build ops1).Delete n).nodes := by
    rw [(Delete_visits h1 n).1]
    exact fun hm => (List.Nodup.not_mem_erase h1.nodup) hm
  rw [e]
  exact (gone_runOps h2 hn hgone ops2).2

/-- C16: in the list built by any sequence of calls of `Insert` and `Delete` on a new list,
`first` is nil exactly when `last` is; `first.prev` and `last.next` are nil; for every node `n`
the traversal visits, `n.next.prev` is `n` when `n.next` is not nil and `n.prev.next` is `n`
when `n.prev` is not nil, and these neighbours are visited too; the chain from `first` along
`next` is the traversal and ends at `last`, and backwards from `last` along `prev` it is the
same chain reversed; the loop ends within `size` iterations; every node that is not visited has
`prev` and `next` nil; the visited nodes are those of the reference `linkedAfter`, the nodes
inserted and not deleted, in insertion order; and every node on which `Delete` has been called,
whatever was called afterwards, is not visited and has `prev` and `next` nil. -/
theorem C16_links_well_formed {α : Type} [Inhabited α] (ops : List (ListOp α)) :
    ((build ops).first = none ↔ (build ops).last = none) ∧
    (∀ f, (build ops).first = some f → ((build ops).heap f).prev = none) ∧
    (∀ la, (build ops).last = some la → ((build ops).heap la).next = none) ∧
    (∀ n m, n ∈ (build ops).nodes → ((build ops).heap n).next = some m →
      m ∈ (build ops).nodes ∧ ((build ops).heap m).prev = some n) ∧
    (∀ n m, n ∈ (build ops).nodes → ((build ops).heap n).prev = some m →
      m ∈ (build ops).nodes ∧ ((build ops).heap m).next = some n) ∧
    chainBy (fun i => ((build ops).heap i).next) (build ops).first (build ops).nodes ∧
    chainBy (fun i => ((build ops).heap i).prev) (build ops).last (build ops).nodes.reverse ∧
    (build ops).nodes.head? = (build ops).first ∧
    (build ops).nodes.getLast? = (build ops).last ∧
    (build ops).nodes.Nodup ∧
    (∀ fuel, (build ops).size ≤ fuel →
      walk (build ops).heap fuel (build ops).first = (build ops).nodes) ∧
    (∀ n, n ∉ (build ops).nodes →
      ((build ops).heap n).prev = none ∧ ((build ops).heap n).next = none) ∧
    ((build ops).nodes, (build ops).size) = linkedAfter ops ∧
    (∀ ops1 ops2 n, ops = ops1 ++ ListOp.delete n :: ops2 → n < (build ops1).size →
      n ∉ (build ops).nodes ∧
      ((build ops).heap n).prev = none ∧ ((build ops).heap n).next = none) := by
  have h := build_wf ops
  refine ⟨h.first_none_iff, ?_, ?_, fun n m hn hm => h.next_prev hn hm,
    fun n m hn hm => h.prev_next hn hm, h.fwd, h.bwd, h.first_eq.symm, h.last_eq.symm,
    h.nodup, fun fuel hf => walk_enough h hf, h.iso, build_track ops, ?_⟩
  · intro f hf
    have hm := h.first_mem hf
    cases hp : ((build ops).heap f).prev with
    | none => rfl
    | some m =>
      exfalso
      have h1 := h.prev_next hm hp
      -- `m` would come before the first node of the chain
      obtain ⟨a, b, hab⟩ := List.append_of_mem h1.1
      have h2 := chainBy_mid (hab ▸ h.fwd)
      simp only at h2
      rw [h1.2] at h2
      have hfe := h.first_eq
      rw [hf, hab] at hfe
      have hnd := h.nodup
      rw [hab] at hnd
      cases a with
      | nil =>
        simp at hfe
        subst hfe
        exact h.prev_ne_self hm hp
      | cons a0 a =>
        simp at hfe
        subst hfe
        cases b with
        | nil => simp at h2
        | cons b0 b =>
          simp at h2
          subst h2
          simp at hnd
  · intro la hla
    exact (h.next_none_iff (h.last_mem hla)).mpr hla
  · intro ops1 ops2 n e hn
    have hg : n ∉ (build ops).nodes := by rw [e]; exact deleted_gone ops1 ops2 n hn
    exact ⟨hg, h.iso n hg⟩

/-- Witness of C16, the test `delete middle from 3 elements`: after three calls of `Insert` and
`Delete` on the middle node, that node has `prev` and `next` nil, the traversal visits the two
others, and they point to each other. -/
theorem C16_links_well_formed_witness :
    (1 ∉ (build [ListOp.insert 10, ListOp.insert 20, ListOp.insert 30,
        ListOp.delete 1]).nodes ∧
      ((build [ListOp.insert 10, ListOp.insert 20, ListOp.insert 30,
        ListOp.delete 1]).heap 1).prev = none ∧
      ((build [ListOp.insert 10, ListOp.insert 20, ListOp.insert 30,
        ListOp.delete 1]).heap 1).next = none) ∧
    (build [ListOp.insert 10, ListOp.insert 20, ListOp.insert 30, ListOp.delete 1]).nodes
      = [0, 2] ∧
    ((build [ListOp.insert 10, ListOp.insert 20, ListOp.insert 30,
      ListOp.delete 1]).heap 0).next = some 2 ∧
    ((build [ListOp.insert 10, ListOp.insert 20, ListOp.insert 30,
      ListOp.delete 1]).heap 2).prev = some 0 ∧
    (build [ListOp.insert 10, ListOp.insert 20, ListOp.insert 30, ListOp.delete 1]).first
      = some 0 ∧
    (build [ListOp.insert 10, ListOp.insert 20, ListOp.insert 30, ListOp.delete 1]).last
      = some 2 :=
  ⟨(C16_links_well_formed [ListOp.insert 10, ListOp.insert 20, ListOp.insert 30,
      ListOp.delete 1]).2.2.2.2.2.2.2.2.2.2.2.2.2
      [ListOp.insert 10, ListOp.insert 20, ListOp.insert 30] [] 1 rfl (by decide!),
    by decide!, by decide!, by decide!, by decide!, by decide!⟩

end claims

end changroup
